import Mathlib

/-!
Bulk verification engine (cmd/bulkserver): model and properties.

A shallow embedding of `jobs.go`, `callback.go` and `server.go`.

Conventions of the embedding.

* A Go `string` is a Lean `String`, read as its sequence of Unicode scalar
  values; Go compares strings bytewise, which on UTF-8 text is the
  lexicographic order of the scalar values (`ltChars`).
* `time.Time` and `time.Duration` are integers (nanoseconds); a call of
  `time.Now()` is a parameter `now`.
* A Go map is an association list with at most one entry per key
  (`mapSet` replaces, `mapDelete` removes).
* The external verifier (`emailverifier`) is the record `Env` of its entry
  points.  `CheckMX` and `Verify` perform network I/O, so their answer may
  differ from call to call: they are indexed by the position of the address
  in the job.
* A pointer that may be nil is an `Option`.
* A function that can panic returns an `Option`, `none` being the panic.
* A `float64` is the value `F64`; its arithmetic rounds to nearest, ties to
  even.
-/

namespace Bulk

/-! ## Data model (jobs.go, emailverifier result types) -/

inductive JobStatus where
  | JobQueued
  | JobRunning
  | JobCompleted
  | JobFailed
deriving DecidableEq, Repr

/-- Result of `ParseAddress` (emailverifier.Syntax). -/
structure Syntax where
  Username : String
  Domain : String
  Valid : Bool
deriving DecidableEq, Repr

/-- SMTP section of a verdict (emailverifier.SMTP). -/
structure SMTP where
  HostExists : Bool
  FullInbox : Bool
  CatchAll : Bool
  Deliverable : Bool
  Disabled : Bool
deriving DecidableEq, Repr

/-- MX lookup result (emailverifier.Mx); only the field the server reads. -/
structure Mx where
  HasMXRecord : Bool
deriving DecidableEq, Repr

/-- Verdict of the verifier (emailverifier.Result), without the Gravatar
section, which the server never reads. -/
structure Result where
  Email : String
  Reachable : String
  Syntax : Syntax
  SMTP : Option SMTP
  Suggestion : String
  Disposable : Bool
  RoleAccount : Bool
  Free : Bool
  HasMxRecords : Bool
deriving DecidableEq, Repr

structure EmailResult where
  Email : String
  Result : Option Result
  Error : String
deriving DecidableEq, Repr

structure Job where
  ID : String
  Level : Int
  Total : Nat
  Done : Nat
  Failed : Nat
  Status : JobStatus
  CreatedAt : Int
  StartedAt : Option Int
  FinishedAt : Option Int
  Error : String
  StoreResults : Bool
  results : List EmailResult
  domains : List (String × Bool)
deriving DecidableEq, Repr

structure JobManager where
  jobs : List (String × Job)
  resultTTL : Int
deriving DecidableEq, Repr

/-! ## Go maps -/

def mapGet {β : Type} (m : List (String × β)) (k : String) : Option β :=
  match m with
  | [] => none
  | (k1, v) :: rest => if k1 = k then some v else mapGet rest k

def mapDelete {β : Type} (m : List (String × β)) (k : String) : List (String × β) :=
  m.filter (fun kv => decide (kv.1 ≠ k))

def mapSet {β : Type} (m : List (String × β)) (k : String) (v : β) : List (String × β) :=
  (k, v) :: mapDelete m k

/-! ## jobs.go -/

/-- The job built by `CreateJob`; `id` is the value of `newJobID()`. -/
def newJob (id : String) (now : Int) (level : Int) (total : Nat) (storeResults : Bool) : Job :=
  { ID := id, Level := level, Total := total, Done := 0, Failed := 0,
    Status := JobStatus.JobQueued, CreatedAt := now, StartedAt := none,
    FinishedAt := none, Error := "", StoreResults := storeResults,
    results := [], domains := [] }

def JobManager.CreateJob (jm : JobManager) (id : String) (now : Int) (level : Int)
    (total : Nat) (storeResults : Bool) : JobManager × Job :=
  let job := newJob id now level total storeResults
  ({ jm with jobs := mapSet jm.jobs job.ID job }, job)

def JobManager.GetJob (jm : JobManager) (id : String) : Option Job :=
  mapGet jm.jobs id

def JobManager.DeleteJob (jm : JobManager) (id : String) : JobManager :=
  { jm with jobs := mapDelete jm.jobs id }

def Job.addResult (j : Job) (res : EmailResult) : Job :=
  if !j.StoreResults then j else { j with results := j.results ++ [res] }

def Job.markRunning (j : Job) (now : Int) : Job :=
  { j with Status := JobStatus.JobRunning, StartedAt := some now }

def Job.markCompleted (j : Job) (now : Int) : Job :=
  { j with Status := JobStatus.JobCompleted, FinishedAt := some now }

/-- The argument is `none` for a nil error, else the text of `err.Error()`. -/
def Job.markFailed (j : Job) (now : Int) (err : Option String) : Job :=
  match err with
  | some msg => { j with Status := JobStatus.JobFailed, FinishedAt := some now, Error := msg }
  | none => { j with Status := JobStatus.JobFailed, FinishedAt := some now }

def Job.isExpired (j : Job) (cutoff : Int) : Bool :=
  match j.FinishedAt with
  | none => false
  | some t => decide (t < cutoff)

/-- One janitor pass at time `now`. -/
def JobManager.cleanup (jm : JobManager) (now : Int) : JobManager :=
  if jm.resultTTL ≤ 0 then jm
  else
    let cutoff := now + (-jm.resultTTL)
    let toDelete := (jm.jobs.filter (fun kv => kv.2.isExpired cutoff)).map Prod.fst
    if toDelete.length = 0 then jm
    else { jm with jobs := toDelete.foldl mapDelete jm.jobs }

def Job.setCatchAll (j : Job) (domain : String) (isCatchAll : Bool) : Job :=
  { j with domains := mapSet j.domains domain isCatchAll }

/-- Go returns `(val, ok)`; `none` is `ok = false`. -/
def Job.getCatchAll (j : Job) (domain : String) : Option Bool :=
  mapGet j.domains domain

def Job.incDone (j : Job) : Job := { j with Done := j.Done + 1 }

def Job.incFailed (j : Job) : Job := { j with Failed := j.Failed + 1 }

/-- Two's-complement wrap of a Go `int` (64 bits). -/
def wrapInt (x : Int) : Int := (x + 2 ^ 63) % 2 ^ 64 - 2 ^ 63

/-- The slice `xs[lo:hi]`; `none` is the run-time panic for bad bounds.  The
upper bound is checked against the length; Go checks it against the capacity,
which is at least the length, and `getResults` never passes a larger one. -/
def goSlice {α : Type} (xs : List α) (lo hi : Int) : Option (List α) :=
  if 0 ≤ lo ∧ lo ≤ hi ∧ hi ≤ (xs.length : Int) then
    some ((xs.drop lo.toNat).take (hi.toNat - lo.toNat))
  else none

def Job.getResults (j : Job) (offset limit : Int) : Option (List EmailResult × Int) :=
  let total : Int := j.results.length
  if offset > total then some ([], total)
  else
    let end0 := wrapInt (offset + limit)
    let end1 := if end0 > total then total else end0
    match goSlice j.results offset end1 with
    | some rs => some (rs, total)
    | none => none

/-! ## callback.go -/

structure CallbackPayload where
  JobID : String
  Results : List EmailResult
  Final : Bool
deriving DecidableEq, Repr

/-- A callback sender: `ch` is everything enqueued so far, oldest first. -/
structure CallbackSender where
  url : String
  batchSize : Int
  jobID : String
  ch : List EmailResult
deriving DecidableEq, Repr

/-- The largest capacity with which `make(chan EmailResult, size)` returns on
a 64-bit platform.  The run time (`runtime.makechan`) panics with "makechan:
size out of range" when `size` is negative or when the buffer, `size`
elements of 40 bytes each (two strings and a pointer), is larger than its
limit of `2^48 - 96` bytes. -/
def maxChanCap : Int := 7036874417764

/-- The call `make(chan EmailResult, size)` returns.  An allocation within
the limits of the run time is taken to succeed. -/
def makeChanOK (size : Int) : Bool :=
  decide (0 ≤ size ∧ size ≤ maxChanCap)

/-- The constructor; `none` is the panic of `make(chan EmailResult,
batchSize*2)`, whose capacity is a Go `int` and wraps. -/
def NewCallbackSender (url : String) (batchSize : Int) : Option CallbackSender :=
  if makeChanOK (wrapInt (batchSize * 2)) then
    some { url := url, batchSize := batchSize, jobID := "", ch := [] }
  else none

def CallbackSender.Start (c : CallbackSender) (jobID : String) : CallbackSender :=
  { c with jobID := jobID }

def CallbackSender.Enqueue (c : CallbackSender) (res : EmailResult) : CallbackSender :=
  { c with ch := c.ch ++ [res] }

/-- The consumer loop from the state `batch`, reading `ch` until it is
closed; the value is the list of payloads handed to `postPayload`. -/
def CallbackSender.loopFrom (jobID : String) (batchSize : Int) :
    List EmailResult → List EmailResult → List CallbackPayload
  | batch, [] =>
      if batch.length > 0 then [{ JobID := jobID, Results := batch, Final := false }] else []
  | batch, res :: rest =>
      let batch1 := batch ++ [res]
      if (batch1.length : Int) ≥ batchSize then
        { JobID := jobID, Results := batch1, Final := false } ::
          CallbackSender.loopFrom jobID batchSize [] rest
      else CallbackSender.loopFrom jobID batchSize batch1 rest

def CallbackSender.loop (c : CallbackSender) : List CallbackPayload :=
  CallbackSender.loopFrom c.jobID c.batchSize [] c.ch

/-- All payloads posted by a sender that is closed after `c.ch`. -/
def CallbackSender.Close (c : CallbackSender) (final : Bool) : List CallbackPayload :=
  c.loop ++ (if final then [{ JobID := c.jobID, Results := [], Final := true }] else [])

/-! ## Go strings -/

/-- The predicate `unicode.IsSpace`. -/
def isSpace (c : Char) : Bool :=
  let n := c.toNat
  (9 ≤ n && n ≤ 13) || n = 32 || n = 133 || n = 160 || n = 5760 ||
    (8192 ≤ n && n ≤ 8202) || n = 8232 || n = 8233 || n = 8239 || n = 8287 || n = 12288

def trimLeft : List Char → List Char
  | [] => []
  | c :: cs => if isSpace c then trimLeft cs else c :: cs

/-- The function `strings.TrimSpace`. -/
def TrimSpace (s : String) : String :=
  String.mk (trimLeft (trimLeft s.data).reverse).reverse

/-- Go's `<` on strings, on the scalar values. -/
def ltChars : List Char → List Char → Bool
  | [], [] => false
  | [], _ :: _ => true
  | _ :: _, [] => false
  | a :: as, b :: bs =>
      if a.toNat < b.toNat then true
      else if b.toNat < a.toNat then false
      else ltChars as bs

/-- Scan for `strings.LastIndex(s, "@")`: `pos` is the index of the head of
the remaining input, `found` the last index seen so far (-1 for none). -/
def lastIndexFrom (sep : Char) : List Char → Int → Int → Int
  | [], _, found => found
  | c :: cs, pos, found => lastIndexFrom sep cs (pos + 1) (if c = sep then pos else found)

def LastIndex (s : String) (sep : Char) : Int :=
  lastIndexFrom sep s.data 0 (-1)

/-- The sort key computed inside the comparison function of `handleBulk`
(`di`, `dj`). -/
def domainKey (email : String) : String :=
  let idx := LastIndex email '@'
  if idx ≠ -1 then String.mk (email.data.drop (idx + 1).toNat) else ""

/-- The comparison function handed to `sort.Slice` in `handleBulk`. -/
def lessByDomain (a b : String) : Bool :=
  ltChars (domainKey a).data (domainKey b).data

def insertBy {α : Type} (less : α → α → Bool) (x : α) : List α → List α
  | [] => [x]
  | y :: ys => if less y x then y :: insertBy less x ys else x :: y :: ys

/-- The library call `sort.Slice(xs, less)`, as an insertion sort.  The
library promises a permutation ordered by `less` and leaves the order of
elements with equal keys open; this model keeps them in input order (`x`
is put in front of the first element of the sorted tail that is not less
than `x`), as the library does on slices of at most twelve elements. -/
def sortSlice {α : Type} (less : α → α → Bool) : List α → List α
  | [] => []
  | x :: xs => insertBy less x (sortSlice less xs)

/-! ## Go `float64`

A `float64` is a finite value, an infinity or a NaN.  Every arithmetic
operation rounds its exact result once, to the nearest value with ties to the
even significand, as the amd64 compiler emits them (no fused multiply-add).
The sign of a zero is not represented: no operation used here reads it. -/

inductive F64 where
  | fin (q : ℚ)
  | inf (neg : Bool)
  | nan
deriving DecidableEq

/-- The nearest integer, halves to the even one. -/
def roundEven (q : ℚ) : Int :=
  let f := Int.floor q
  if q - f < 1 / 2 then f
  else if 1 / 2 < q - f then f + 1
  else if f % 2 = 0 then f else f + 1

/-- The exponent of the unit in the last place of the `float64` values around
`x`: 52 below the exponent of `x`, and 52 below the smallest normal
exponent for a subnormal `x`. -/
def F64.ulpExp (x : ℚ) : Int := max (Int.log 2 |x|) (-1022) - 52

/-- The multiple of the unit in the last place nearest to `x`. -/
def F64.rnd (x : ℚ) : ℚ := (roundEven (x / 2 ^ F64.ulpExp x) : ℚ) * 2 ^ F64.ulpExp x

/-- The `float64` an exact result rounds to; beyond the largest finite value
it is an infinity. -/
def F64.ofRat (x : ℚ) : F64 :=
  if (2 : ℚ) ^ (1024 : ℕ) ≤ |F64.rnd x| then F64.inf (decide (x < 0)) else F64.fin (F64.rnd x)

def F64.mul : F64 → F64 → F64
  | F64.fin a, F64.fin b => F64.ofRat (a * b)
  | F64.fin a, F64.inf s => if a = 0 then F64.nan else F64.inf (xor s (decide (a < 0)))
  | F64.inf s, F64.fin b => if b = 0 then F64.nan else F64.inf (xor s (decide (b < 0)))
  | F64.inf s, F64.inf t => F64.inf (xor s t)
  | _, _ => F64.nan

def F64.add : F64 → F64 → F64
  | F64.fin a, F64.fin b => F64.ofRat (a + b)
  | F64.fin _, F64.inf s => F64.inf s
  | F64.inf s, F64.fin _ => F64.inf s
  | F64.inf s, F64.inf t => if s = t then F64.inf s else F64.nan
  | _, _ => F64.nan

def F64.neg : F64 → F64
  | F64.fin a => F64.fin (-a)
  | F64.inf s => F64.inf (!s)
  | F64.nan => F64.nan

def F64.sub (a b : F64) : F64 := a.add b.neg

/-- The function `math.Round` on a number: nearest integer, halves away from
zero. -/
def goRound (q : ℚ) : Int :=
  if 0 ≤ q then Int.floor (q + 1 / 2) else - Int.floor (-q + 1 / 2)

/-- The function `math.Round`. -/
def F64.Round : F64 → F64
  | F64.fin q => F64.fin (goRound q)
  | x => x

/-- The conversion `int(f)`: truncation toward zero; for a value outside the
range of `int`, an infinity or a NaN the amd64 instruction yields `-2^63`. -/
def F64.toInt : F64 → Int
  | F64.fin q =>
      let t := if 0 ≤ q then Int.floor q else Int.ceil q
      if -(2 ^ 63) ≤ t ∧ t < 2 ^ 63 then t else -(2 ^ 63)
  | _ => -(2 ^ 63)

/-! ## server.go: request handling -/

structure Config where
  MaxEmails : Int
  ResultTTL : Int
  StoreResults : Bool
  DefaultJobConcurrency : Int
  ValidationRate : F64
  RateJitter : F64

structure BulkRequest where
  Emails : List String
  Level : Int
  Concurrency : Int
  StoreResults : Option Bool
  CallbackURL : String
  CallbackBatch : Int
deriving DecidableEq, Repr

/-- What `handleBulk` reads of an HTTP request.  `jsonBody` is the outcome of
decoding the body as JSON (`none`: decode error); `csvEmails` is the outcome
of `readCSVEmails` on the body; `queryLevel` and `queryConcurrency` are the
values of `parseQueryInt` on the query parameters (defaults 1 and 0). -/
structure Request where
  Method : String
  ContentType : String
  jsonBody : Option BulkRequest
  csvEmails : Except String (List String)
  queryLevel : Int
  queryConcurrency : Int

structure ParsedBulk where
  emails : List String
  level : Int
  concurrency : Int
  storeResults : Bool
  callbackURL : String
  callbackBatch : Int
deriving DecidableEq, Repr

def normalizeLevel (level : Int) : Int :=
  let level1 := if level = 0 then 1 else level
  if level1 ≠ 1 ∧ level1 ≠ 2 then 0 else level1

def normalizeEmails : List String → List String
  | [] => []
  | e :: rest =>
      let e1 := TrimSpace e
      if e1 = "" then normalizeEmails rest else e1 :: normalizeEmails rest

def startsWith (s p : String) : Bool := p.data.isPrefixOf s.data

/-- The request's `store_results` when it is given (the pointer is not nil),
else the server default. -/
def BulkRequest.storeResultsOr (req : BulkRequest) (dflt : Bool) : Bool :=
  match req.StoreResults with
  | some b => b
  | none => dflt

def parseBulkRequest (cfg : Config) (r : Request) : Except String ParsedBulk :=
  if startsWith r.ContentType "application/json" || r.ContentType = "" then
    match r.jsonBody with
    | none => Except.error "invalid_json"
    | some req =>
        let level := normalizeLevel req.Level
        if level = 0 then Except.error "invalid_level"
        else
          let emails := normalizeEmails req.Emails
          let storeResults := req.storeResultsOr cfg.StoreResults
          Except.ok { emails := emails, level := level, concurrency := req.Concurrency,
                      storeResults := storeResults, callbackURL := req.CallbackURL,
                      callbackBatch := req.CallbackBatch }
  else if startsWith r.ContentType "text/csv" then
    match r.csvEmails with
    | Except.error err => Except.error err
    | Except.ok emails =>
        let level := normalizeLevel r.queryLevel
        if level = 0 then Except.error "invalid_level"
        else
          Except.ok { emails := emails, level := level, concurrency := r.queryConcurrency,
                      storeResults := cfg.StoreResults, callbackURL := "",
                      callbackBatch := 0 }
  else Except.error "unsupported_content_type"

inductive Response where
  | error (status : Nat) (code : String)
  | accepted (id : String) (total : Nat)
deriving DecidableEq, Repr

/-- The arguments of the `go s.runJob(...)` statement of `handleBulk`. -/
structure Launch where
  job : Job
  emails : List String
  concurrency : Int
  callbackURL : String
  callbackBatch : Int
deriving DecidableEq, Repr

structure BulkOutcome where
  resp : Response
  jobs : JobManager
  launch : Option Launch
deriving DecidableEq, Repr

/-- The handler `handleBulk`; `newID` is the value `newJobID()` would draw and
`now` the clock, both used only when a job is created. -/
def handleBulk (cfg : Config) (jm : JobManager) (newID : String) (now : Int)
    (r : Request) : BulkOutcome :=
  if r.Method ≠ "POST" then
    { resp := Response.error 405 "method_not_allowed", jobs := jm, launch := none }
  else
    match parseBulkRequest cfg r with
    | Except.error err => { resp := Response.error 400 err, jobs := jm, launch := none }
    | Except.ok p =>
        if p.emails.length = 0 then
          { resp := Response.error 400 "emails_required", jobs := jm, launch := none }
        else if (p.emails.length : Int) > cfg.MaxEmails then
          { resp := Response.error 400 "emails_limit_exceeded", jobs := jm, launch := none }
        else
          let emails := sortSlice lessByDomain p.emails
          let created := jm.CreateJob newID now p.level emails.length p.storeResults
          { resp := Response.accepted created.2.ID created.2.Total,
            jobs := created.1,
            launch := some { job := created.2, emails := emails, concurrency := p.concurrency,
                             callbackURL := p.callbackURL, callbackBatch := p.callbackBatch } }

/-! ## server.go: CSV download -/

def FormatBool (b : Bool) : String := if b then "true" else "false"

def formatBoolPtr (smtp : Option SMTP) (f : SMTP → Bool) : String :=
  match smtp with
  | none => ""
  | some s => FormatBool (f s)

def csvHeader : List String :=
  ["email", "reachable", "syntax_valid", "syntax_username", "syntax_domain", "disposable",
   "role_account", "free", "has_mx_records", "suggestion", "smtp_host_exists",
   "smtp_full_inbox", "smtp_catch_all", "smtp_deliverable", "smtp_disabled"]

/-- The record `writeCSV` writes for one stored result. -/
def csvRow (r : EmailResult) : List String :=
  match r.Result with
  | none => [r.Email, "", "", "", "", "", "", "", "", "", "", "", "", "", ""]
  | some res =>
      let smtp := res.SMTP
      [res.Email, res.Reachable, FormatBool res.Syntax.Valid, res.Syntax.Username,
       res.Syntax.Domain, FormatBool res.Disposable, FormatBool res.RoleAccount,
       FormatBool res.Free, FormatBool res.HasMxRecords, res.Suggestion,
       formatBoolPtr smtp (fun s => s.HostExists), formatBoolPtr smtp (fun s => s.FullInbox),
       formatBoolPtr smtp (fun s => s.CatchAll), formatBoolPtr smtp (fun s => s.Deliverable),
       formatBoolPtr smtp (fun s => s.Disabled)]

/-- The largest Go `int`, `int(^uint(0)>>1)`. -/
def maxInt : Int := 2 ^ 63 - 1

/-- The records handed to the CSV writer, header first; `none` is a panic. -/
def writeCSV (job : Job) : Option (List (List String)) :=
  (job.getResults 0 maxInt).map (fun p => csvHeader :: p.1.map csvRow)

/-! ## server.go: rate pacer -/

/-- The variation of one tick, `(r.Float64() * 2 * offset) - offset` with
`offset := rate * jitter`; `u` is the value of `r.Float64()`. -/
def jitterVariation (rate jitter : F64) (u : ℚ) : F64 :=
  let offset := rate.mul jitter
  (((F64.fin u).mul (F64.fin 2)).mul offset).sub offset

/-- Tokens the producer tries to add on one tick; `u` is the value of
`r.Float64()`. -/
def refillCount (rate jitter : F64) (u : ℚ) : Int :=
  let count := (rate.add (jitterVariation rate jitter u)).Round.toInt
  if count < 1 then 1 else count

/-- The largest number of tokens a tick can add at rate `R` and jitter `J`:
the count at the top of the jitter band, `max(1, round(R + R*J))` with the
sum and the product in `float64` arithmetic, and the largest `int` when that
sum is not finite. -/
def tickMax (R J : ℚ) : Int :=
  match (F64.fin R).add ((F64.fin R).mul (F64.fin J)) with
  | F64.fin q => max 1 (goRound q)
  | _ => 2 ^ 63 - 1

/-- Capacity of `rateCh`. -/
def rateCap : Nat := 1000

/-- Pacer state: tokens in `rateCh`, and tokens received by consumers. -/
structure Pacer where
  bucket : Nat
  obtained : Nat
deriving DecidableEq, Repr

/-- One `select { case s.rateCh <- struct{}{}: default: }`. -/
def Pacer.trySend (p : Pacer) : Pacer :=
  if p.bucket < rateCap then { p with bucket := p.bucket + 1 } else p

/-- One consumer at `<-s.rateCh`: it gets a token if there is one and stays
blocked otherwise. -/
def Pacer.recv (p : Pacer) : Pacer :=
  if 0 < p.bucket then { bucket := p.bucket - 1, obtained := p.obtained + 1 } else p

/-! ## server.go: the worker pool of `runJob`

The pool is a transition system.  Every access of a worker to state shared
with other goroutines is one atomic step (the job's fields are guarded by
its mutex or updated by `atomic.AddInt64`; the MX cache is a `sync.Map`);
what a worker computes on its own locals is merged into the step before.  A
schedule, the list of the worker indices in the order in which they take
their steps, fixes an interleaving. -/

/-- The external verifier.  `Verify` returns `(res, err)`: `Except.error` holds
`err.Error()` when `err` is not nil, `Except.ok` the verdict otherwise. -/
structure Env where
  ParseAddress : String → Syntax
  IsDisposable : String → Bool
  IsFreeDomain : String → Bool
  CheckMX : Nat → String → Option Mx
  Verify : Nat → String → Except String Result

/-- State shared by the workers of one job.  `jobsCh` holds the addresses the
producer has not handed over yet, each with its position in the job; the
channel is closed when it is empty.  `callback` is the sender, if any.
The last three fields record history and are never read by the
workers: `tokens` counts the receives on `s.rateCh`, `verifyLog` lists the
positions passed to `vJob.Verify`, `emitted` the arguments of `addResult`. -/
structure Shared where
  job : Job
  mxCache : List (String × Mx)
  jobsCh : List (Nat × String)
  callback : Option CallbackSender
  tokens : Nat
  verifyLog : List Nat
  emitted : List (Nat × EmailResult)

/-- Control point of a worker: the shared access it performs next, with the
locals that are live there (`i`: position of the address it holds). -/
inductive Worker where
  | recv
  | exited
  | token (i : Nat) (email : String)
  | mxLoad (i : Nat) (email : String) (syn : Syntax)
  | checkMX (i : Nat) (email : String) (syn : Syntax)
  | getCatchAll (i : Nat) (email : String) (syn : Syntax) (mx : Option Mx)
  | verify (i : Nat) (email : String) (syn : Syntax)
  | setCatchAll (i : Nat) (email : String) (syn : Syntax) (res : Result)
  | incFailed (i : Nat) (email : String) (msg : String)
  | addResult (i : Nat) (email : String) (result : EmailResult) (errd : Bool)
  | enqueue (i : Nat) (email : String) (result : EmailResult) (errd : Bool)
  | incDone (i : Nat) (email : String) (errd : Bool)
deriving DecidableEq, Repr

/-- The verdict `&emailverifier.Result{Email: email, Syntax: syntax,
Reachable: "no"}` of the invalid-syntax branch. -/
def invalidVerdict (email : String) (syn : Syntax) : Result :=
  { Email := email, Reachable := "no", Syntax := syn, SMTP := none, Suggestion := "",
    Disposable := false, RoleAccount := false, Free := false, HasMxRecords := false }

def mxPresent (mx : Option Mx) : Bool :=
  match mx with
  | none => false
  | some m => m.HasMXRecord

/-- The verdict of the level-1 branch. -/
def level1Verdict (env : Env) (email : String) (syn : Syntax) (mx : Option Mx) : Result :=
  let res : Result :=
    { Email := email, Reachable := "unknown", Syntax := syn, SMTP := none, Suggestion := "",
      Disposable := env.IsDisposable syn.Domain, RoleAccount := false,
      Free := env.IsFreeDomain syn.Domain, HasMxRecords := mxPresent mx }
  if !mxPresent mx then { res with Reachable := "no" } else res

/-- The verdict of the catch-all cache hit. -/
def catchAllVerdict (env : Env) (email : String) (syn : Syntax) : Result :=
  { Email := email, Reachable := "unknown", Syntax := syn,
    SMTP := some { HostExists := true, FullInbox := false, CatchAll := true,
                   Deliverable := false, Disabled := false },
    Suggestion := "", Disposable := env.IsDisposable syn.Domain, RoleAccount := false,
    Free := env.IsFreeDomain syn.Domain, HasMxRecords := true }

/-- The test `res.SMTP != nil && res.SMTP.CatchAll`. -/
def Result.isCatchAll (res : Result) : Bool :=
  match res.SMTP with
  | none => false
  | some s => s.CatchAll

/-- One atomic step of a worker. -/
def Worker.step (env : Env) (sh : Shared) : Worker → Shared × Worker
  | Worker.recv =>
      match sh.jobsCh with
      | [] => (sh, Worker.exited)
      | (i, email) :: rest => ({ sh with jobsCh := rest }, Worker.token i email)
  | Worker.exited => (sh, Worker.exited)
  | Worker.token i email =>
      let sh1 := if sh.job.Level = 2 then { sh with tokens := sh.tokens + 1 } else sh
      let syn := env.ParseAddress email
      if !syn.Valid then
        (sh1, Worker.addResult i email
          { Email := email, Result := some (invalidVerdict email syn), Error := "" } false)
      else (sh1, Worker.mxLoad i email syn)
  | Worker.mxLoad i email syn =>
      match mapGet sh.mxCache syn.Domain with
      | some m => (sh, Worker.getCatchAll i email syn (some m))
      | none => (sh, Worker.checkMX i email syn)
  | Worker.checkMX i email syn =>
      match env.CheckMX i syn.Domain with
      | some m =>
          ({ sh with mxCache := mapSet sh.mxCache syn.Domain m },
            Worker.getCatchAll i email syn (some m))
      | none => (sh, Worker.getCatchAll i email syn none)
  | Worker.getCatchAll i email syn mx =>
      let cached := sh.job.getCatchAll syn.Domain
      if sh.job.Level = 1 then
        (sh, Worker.addResult i email
          { Email := email, Result := some (level1Verdict env email syn mx), Error := "" } false)
      else if cached = some true then
        (sh, Worker.addResult i email
          { Email := email, Result := some (catchAllVerdict env email syn), Error := "" } false)
      else (sh, Worker.verify i email syn)
  | Worker.verify i email syn =>
      let sh1 := { sh with verifyLog := sh.verifyLog ++ [i] }
      match env.Verify i email with
      | Except.error msg => (sh1, Worker.incFailed i email msg)
      | Except.ok res =>
          if res.isCatchAll then (sh1, Worker.setCatchAll i email syn res)
          else (sh1, Worker.addResult i email
                  { Email := email, Result := some res, Error := "" } false)
  | Worker.setCatchAll i email syn res =>
      ({ sh with job := sh.job.setCatchAll syn.Domain true },
        Worker.addResult i email { Email := email, Result := some res, Error := "" } false)
  | Worker.incFailed i email msg =>
      ({ sh with job := sh.job.incFailed },
        Worker.addResult i email { Email := email, Result := none, Error := msg } true)
  | Worker.addResult i email result errd =>
      ({ sh with job := sh.job.addResult result, emitted := sh.emitted ++ [(i, result)] },
        Worker.enqueue i email result errd)
  | Worker.enqueue i email result errd =>
      ({ sh with callback := sh.callback.map (fun c => c.Enqueue result) },
        Worker.incDone i email errd)
  | Worker.incDone _ _ _ => ({ sh with job := sh.job.incDone }, Worker.recv)

/-- The pool: shared state and the control point of every worker. -/
structure Sys where
  sh : Shared
  workers : List Worker

/-- Worker `k` takes its next step (no worker `k`: nothing happens). -/
def Sys.step (env : Env) (s : Sys) (k : Nat) : Sys :=
  match s.workers.get? k with
  | none => s
  | some w => { sh := (w.step env s.sh).1, workers := s.workers.set k (w.step env s.sh).2 }

def Sys.exec (env : Env) (s : Sys) (sched : List Nat) : Sys :=
  sched.foldl (Sys.step env) s

/-- All states passed when running `sched` from `s`, `s` first. -/
def Sys.trace (env : Env) (s : Sys) : List Nat → List Sys
  | [] => [s]
  | k :: rest => s :: Sys.trace env (s.step env k) rest

/-- The number of workers `runJob` starts. -/
def effConcurrency (cfg : Config) (concurrency : Int) (n : Nat) : Int :=
  let c1 := if concurrency ≤ 0 then cfg.DefaultJobConcurrency else concurrency
  let c2 := if c1 > (n : Int) then (n : Int) else c1
  if c2 ≤ 0 then 1 else c2

/-- A schedule that lets the workers `0 .. k-1`, one after the other, run
until they leave their loop: a worker needs at most ten steps per address
and one to see the closed channel. -/
def drainSchedule (k n : Nat) : List Nat :=
  ((List.range k).map (fun j => List.replicate (10 * (n + 1) + 1) j)).flatten

/-- The callback set-up of `runJob`: `some none` when no callback URL is
given, `some (some c)` for the started sender, `none` when
`NewCallbackSender` panics. -/
def startCallback (jobID callbackURL : String) (callbackBatch : Int) :
    Option (Option CallbackSender) :=
  if callbackURL ≠ "" then
    match NewCallbackSender callbackURL (if callbackBatch ≤ 0 then 200 else callbackBatch) with
    | some c => some (some (c.Start jobID))
    | none => none
  else some none

/-- The pool as `runJob` sets it up, after `markRunning` and the callback
set-up, which has yielded `callback`. -/
def initSys (cfg : Config) (now : Int) (mxCache : List (String × Mx)) (job : Job)
    (emails : List String) (concurrency : Int) (callback : Option CallbackSender) : Sys :=
  { sh := { job := job.markRunning now, mxCache := mxCache, jobsCh := emails.enum,
            callback := callback, tokens := 0, verifyLog := [], emitted := [] },
    workers := List.replicate (effConcurrency cfg concurrency emails.length).toNat Worker.recv }

structure RunResult where
  job : Job
  posts : List CallbackPayload
  pool : Sys

/-- The function `runJob` from the start of the workers on, `callback` being
the outcome of the callback set-up.  The workers first interleave as `sched`
says (any schedule, of any length); after that every worker still in its loop
is run on until it leaves it, which is `wg.Wait()`. -/
def runPool (env : Env) (cfg : Config) (startedAt finishedAt : Int)
    (mxCache : List (String × Mx)) (job : Job) (emails : List String) (concurrency : Int)
    (callback : Option CallbackSender) (sched : List Nat) : RunResult :=
  let s0 := initSys cfg startedAt mxCache job emails concurrency callback
  let s1 := s0.exec env (sched ++ drainSchedule s0.workers.length emails.length)
  let posts :=
    match s1.sh.callback with
    | some c => c.Close true
    | none => []
  { job := s1.sh.job.markCompleted finishedAt, posts := posts, pool := s1 }

/-- The function `runJob`; `none` when it does not return because
`NewCallbackSender` panics.  `startedAt` and `finishedAt` are the clock
readings of `markRunning` and `markCompleted`, `mxCache` is the server's MX
cache when the job starts, `sched` the interleaving of the workers. -/
def runJob (env : Env) (cfg : Config) (startedAt finishedAt : Int)
    (mxCache : List (String × Mx)) (job : Job) (emails : List String) (concurrency : Int)
    (callbackURL : String) (callbackBatch : Int) (sched : List Nat) : Option RunResult :=
  match startCallback job.ID callbackURL callbackBatch with
  | some callback =>
      some (runPool env cfg startedAt finishedAt mxCache job emails concurrency callback sched)
  | none => none

/-- The states of the pool that an observer of `runJob` can see, in order:
one after every atomic step of a worker; there is none when
`NewCallbackSender` panics, which ends the process. -/
def runJobTrace (env : Env) (cfg : Config) (startedAt : Int) (mxCache : List (String × Mx))
    (job : Job) (emails : List String) (concurrency : Int) (callbackURL : String)
    (callbackBatch : Int) (sched : List Nat) : List Sys :=
  match startCallback job.ID callbackURL callbackBatch with
  | some callback =>
      Sys.trace env (initSys cfg startedAt mxCache job emails concurrency callback)
        (sched ++ drainSchedule
          (initSys cfg startedAt mxCache job emails concurrency callback).workers.length
          emails.length)
  | none => []

/-! ### The rate limiter and the pool

The goroutine of `startRateLimiter` and the workers of one level-2 job,
with the workers of other jobs as further consumers of `rateCh`. -/

/-- The rate limiter with the pool of one job. -/
structure Paced where
  pacer : Pacer
  pool : Sys

/-- A step of a consumer of `rateCh`: worker `k` of the job takes its next
step, or a worker of another job is at `<-s.rateCh`. -/
inductive Move where
  | worker (k : Nat)
  | other
deriving DecidableEq, Repr

/-- Worker `k` is at `if job.Level == 2 { <-s.rateCh }` of a level-2 job. -/
def Sys.atPacer (s : Sys) (k : Nat) : Bool :=
  match s.workers.get? k with
  | some (Worker.token _ _) => decide (s.sh.job.Level = 2)
  | _ => false

/-- One move.  A worker at `<-s.rateCh` takes its step together with a token
and stays where it is while the channel is empty. -/
def Paced.move (env : Env) (x : Paced) : Move → Paced
  | Move.other => { x with pacer := x.pacer.recv }
  | Move.worker k =>
      if x.pool.atPacer k then
        if 0 < x.pacer.bucket then { pacer := x.pacer.recv, pool := x.pool.step env k }
        else x
      else { x with pool := x.pool.step env k }

def Paced.moves (env : Env) (x : Paced) (ms : List Move) : Paced :=
  ms.foldl (Paced.move env) x

/-- The refill loop `for i := 0; i < count; i++` from iteration `i` on, with
`remaining = count - i`; before the send of iteration `i` the consumers make
the moves `pre i`. -/
def Paced.refillFrom (env : Env) (pre : Nat → List Move) : Nat → Nat → Paced → Paced
  | _, 0, x => x
  | i, remaining + 1, x =>
      Paced.refillFrom env pre (i + 1) remaining
        { pacer := (Paced.moves env x (pre i)).pacer.trySend,
          pool := (Paced.moves env x (pre i)).pool }

/-- A refill tick (`u`: the random draw, `pre`: the moves interleaved with
the sends of this tick), or a move between ticks. -/
inductive PacedEvent where
  | tick (u : ℚ) (pre : List (List Move))
  | move (m : Move)

def Paced.step (env : Env) (rate jitter : F64) (x : Paced) : PacedEvent → Paced
  | PacedEvent.tick u pre =>
      Paced.refillFrom env (fun i => pre.getD i []) 0 (refillCount rate jitter u).toNat x
  | PacedEvent.move m => x.move env m

def Paced.run (env : Env) (rate jitter : F64) (x : Paced) (evs : List PacedEvent) : Paced :=
  evs.foldl (Paced.step env rate jitter) x

def PacedEvent.isTick : PacedEvent → Bool
  | PacedEvent.tick _ _ => true
  | PacedEvent.move _ => false

/-- Number of refill ticks in a window. -/
def ticksOf (evs : List PacedEvent) : Nat := (evs.filter PacedEvent.isTick).length

/-! ### One worker on its own -/

/-- The worker takes `n` steps. -/
def Worker.iter (env : Env) : Nat → Shared × Worker → Shared × Worker
  | 0, x => x
  | n + 1, x => Worker.iter env n (x.2.step env x.1)

/-- The worker runs on until it is back at the head of its loop (at most
`fuel` steps; nine are enough from any point of the loop body). -/
def Worker.finish (env : Env) : Nat → Shared × Worker → Shared × Worker
  | 0, x => x
  | fuel + 1, x =>
      if x.2 = Worker.recv ∨ x.2 = Worker.exited then x
      else Worker.finish env fuel (x.2.step env x.1)

/-- One turn of the loop `for email := range jobsCh`: the receive and the
whole loop body for the address received. -/
def Worker.turn (env : Env) (sh : Shared) : Shared × Worker :=
  Worker.finish env 9 (Worker.recv.step env sh)

/-- The shared state after a single worker has made `n` turns: the job
processed one address at a time. -/
def seqRun (env : Env) : Nat → Shared → Shared
  | 0, sh => sh
  | n + 1, sh => seqRun env n (Worker.turn env sh).1

/-! ### Sample pool -/

/-- A verifier that fails on every address. -/
def failingEnv : Env :=
  { ParseAddress := fun e => { Username := "u", Domain := domainKey e, Valid := true },
    IsDisposable := fun _ => false,
    IsFreeDomain := fun _ => false,
    CheckMX := fun _ _ => none,
    Verify := fun _ _ => Except.error "dial tcp: i/o timeout" }


/-! ## server.go: the results endpoint -/

/-- Value of a string of decimal digits read after `acc`; `none` when a
character is not a digit. -/
def digitsValue : List Char → Nat → Option Nat
  | [], acc => some acc
  | c :: cs, acc =>
      if 48 ≤ c.toNat ∧ c.toNat ≤ 57 then digitsValue cs (acc * 10 + (c.toNat - 48)) else none

/-- The sign and the digits of a decimal literal. -/
def splitSign : List Char → Bool × List Char
  | '-' :: ds => (true, ds)
  | '+' :: ds => (false, ds)
  | ds => (false, ds)

/-- The library function `strconv.Atoi`: an optional sign and at least one
decimal digit, with a value that fits a Go `int`; `none` is a non-nil error. -/
def Atoi (s : String) : Option Int :=
  let sd := splitSign s.data
  if sd.2 = [] then none
  else
    match digitsValue sd.2 0 with
    | none => none
    | some n =>
        let v : Int := if sd.1 then -(n : Int) else (n : Int)
        if v < -(2 ^ 63) ∨ v > 2 ^ 63 - 1 then none else some v

def parseQueryInt (v : String) (dflt : Int) : Int :=
  if v = "" then dflt
  else
    match Atoi v with
    | none => dflt
    | some n => n

/-- The function `parseOffsetLimit`; the arguments are `q.Get("offset")` and
`q.Get("limit")`, empty for a parameter that is absent. -/
def parseOffsetLimit (offsetParam limitParam : String) : Int × Int :=
  let offset := parseQueryInt offsetParam 0
  let limit := parseQueryInt limitParam 1000
  let limit1 := if limit > 5000 then 5000 else limit
  let offset1 := if offset < 0 then 0 else offset
  (offset1, limit1)

structure ResultsResponse where
  JobID : String
  Offset : Int
  Limit : Int
  Total : Int
  Results : List EmailResult
deriving DecidableEq, Repr

/-- What a request to `/v1/bulk/{id}/results` ends in: an error response, the
page of results, or a run-time panic of the handler. -/
inductive ResultsOutcome where
  | error (status : Nat) (code : String)
  | ok (body : ResultsResponse)
  | panic
deriving DecidableEq, Repr

/-- The page of results or the panic, from what `getResults` returns. -/
def resultsPage (job : Job) (offset limit : Int)
    (got : Option (List EmailResult × Int)) : ResultsOutcome :=
  match got with
  | none => ResultsOutcome.panic
  | some p =>
      ResultsOutcome.ok
        { JobID := job.ID, Offset := offset, Limit := limit, Total := p.2, Results := p.1 }

/-- The branch of `handleBulkByID` for the path `/v1/bulk/{id}/results`. -/
def handleBulkByIDResults (jm : JobManager) (id method offsetParam limitParam : String) :
    ResultsOutcome :=
  match jm.GetJob id with
  | none => ResultsOutcome.error 404 "job_not_found"
  | some job =>
      if method ≠ "GET" then ResultsOutcome.error 405 "method_not_allowed"
      else if !job.StoreResults then ResultsOutcome.error 410 "results_not_stored"
      else
        resultsPage job (parseOffsetLimit offsetParam limitParam).1
          (parseOffsetLimit offsetParam limitParam).2
          (job.getResults (parseOffsetLimit offsetParam limitParam).1
            (parseOffsetLimit offsetParam limitParam).2)

/-! ## server.go: the control points of one turn of a worker -/

/-- The control points a worker passes from `x` until it is back at the head
of its loop, in order. -/
def Worker.pathFrom (env : Env) : Nat → Shared × Worker → List Worker
  | 0, x => [x.2]
  | fuel + 1, x =>
      if x.2 = Worker.recv ∨ x.2 = Worker.exited then [x.2]
      else x.2 :: Worker.pathFrom env fuel (x.2.step env x.1)

/-- The control points of one turn of the loop, the receive first. -/
def Worker.turnPath (env : Env) (sh : Shared) : List Worker :=
  Worker.recv :: Worker.pathFrom env 9 (Worker.recv.step env sh)

/-- The worker is about to look up MX records: in the cache (`mxCache.Load`)
or by `CheckMX`. -/
def Worker.isMxLookup : Worker → Bool
  | Worker.mxLoad _ _ _ => true
  | Worker.checkMX _ _ _ => true
  | _ => false

/-- The worker is about to read or write the catch-all cache of the job. -/
def Worker.isCatchAllAccess : Worker → Bool
  | Worker.getCatchAll _ _ _ _ => true
  | Worker.setCatchAll _ _ _ _ => true
  | _ => false

/-- The worker is about to call `vJob.Verify`. -/
def Worker.isVerifierCall : Worker → Bool
  | Worker.verify _ _ _ => true
  | _ => false

/-- The result a worker emits for an address with invalid syntax. -/
def invalidResult (env : Env) (email : String) : EmailResult :=
  { Email := email, Result := some (invalidVerdict email (env.ParseAddress email)), Error := "" }

/-- The outcome of the MX lookup of a worker for `domain`: the cached entry,
or what `CheckMX` returns for the address at position `i`. -/
def mxLookup (env : Env) (mxCache : List (String × Mx)) (i : Nat) (domain : String) :
    Option Mx :=
  match mapGet mxCache domain with
  | some m => some m
  | none => env.CheckMX i domain

/-- The result a level-1 worker emits for an address with valid syntax. -/
def level1Result (env : Env) (email : String) (mx : Option Mx) : EmailResult :=
  { Email := email, Result := some (level1Verdict env email (env.ParseAddress email) mx),
    Error := "" }


/-! ## Sample inputs -/

def sampleConfig : Config :=
  { MaxEmails := 2, ResultTTL := 5, StoreResults := true, DefaultJobConcurrency := 2,
    ValidationRate := F64.fin 20, RateJitter := F64.fin 0 }

def sampleManager : JobManager := { jobs := [], resultTTL := 5 }

def sampleBody : BulkRequest :=
  { Emails := [" b@z.org ", "  ", "nodomain"], Level := 0, Concurrency := 0,
    StoreResults := none, CallbackURL := "", CallbackBatch := 0 }

def sampleRequest : Request :=
  { Method := "POST", ContentType := "application/json", jsonBody := some sampleBody,
    csvEmails := Except.ok [], queryLevel := 1, queryConcurrency := 0 }

def sampleLaunch : Launch :=
  { job := newJob "id1" 0 1 2 true, emails := ["nodomain", "b@z.org"], concurrency := 0,
    callbackURL := "", callbackBatch := 0 }

def sampleBigBody : BulkRequest :=
  { Emails := [" a@a.org ", "  ", "b@z.org", "c@c.org"], Level := 0, Concurrency := 0,
    StoreResults := none, CallbackURL := "", CallbackBatch := 0 }

def sampleBigRequest : Request :=
  { Method := "POST", ContentType := "application/json", jsonBody := some sampleBigBody,
    csvEmails := Except.ok [], queryLevel := 1, queryConcurrency := 0 }

/-- A verifier that accepts every address and answers every probe with a
verdict for the address it was given. -/
def echoEnv : Env :=
  { ParseAddress := fun e => { Username := "u", Domain := domainKey e, Valid := true },
    IsDisposable := fun _ => false,
    IsFreeDomain := fun _ => false,
    CheckMX := fun _ _ => some { HasMXRecord := true },
    Verify := fun _ e =>
      Except.ok { Email := e, Reachable := "yes",
                  Syntax := { Username := "u", Domain := domainKey e, Valid := true },
                  SMTP := none, Suggestion := "", Disposable := false, RoleAccount := false,
                  Free := false, HasMxRecords := true } }

def sampleCleanBody : BulkRequest :=
  { Emails := ["b@z.org", "a@a.org"], Level := 2, Concurrency := 2,
    StoreResults := some true, CallbackURL := "", CallbackBatch := 0 }

def sampleCleanRequest : Request :=
  { Method := "POST", ContentType := "application/json", jsonBody := some sampleCleanBody,
    csvEmails := Except.ok [], queryLevel := 1, queryConcurrency := 0 }

/-- A verifier for which every domain is catch-all. -/
def catchAllEnv : Env :=
  { ParseAddress := fun e => { Username := "u", Domain := domainKey e, Valid := true },
    IsDisposable := fun _ => false,
    IsFreeDomain := fun _ => false,
    CheckMX := fun _ _ => some { HasMXRecord := true },
    Verify := fun _ e =>
      Except.ok { Email := e, Reachable := "unknown",
                  Syntax := { Username := "u", Domain := domainKey e, Valid := true },
                  SMTP := some { HostExists := true, FullInbox := false, CatchAll := true,
                                 Deliverable := false, Disabled := false },
                  Suggestion := "", Disposable := false, RoleAccount := false,
                  Free := false, HasMxRecords := true } }

def sampleCatchAllEmails : List String := ["a@c.test", "b@c.test", "c@c.test"]

/-- A manager holding one finished job with two stored results. -/
def sampleStoredManager : JobManager :=
  { jobs := [("id1",
      ((((newJob "id1" 0 1 2 true).addResult (invalidResult echoEnv "bad")).addResult
        (invalidResult echoEnv "worse")).markCompleted 9))],
    resultTTL := 5 }

/-- A verifier whose parser rejects the address `@@bad` and accepts every
other one. -/
def strictEnv : Env :=
  { ParseAddress := fun e =>
      if e = "@@bad" then { Username := "", Domain := "", Valid := false }
      else { Username := "u", Domain := domainKey e, Valid := true },
    IsDisposable := fun _ => false,
    IsFreeDomain := fun _ => false,
    CheckMX := fun _ _ => some { HasMXRecord := true },
    Verify := fun _ _ => Except.error "unreachable host" }

/-- The shared state of a level-1 job over `@@bad` and `ok@example.com` when
its pool starts. -/
def sampleLevel1Shared : Shared :=
  (initSys sampleConfig 1 [] (newJob "id1" 0 1 2 true) ["@@bad", "ok@example.com"] 1 none).sh

/-- A request whose one address starts with a no-break space (U+00A0), a
character that the address pattern of the verifier allows in a local part
and that `strings.TrimSpace` removes. -/
def sampleNbspBody : BulkRequest :=
  { Emails := ["\u00a0a@b.c"], Level := 2, Concurrency := 1,
    StoreResults := some true, CallbackURL := "", CallbackBatch := 0 }

def sampleNbspRequest : Request :=
  { Method := "POST", ContentType := "application/json", jsonBody := some sampleNbspBody,
    csvEmails := Except.ok [], queryLevel := 1, queryConcurrency := 0 }

/-- The `float64` nearest to 0.3. -/
def float03 : ℚ := 5404319552844595 / 18014398509481984

/-- The largest `float64` below 1, which is `1 - 2^-53`. -/
def floatBelowOne : ℚ := 9007199254740991 / 9007199254740992

/-- The rate limiter with a full `rateCh` and the pool of a level-2 job over
one address. -/
def samplePaced : Paced :=
  { pacer := { bucket := 1000, obtained := 0 },
    pool := initSys sampleConfig 1 [] (newJob "id1" 0 2 1 true) ["a@x.org"] 1 none }

/-- A window of one tick with draw 0: before the first send of the tick
workers of other jobs take the 1000 tokens of the full channel, worker 0 of
the job has taken its address before and takes a token after the tick. -/
def sampleQuarterWindow : List PacedEvent :=
  [PacedEvent.move (Move.worker 0),
   PacedEvent.tick 0 [List.replicate 1000 Move.other],
   PacedEvent.move (Move.worker 0)]

/-- A window of one tick with the largest draw: before the first send of the
tick workers of other jobs take the 1000 tokens of the full channel, after
the tick they take seven more. -/
def sampleFiveWindow : List PacedEvent :=
  [PacedEvent.tick floatBelowOne [List.replicate 1000 Move.other],
   PacedEvent.move Move.other, PacedEvent.move Move.other, PacedEvent.move Move.other,
   PacedEvent.move Move.other, PacedEvent.move Move.other, PacedEvent.move Move.other,
   PacedEvent.move Move.other]

/-- A window of one tick in which worker 0 of the job takes its address and
then a token. -/
def sampleWindow : List PacedEvent :=
  [PacedEvent.move (Move.worker 0), PacedEvent.tick (1 / 2) [],
   PacedEvent.move (Move.worker 0)]


/-! ## Bookkeeping on the worker pool -/

/-- One for a worker that holds an address it has not yet counted in `Done`. -/
def Worker.owesDone : Worker → Nat
  | Worker.recv => 0
  | Worker.exited => 0
  | _ => 1

/-- One for a worker that has counted its address in `Failed` and not yet in
`Done`. -/
def Worker.failedAhead : Worker → Nat
  | Worker.addResult _ _ _ errd => if errd then 1 else 0
  | Worker.enqueue _ _ _ errd => if errd then 1 else 0
  | Worker.incDone _ _ errd => if errd then 1 else 0
  | _ => 0

/-- The address a worker holds as long as its result has not been passed to
`addResult`. -/
def Worker.held : Worker → List String
  | Worker.token _ email => [email]
  | Worker.mxLoad _ email _ => [email]
  | Worker.checkMX _ email _ => [email]
  | Worker.getCatchAll _ email _ _ => [email]
  | Worker.verify _ email _ => [email]
  | Worker.setCatchAll _ email _ _ => [email]
  | Worker.incFailed _ email _ => [email]
  | Worker.addResult _ email _ _ => [email]
  | _ => []

/-- The result a worker is about to record shows, under `cell`, the address
the worker holds. -/
def Worker.good (cell : EmailResult → String) : Worker → Prop
  | Worker.setCatchAll _ email _ res => cell { Email := email, Result := some res, Error := "" } = email
  | Worker.addResult _ email result _ => cell result = email
  | _ => True

/-- Steps a worker still needs to come back to the head of its loop. -/
def Worker.rem : Worker → Nat
  | Worker.recv => 0
  | Worker.exited => 0
  | Worker.token _ _ => 9
  | Worker.mxLoad _ _ _ => 8
  | Worker.checkMX _ _ _ => 7
  | Worker.getCatchAll _ _ _ _ => 6
  | Worker.verify _ _ _ => 5
  | Worker.setCatchAll _ _ _ _ => 4
  | Worker.incFailed _ _ _ => 4
  | Worker.addResult _ _ _ _ => 3
  | Worker.enqueue _ _ _ _ => 2
  | Worker.incDone _ _ _ => 1

/-- Bound on the steps a worker needs to leave its loop when `q` addresses
are still in the channel. -/
def Worker.pot (q : Nat) (w : Worker) : Nat :=
  if w = Worker.exited then 0 else w.rem + 10 * q + 1

/-- The first cell of the CSV record of a result. -/
def csvEmail (r : EmailResult) : String := (csvRow r).headD ""

/-- Conservation in the pool of a job over `emails`: every address is in the
channel, held by one worker, or accounted for in the job. -/
structure PoolInv (cell : EmailResult → String) (emails : List String) (s : Sys) : Prop where
  done : s.sh.job.Done + (s.workers.map Worker.owesDone).sum + s.sh.jobsCh.length
          = emails.length
  failed : s.sh.job.Failed ≤ s.sh.job.Done + (s.workers.map Worker.failedAhead).sum
  results : s.sh.job.StoreResults = true →
      (↑(s.sh.job.results.map cell) : Multiset String)
        + (s.workers.map (fun w => (↑w.held : Multiset String))).sum
        + ↑(s.sh.jobsCh.map Prod.snd) = ↑emails
  good : ∀ w ∈ s.workers, w.good cell
  closed : Worker.exited ∈ s.workers → s.sh.jobsCh = []

/-- Tokens the ticks of a window try to add. -/
def tokensAdded (rate jitter : F64) : List PacedEvent → Nat
  | [] => 0
  | PacedEvent.tick u _ :: rest => (refillCount rate jitter u).toNat + tokensAdded rate jitter rest
  | PacedEvent.move _ :: rest => tokensAdded rate jitter rest

/-- One for a worker that has taken a token for the address it holds and has
not yet come to the call of the verifier or to a result without it. -/
def Worker.pastToken : Worker → Nat
  | Worker.mxLoad _ _ _ => 1
  | Worker.checkMX _ _ _ => 1
  | Worker.getCatchAll _ _ _ _ => 1
  | Worker.verify _ _ _ => 1
  | _ => 0

/-- What a stretch of the run from `x` to `y`, in which the rate limiter tries
to add `added` tokens, keeps.  `total`: tokens are neither made nor lost but
by these sends.  `cap`: the bucket stays within its capacity.  `taken`: every
token a worker of the job has taken is a token obtained from the rate
limiter.  `sched`: the pool has made steps of its workers and nothing else. -/
structure PacedRel (env : Env) (x y : Paced) (added : Nat) : Prop where
  total : y.pacer.bucket + y.pacer.obtained ≤ x.pacer.bucket + x.pacer.obtained + added
  cap : x.pacer.bucket ≤ rateCap → y.pacer.bucket ≤ rateCap
  mono : x.pacer.obtained ≤ y.pacer.obtained
  taken : y.pool.sh.tokens + x.pacer.obtained ≤ y.pacer.obtained + x.pool.sh.tokens
  sched : ∃ sched : List Nat, y.pool = x.pool.exec env sched

/-- The verifier, asked about address `i`, answers with a verdict whose SMTP
section says catch-all. -/
def verdictCatchAll (env : Env) (i : Nat) (email : String) : Bool :=
  match env.Verify i email with
  | Except.ok res => res.isCatchAll
  | Except.error _ => false

/-- The result a worker emits on a catch-all cache hit. -/
def catchAllResult (env : Env) (email : String) : EmailResult :=
  { Email := email,
    Result := some (catchAllVerdict env email (env.ParseAddress email)),
    Error := "" }

/-- What holds after a single worker of a level-2 job over `emails` has made
`p` turns.  `cache`: the catch-all cache marks exactly the domains for which a
verdict said catch-all.  `hit`: an address that came after such a verdict for
its domain was answered from the cache.  `miss`: an address that was not
handed to the verifier came after such a verdict. -/
structure SeqInv (env : Env) (emails : List String) (p : Nat) (sh : Shared) : Prop where
  queue : sh.jobsCh = emails.enum.drop p
  level : sh.job.Level = 2
  cache : ∀ D, mapGet sh.job.domains D = some true ↔
      ∃ i ∈ sh.verifyLog, verdictCatchAll env i (emails.getD i "") = true
        ∧ (env.ParseAddress (emails.getD i "")).Domain = D
  log : ∀ i ∈ sh.verifyLog, i < p ∧ (env.ParseAddress (emails.getD i "")).Valid = true
  nodup : sh.verifyLog.Nodup
  positions : sh.emitted.map Prod.fst = List.range p
  stored : sh.job.results = if sh.job.StoreResults then sh.emitted.map Prod.snd else []
  hit : ∀ i j, i < j → j < p → i ∈ sh.verifyLog →
      verdictCatchAll env i (emails.getD i "") = true →
      (env.ParseAddress (emails.getD j "")).Valid = true →
      (env.ParseAddress (emails.getD j "")).Domain = (env.ParseAddress (emails.getD i "")).Domain →
      j ∉ sh.verifyLog ∧ (j, catchAllResult env (emails.getD j "")) ∈ sh.emitted
  miss : ∀ j, j < p → (env.ParseAddress (emails.getD j "")).Valid = true → j ∉ sh.verifyLog →
      ∃ i, i < j ∧ i ∈ sh.verifyLog ∧ verdictCatchAll env i (emails.getD i "") = true
        ∧ (env.ParseAddress (emails.getD i "")).Domain
            = (env.ParseAddress (emails.getD j "")).Domain


/-! ## Bookkeeping on verifier errors -/

/-- The verifier answers the probe of the address at position `i` with an
error. -/
def verifyFails (env : Env) (i : Nat) (email : String) : Bool :=
  match env.Verify i email with
  | Except.error _ => true
  | Except.ok _ => false

/-- The result a worker emits when the verifier has returned an error. -/
def errorResult (email msg : String) : EmailResult :=
  { Email := email, Result := none, Error := msg }

/-- One for a worker that has got an error from the verifier and not yet
counted it in `Failed`. -/
def Worker.owesFailed : Worker → Nat
  | Worker.incFailed _ _ _ => 1
  | _ => 0

/-- The position a worker holds as long as it has not called the verifier
for it. -/
def Worker.unverified : Worker → List Nat
  | Worker.token i _ => [i]
  | Worker.mxLoad i _ _ => [i]
  | Worker.checkMX i _ _ => [i]
  | Worker.getCatchAll i _ _ _ => [i]
  | Worker.verify i _ _ => [i]
  | _ => []

/-- The position a worker holds as long as it has not passed a result for it
to `addResult`. -/
def Worker.unemitted : Worker → List Nat
  | Worker.token i _ => [i]
  | Worker.mxLoad i _ _ => [i]
  | Worker.checkMX i _ _ => [i]
  | Worker.getCatchAll i _ _ _ => [i]
  | Worker.verify i _ _ => [i]
  | Worker.setCatchAll i _ _ _ => [i]
  | Worker.incFailed i _ _ => [i]
  | Worker.addResult i _ _ _ => [i]
  | _ => []

/-- The address a worker holds is the one at the position it holds. -/
def Worker.holdsOf (emails : List String) : Worker → Prop
  | Worker.recv => True
  | Worker.exited => True
  | Worker.token i email => email = emails.getD i ""
  | Worker.mxLoad i email _ => email = emails.getD i ""
  | Worker.checkMX i email _ => email = emails.getD i ""
  | Worker.getCatchAll i email _ _ => email = emails.getD i ""
  | Worker.verify i email _ => email = emails.getD i ""
  | Worker.setCatchAll i email _ _ => email = emails.getD i ""
  | Worker.incFailed i email _ => email = emails.getD i ""
  | Worker.addResult i email _ _ => email = emails.getD i ""
  | Worker.enqueue i email _ _ => email = emails.getD i ""
  | Worker.incDone i email _ => email = emails.getD i ""

/-- The worker has got the error `msg` for position `i` from the verifier and
has not yet passed the result to `addResult`. -/
def Worker.recordsError (emails : List String) (i : Nat) (msg : String) (w : Worker) : Prop :=
  w = Worker.incFailed i (emails.getD i "") msg
    ∨ w = Worker.addResult i (emails.getD i "") (errorResult (emails.getD i "") msg) true

/-- The bookkeeping of verifier errors in the pool of a job over `emails`.
`fresh`: a position is in the channel, with a worker that has not called the
verifier for it, or in the log of verifier calls, and this at most once.
`once`: a position is in the channel, with a worker that has not emitted its
result, or among the emitted results, and this exactly once.
`failed`: `Failed`, with the failures the workers are about to count, is the
number of logged calls that ended in an error.  `errors`: for each of these
calls the error result has been emitted or is with a worker. -/
structure ErrInv (env : Env) (emails : List String) (s : Sys) : Prop where
  queue : ∀ ie ∈ s.sh.jobsCh, ie.2 = emails.getD ie.1 ""
  held : ∀ w ∈ s.workers, w.holdsOf emails
  fresh : (↑s.sh.verifyLog : Multiset Nat)
      + (s.workers.map (fun w => (↑w.unverified : Multiset Nat))).sum
      + ↑(s.sh.jobsCh.map Prod.fst) ≤ ↑(List.range emails.length)
  once : (↑(s.sh.emitted.map Prod.fst) : Multiset Nat)
      + (s.workers.map (fun w => (↑w.unemitted : Multiset Nat))).sum
      + ↑(s.sh.jobsCh.map Prod.fst) = ↑(List.range emails.length)
  failed : s.sh.job.Failed + (s.workers.map Worker.owesFailed).sum
      = (s.sh.verifyLog.filter (fun i => verifyFails env i (emails.getD i ""))).length
  errors : ∀ i ∈ s.sh.verifyLog, ∀ msg,
      env.Verify i (emails.getD i "") = Except.error msg →
      (i, errorResult (emails.getD i "") msg) ∈ s.sh.emitted
        ∨ ∃ w ∈ s.workers, w.recordsError emails i msg
  stored : s.sh.job.results = if s.sh.job.StoreResults then s.sh.emitted.map Prod.snd else []

/-! ## Properties: callback batcher -/

/-- Payloads of the consumer loop started with fewer than `B` results in hand:
full batches first, then the rest. -/
theorem loopFrom_batches (jobID : String) (B : Nat) (hB : 1 ≤ B) :
    ∀ (ch batch : List EmailResult), batch.length < B →
      ∃ bs : List (List EmailResult),
        CallbackSender.loopFrom jobID (B : Int) batch ch
            = bs.map (fun b => ({ JobID := jobID, Results := b, Final := false } : CallbackPayload))
          ∧ bs.flatten = batch ++ ch
          ∧ bs.length = (batch.length + ch.length) / B
              + (if (batch.length + ch.length) % B = 0 then 0 else 1)
          ∧ (∀ i, i < (batch.length + ch.length) / B → (bs.getD i []).length = B)
          ∧ ((batch.length + ch.length) % B ≠ 0 →
              (bs.getD ((batch.length + ch.length) / B) []).length
                = (batch.length + ch.length) % B) := by
  intro ch
  induction ch with
  | nil =>
      intro batch hlt
      have hdiv : batch.length / B = 0 := Nat.div_eq_of_lt hlt
      have hmod : batch.length % B = batch.length := Nat.mod_eq_of_lt hlt
      by_cases hb : batch.length > 0
      · refine ⟨[batch], ?_, ?_, ?_, ?_, ?_⟩
        · simp [CallbackSender.loopFrom, hb]
        · simp
        · have : batch.length ≠ 0 := by omega
          simp [hdiv, hmod, this]
        · intro i hi
          simp [hdiv] at hi
        · intro _
          simp [hdiv, hmod]
      · have h0 : batch.length = 0 := by omega
        have hnil : batch = [] := List.length_eq_zero.mp h0
        subst hnil
        refine ⟨[], ?_, ?_, ?_, ?_, ?_⟩
        · simp [CallbackSender.loopFrom]
        · simp
        · simp
        · intro i hi
          simp at hi
        · intro h
          simp at h
  | cons r rest ih =>
      intro batch hlt
      by_cases hfull : batch.length + 1 = B
      · obtain ⟨bs, h1, h2, h3, h4, h5⟩ := ih [] (by simpa using hB)
        have hlen : batch.length + (rest.length + 1) = B + rest.length := by omega
        have hq : (B + rest.length) / B = rest.length / B + 1 := by
          rw [Nat.add_comm, Nat.add_div_right _ (by omega : 0 < B)]
        have hm : (B + rest.length) % B = rest.length % B := by
          rw [Nat.add_comm, Nat.add_mod_right]
        refine ⟨(batch ++ [r]) :: bs, ?_, ?_, ?_, ?_, ?_⟩
        · have hge : (B : Int) ≤ ((batch ++ [r]).length : Int) := by
            simp only [List.length_append, List.length_singleton]
            omega
          simp only [CallbackSender.loopFrom, ge_iff_le, hge, if_true, List.map_cons, h1]
        · simp [h2]
        · simp only [List.length_cons, hlen, hq, hm]
          simp only [List.length_nil, Nat.zero_add] at h3
          omega
        · intro i hi
          simp only [List.length_cons, hlen, hq] at hi
          cases i with
          | zero => simp [hfull]
          | succ j =>
              simp only [List.getD_cons_succ]
              exact h4 j (by simpa using (by omega : j < rest.length / B))
        · intro hne
          simp only [List.length_cons, hlen, hq, hm] at hne ⊢
          simp only [List.getD_cons_succ]
          simpa using h5 (by simpa using hne)
      · have hlt1 : (batch ++ [r]).length < B := by
          simp only [List.length_append, List.length_singleton]
          omega
        obtain ⟨bs, h1, h2, h3, h4, h5⟩ := ih (batch ++ [r]) hlt1
        have hlen : (batch ++ [r]).length + rest.length = batch.length + (rest.length + 1) := by
          simp only [List.length_append, List.length_singleton]
          omega
        refine ⟨bs, ?_, ?_, ?_, ?_, ?_⟩
        · have hnge : ¬ (B : Int) ≤ ((batch ++ [r]).length : Int) := by
            omega
          simp only [CallbackSender.loopFrom, ge_iff_le, hnge, if_false, h1]
        · simp [h2]
        · simpa only [List.length_cons, hlen] using h3
        · simpa only [List.length_cons, hlen] using h4
        · simpa only [List.length_cons, hlen] using h5

theorem foldl_Enqueue (c : CallbackSender) (xs : List EmailResult) :
    xs.foldl CallbackSender.Enqueue c = { c with ch := c.ch ++ xs } := by
  induction xs generalizing c with
  | nil => simp
  | cons x xs ih => simp [ih, CallbackSender.Enqueue]

theorem NewCallbackSender_some (url : String) (batchSize : Int) (c : CallbackSender)
    (h : NewCallbackSender url batchSize = some c) :
    c = { url := url, batchSize := batchSize, jobID := "", ch := [] }
      ∧ 0 ≤ wrapInt (batchSize * 2) ∧ wrapInt (batchSize * 2) ≤ maxChanCap := by
  unfold NewCallbackSender at h
  by_cases hok : makeChanOK (wrapInt (batchSize * 2)) = true
  · rw [if_pos hok] at h
    have hc : c = { url := url, batchSize := batchSize, jobID := "", ch := [] } :=
      (Option.some.inj h).symm
    have hb : 0 ≤ wrapInt (batchSize * 2) ∧ wrapInt (batchSize * 2) ≤ maxChanCap := by
      simpa [makeChanOK] using hok
    exact ⟨hc, hb⟩
  · rw [if_neg hok] at h
    cases h

/-- A sender whose buffer the run time accepts is created when twice the batch size is at most
`maxChanCap`. -/
theorem NewCallbackSender_of_le (url : String) (batchSize : Int) (h0 : 0 ≤ batchSize)
    (h1 : batchSize * 2 ≤ maxChanCap) :
    NewCallbackSender url batchSize
      = some { url := url, batchSize := batchSize, jobID := "", ch := [] } := by
  have hm : maxChanCap = 7036874417764 := rfl
  have hw : wrapInt (batchSize * 2) = batchSize * 2 := by
    unfold wrapInt
    omega
  have hok : makeChanOK (wrapInt (batchSize * 2)) = true := by
    rw [hw]
    simp only [makeChanOK, decide_eq_true_eq]
    omega
  unfold NewCallbackSender
  rw [if_pos hok]

/-- The payloads posted for `n` results enqueued on a sender with batch size
`B ≥ 1` that `NewCallbackSender` has created and that is then closed with
`final = true`: `n / B` batches of exactly `B` results, then one batch of
`n % B` results when that is not zero, all with `final = false` and,
concatenated, equal to the enqueued sequence, followed by one payload with no
results and `final = true`. -/
theorem callback_batches (B : Nat) (hB : 1 ≤ B) (url jobID : String) (xs : List EmailResult)
    (c : CallbackSender) (hc : NewCallbackSender url (B : Int) = some c) :
    ∃ bs : List (List EmailResult),
      (xs.foldl CallbackSender.Enqueue (c.Start jobID)).Close true
          = bs.map (fun b => ({ JobID := jobID, Results := b, Final := false } : CallbackPayload))
              ++ [{ JobID := jobID, Results := [], Final := true }]
        ∧ bs.flatten = xs
        ∧ bs.length = xs.length / B + (if xs.length % B = 0 then 0 else 1)
        ∧ (∀ i, i < xs.length / B → (bs.getD i []).length = B)
        ∧ (xs.length % B ≠ 0 → (bs.getD (xs.length / B) []).length = xs.length % B) := by
  obtain ⟨bs, h1, h2, h3, h4, h5⟩ := loopFrom_batches jobID B hB xs [] (by simpa using hB)
  refine ⟨bs, ?_, by simpa using h2, by simpa using h3, by simpa using h4, by simpa using h5⟩
  rw [(NewCallbackSender_some url B c hc).1]
  simp [foldl_Enqueue, CallbackSender.Close, CallbackSender.loop,
    CallbackSender.Start, h1]


/-! ## Properties: Go maps and the janitor -/

theorem mapGet_filter_key {β : Type} (q : String → Bool) (m : List (String × β)) (k : String) :
    mapGet (m.filter (fun kv => q kv.1)) k = if q k then mapGet m k else none := by
  induction m with
  | nil => simp [mapGet]
  | cons kv rest ih =>
      obtain ⟨k1, v⟩ := kv
      by_cases hq1 : q k1 = true
      · by_cases hk : k1 = k
        · subst hk
          simp [List.filter, hq1, mapGet]
        · simp only [List.filter, hq1, mapGet, hk, if_false, ih]
      · by_cases hk : k1 = k
        · subst hk
          simp only [List.filter, hq1, mapGet, ih]
          simp [hq1]
        · simp only [List.filter, hq1, mapGet, hk, if_false, ih]

theorem mapGet_mapDelete {β : Type} (m : List (String × β)) (d k : String) :
    mapGet (mapDelete m d) k = if k = d then none else mapGet m k := by
  unfold mapDelete
  rw [mapGet_filter_key (fun x => decide (x ≠ d)) m k]
  by_cases h : k = d <;> simp [h]

theorem mapGet_mapSet {β : Type} (m : List (String × β)) (d : String) (v : β) (k : String) :
    mapGet (mapSet m d v) k = if k = d then some v else mapGet m k := by
  unfold mapSet
  by_cases h : k = d
  · subst h
    simp [mapGet]
  · have h1 : ¬ d = k := fun e => h e.symm
    simp [mapGet, h, h1, mapGet_mapDelete]

theorem foldl_mapDelete {β : Type} (ds : List String) (m : List (String × β)) :
    ds.foldl mapDelete m = m.filter (fun kv => decide (kv.1 ∉ ds)) := by
  induction ds generalizing m with
  | nil => simp
  | cons d rest ih =>
      simp only [List.foldl_cons, ih, mapDelete, List.filter_filter]
      congr 1
      funext kv
      by_cases h1 : kv.1 = d <;> by_cases h2 : kv.1 ∈ rest <;> simp [h1, h2]

/-- With one entry per key, the entry found for a key is the only one. -/
theorem mapGet_unique {β : Type} (m : List (String × β))
    (hnd : (m.map Prod.fst).Nodup) (k : String) (v w : β)
    (hget : mapGet m k = some v) (hmem : (k, w) ∈ m) : w = v := by
  induction m with
  | nil => simp at hmem
  | cons kv rest ih =>
      obtain ⟨k1, v1⟩ := kv
      simp only [List.map_cons, List.nodup_cons] at hnd
      by_cases hk : k1 = k
      · subst hk
        simp only [mapGet, if_true, Option.some.injEq] at hget
        rcases List.mem_cons.mp hmem with h | h
        · simp only [Prod.mk.injEq, true_and] at h
          rw [h, hget]
        · exact absurd (List.mem_map_of_mem Prod.fst h) hnd.1
      · simp only [mapGet, hk, if_false] at hget
        rcases List.mem_cons.mp hmem with h | h
        · simp only [Prod.mk.injEq] at h
          exact absurd h.1.symm hk
        · exact ih hnd.2 hget h

theorem mapGet_mem {β : Type} (m : List (String × β)) (k : String) (v : β)
    (hget : mapGet m k = some v) : (k, v) ∈ m := by
  induction m with
  | nil => simp [mapGet] at hget
  | cons kv rest ih =>
      obtain ⟨k1, v1⟩ := kv
      by_cases hk : k1 = k
      · subst hk
        simp only [mapGet, if_true, Option.some.injEq] at hget
        simp [hget]
      · simp only [mapGet, hk, if_false] at hget
        exact List.mem_cons_of_mem _ (ih hget)

/-- C7: one janitor pass at time `now` with a positive TTL removes exactly the
jobs whose `FinishedAt` is set and before `now - TTL` (`GetJob` then finds
nothing for their id) and keeps every other job as it was; with a TTL that is
not positive the pass changes nothing. -/
theorem cleanup_removes_expired (jm : JobManager) (now : Int)
    (hnd : (jm.jobs.map Prod.fst).Nodup) :
    (0 < jm.resultTTL →
        (∀ id j, jm.GetJob id = some j →
            ((∃ t, j.FinishedAt = some t ∧ t < now - jm.resultTTL) →
                (jm.cleanup now).GetJob id = none)
            ∧ ((¬ ∃ t, j.FinishedAt = some t ∧ t < now - jm.resultTTL) →
                (jm.cleanup now).GetJob id = some j))
        ∧ (∀ id, jm.GetJob id = none → (jm.cleanup now).GetJob id = none))
      ∧ (jm.resultTTL ≤ 0 → jm.cleanup now = jm) := by
  constructor
  · intro hpos
    have hnot : ¬ jm.resultTTL ≤ 0 := by omega
    have key : ∀ id, (jm.cleanup now).GetJob id
        = if id ∈ (jm.jobs.filter (fun kv => kv.2.isExpired (now + (-jm.resultTTL)))).map Prod.fst
          then none else jm.GetJob id := by
      intro id
      unfold JobManager.cleanup JobManager.GetJob
      simp only [hnot, if_false]
      by_cases hlen :
          ((jm.jobs.filter (fun kv => kv.2.isExpired (now + (-jm.resultTTL)))).map Prod.fst).length = 0
      · simp only [hlen, if_true]
        have : (jm.jobs.filter (fun kv => kv.2.isExpired (now + (-jm.resultTTL)))).map Prod.fst = [] :=
          List.length_eq_zero.mp hlen
        simp [this]
      · simp only [hlen, if_false, foldl_mapDelete]
        rw [mapGet_filter_key (fun x => decide (x ∉
          (jm.jobs.filter (fun kv => kv.2.isExpired (now + (-jm.resultTTL)))).map Prod.fst))]
        by_cases hin : id ∈
            (jm.jobs.filter (fun kv => kv.2.isExpired (now + (-jm.resultTTL)))).map Prod.fst
        · simp [hin]
        · simp [hin]
    have hexp : ∀ id j, jm.GetJob id = some j →
        (id ∈ (jm.jobs.filter (fun kv => kv.2.isExpired (now + (-jm.resultTTL)))).map Prod.fst
          ↔ ∃ t, j.FinishedAt = some t ∧ t < now - jm.resultTTL) := by
      intro id j hget
      have hiff : j.isExpired (now + (-jm.resultTTL)) = true
          ↔ ∃ t, j.FinishedAt = some t ∧ t < now - jm.resultTTL := by
        unfold Job.isExpired
        cases hf : j.FinishedAt with
        | none => simp
        | some t =>
            simp only [decide_eq_true_eq, Option.some.injEq, exists_eq_left']
            constructor <;> intro h <;> omega
      rw [← hiff]
      constructor
      · intro hin
        obtain ⟨kv, hkv, hfst⟩ := List.mem_map.mp hin
        obtain ⟨hmem, hex⟩ := List.mem_filter.mp hkv
        obtain ⟨k1, v1⟩ := kv
        simp only at hfst
        subst hfst
        have := mapGet_unique jm.jobs hnd k1 j v1 hget hmem
        rw [← this]
        exact hex
      · intro hex
        exact List.mem_map.mpr ⟨(id, j),
          List.mem_filter.mpr ⟨mapGet_mem jm.jobs id j hget, hex⟩, rfl⟩
    refine ⟨fun id j hget => ⟨fun h => ?_, fun h => ?_⟩, fun id hget => ?_⟩
    · rw [key id, if_pos ((hexp id j hget).mpr h)]
    · rw [key id, if_neg (fun hin => h ((hexp id j hget).mp hin)), hget]
    · rw [key id, hget]
      simp
  · intro hle
    unfold JobManager.cleanup
    simp [hle]

theorem cleanup_removes_expired_witness :
    ((([("a", (newJob "a" 0 1 1 true).markCompleted 10),
        ("b", (newJob "b" 0 1 1 true).markCompleted 90),
        ("c", newJob "c" 0 1 1 true)] : List (String × Job)).map Prod.fst).Nodup)
    ∧ (JobManager.cleanup
          { jobs := [("a", (newJob "a" 0 1 1 true).markCompleted 10),
                     ("b", (newJob "b" 0 1 1 true).markCompleted 90),
                     ("c", newJob "c" 0 1 1 true)], resultTTL := 50 } 100).GetJob "a" = none := by
  have hnd : ((([("a", (newJob "a" 0 1 1 true).markCompleted 10),
        ("b", (newJob "b" 0 1 1 true).markCompleted 90),
        ("c", newJob "c" 0 1 1 true)] : List (String × Job)).map Prod.fst).Nodup) := by decide
  refine ⟨hnd, ?_⟩
  exact (((cleanup_removes_expired
    { jobs := [("a", (newJob "a" 0 1 1 true).markCompleted 10),
               ("b", (newJob "b" 0 1 1 true).markCompleted 90),
               ("c", newJob "c" 0 1 1 true)], resultTTL := 50 } 100 hnd).1 (by decide)).1
      "a" ((newJob "a" 0 1 1 true).markCompleted 10) (by decide)).1 ⟨10, by decide, by decide⟩


/-! ## Properties: ordering of strings and `sort.Slice` -/

theorem ltChars_irrefl (a : List Char) : ltChars a a = false := by
  induction a with
  | nil => rfl
  | cons c cs ih => simp [ltChars, ih]

theorem ltChars_asymm : ∀ (a b : List Char), ltChars a b = true → ltChars b a = false := by
  intro a
  induction a with
  | nil =>
      intro b h
      cases b with
      | nil => rfl
      | cons d ds => rfl
  | cons c cs ih =>
      intro b h
      cases b with
      | nil => simp [ltChars] at h
      | cons d ds =>
          simp only [ltChars] at h ⊢
          by_cases h1 : c.toNat < d.toNat
          · have h2 : ¬ d.toNat < c.toNat := by omega
            simp [h1, h2]
          · by_cases h2 : d.toNat < c.toNat
            · simp [h1, h2] at h
            · simp only [h1, h2, if_false] at h ⊢
              exact ih ds h

theorem ltChars_trans : ∀ (a b c : List Char),
    ltChars a b = true → ltChars b c = true → ltChars a c = true := by
  intro a
  induction a with
  | nil =>
      intro b c hab hbc
      cases c with
      | nil =>
          cases b with
          | nil => simp [ltChars] at hab
          | cons d ds => simp [ltChars] at hbc
      | cons e es => rfl
  | cons x xs ih =>
      intro b c hab hbc
      cases b with
      | nil => simp [ltChars] at hab
      | cons y ys =>
          cases c with
          | nil => simp [ltChars] at hbc
          | cons z zs =>
              simp only [ltChars] at hab hbc ⊢
              by_cases hxy : x.toNat < y.toNat
              · by_cases hyz : y.toNat < z.toNat
                · have : x.toNat < z.toNat := by omega
                  simp [this]
                · by_cases hzy : z.toNat < y.toNat
                  · simp [hyz, hzy] at hbc
                  · have : x.toNat < z.toNat := by omega
                    simp [this]
              · by_cases hyx : y.toNat < x.toNat
                · simp [hxy, hyx] at hab
                · simp only [hxy, hyx, if_false] at hab
                  by_cases hyz : y.toNat < z.toNat
                  · have : x.toNat < z.toNat := by omega
                    simp [this]
                  · by_cases hzy : z.toNat < y.toNat
                    · simp [hyz, hzy] at hbc
                    · simp only [hyz, hzy, if_false] at hbc
                      have h1 : ¬ x.toNat < z.toNat := by omega
                      have h2 : ¬ z.toNat < x.toNat := by omega
                      simp only [h1, h2, if_false]
                      exact ih ys zs hab hbc

/-- Two strings neither of which is below the other are equal: `ltChars` is a
strict total order, so "not above" is "below or equal". -/
theorem ltChars_total : ∀ (a b : List Char),
    ltChars a b = false → ltChars b a = false → a = b := by
  intro a
  induction a with
  | nil =>
      intro b h1 h2
      cases b with
      | nil => rfl
      | cons d ds => simp [ltChars] at h1
  | cons c cs ih =>
      intro b h1 h2
      cases b with
      | nil => simp [ltChars] at h2
      | cons d ds =>
          simp only [ltChars] at h1 h2
          by_cases hcd : c.toNat < d.toNat
          · simp [hcd] at h1
          · by_cases hdc : d.toNat < c.toNat
            · simp [hdc] at h2
            · simp only [hcd, hdc, if_false] at h1 h2
              have hn : c.toNat = d.toNat := by omega
              have hc : c = d := by
                apply Char.ext
                apply UInt32.ext
                exact_mod_cast hn
              rw [hc, ih ds h1 h2]

theorem ltChars_negtrans (a b c : List Char) (h1 : ltChars a b = false)
    (h2 : ltChars b c = false) : ltChars a c = false := by
  cases hba : ltChars b a with
  | false =>
      rw [ltChars_total a b h1 hba]
      exact h2
  | true =>
      cases hcb : ltChars c b with
      | false =>
          rw [← ltChars_total b c h2 hcb]
          exact h1
      | true => exact ltChars_asymm c a (ltChars_trans c b a hcb hba)

theorem insertBy_perm {α : Type} (less : α → α → Bool) (x : α) (l : List α) :
    (insertBy less x l).Perm (x :: l) := by
  induction l with
  | nil => simp [insertBy]
  | cons y ys ih =>
      by_cases h : less y x = true
      · simp only [insertBy, h, if_true]
        exact (List.Perm.cons y ih).trans (List.Perm.swap x y ys)
      · simp [insertBy, h]

theorem sortSlice_perm {α : Type} (less : α → α → Bool) (l : List α) :
    (sortSlice less l).Perm l := by
  induction l with
  | nil => simp [sortSlice]
  | cons x xs ih =>
      simp only [sortSlice]
      exact (insertBy_perm less x _).trans (List.Perm.cons x ih)

theorem insertBy_sorted {α : Type} (less : α → α → Bool)
    (hasymm : ∀ a b, less a b = true → less b a = false)
    (hneg : ∀ a b c, less a b = false → less b c = false → less a c = false)
    (x : α) (l : List α) (hl : l.Pairwise (fun a b => less b a = false)) :
    (insertBy less x l).Pairwise (fun a b => less b a = false) := by
  induction l with
  | nil => simp [insertBy]
  | cons y ys ih =>
      have hy := (List.pairwise_cons.mp hl).1
      have hys := (List.pairwise_cons.mp hl).2
      by_cases h : less y x = true
      · simp only [insertBy, h, if_true]
        refine List.pairwise_cons.mpr ⟨?_, ih hys⟩
        intro z hz
        have hz1 : z ∈ x :: ys := (insertBy_perm less x ys).subset hz
        rcases List.mem_cons.mp hz1 with hzx | hzy
        · rw [hzx]
          exact hasymm y x h
        · exact hy z hzy
      · have hyx : less y x = false := by simpa using h
        simp only [insertBy, hyx]
        refine List.pairwise_cons.mpr ⟨?_, hl⟩
        intro z hz
        rcases List.mem_cons.mp hz with hzy | hzy
        · rw [hzy]
          exact hyx
        · exact hneg z y x (hy z hzy) hyx

theorem sortSlice_sorted {α : Type} (less : α → α → Bool)
    (hasymm : ∀ a b, less a b = true → less b a = false)
    (hneg : ∀ a b c, less a b = false → less b c = false → less a c = false)
    (l : List α) : (sortSlice less l).Pairwise (fun a b => less b a = false) := by
  induction l with
  | nil => simp [sortSlice]
  | cons x xs ih =>
      simp only [sortSlice]
      exact insertBy_sorted less hasymm hneg x _ ih

/-- Elements with equal keys keep their input order: `x` is put in front of
a sorted tail that has no element less than `x`. -/
theorem insertBy_stable {α : Type} (less : α → α → Bool) (x : α) (l : List α)
    (h : ∀ y ∈ l, less y x = false) : insertBy less x l = x :: l := by
  cases l with
  | nil => rfl
  | cons y ys => simp [insertBy, h y (List.mem_cons_self _ _)]

/-! ## Properties: the sort key -/

theorem lastIndexFrom_absent (sep : Char) :
    ∀ (s : List Char) (pos found : Int), sep ∉ s → lastIndexFrom sep s pos found = found := by
  intro s
  induction s with
  | nil => intro pos found _; rfl
  | cons c cs ih =>
      intro pos found h
      have hc : c ≠ sep := fun e => h (by simp [e])
      have hcs : sep ∉ cs := fun e => h (List.mem_cons_of_mem _ e)
      simp only [lastIndexFrom, hc, if_false]
      exact ih _ _ hcs

theorem lastIndexFrom_last (sep : Char) :
    ∀ (u v : List Char) (pos found : Int), sep ∉ v →
      lastIndexFrom sep (u ++ sep :: v) pos found = pos + (u.length : Int) := by
  intro u
  induction u with
  | nil =>
      intro v pos found hv
      simp only [List.nil_append, lastIndexFrom, if_true, List.length_nil]
      rw [lastIndexFrom_absent sep v _ _ hv]
      simp
  | cons c cs ih =>
      intro v pos found hv
      have h := ih v (pos + 1) (if c = sep then pos else found) hv
      simp only [List.cons_append, lastIndexFrom, List.length_cons]
      rw [show cs.append (sep :: v) = cs ++ sep :: v from rfl, h]
      push_cast
      omega

/-- The key is the part after the last `@`, and empty without any `@`. -/
theorem domainKey_spec (e : String) :
    ('@' ∉ e.data → domainKey e = "")
      ∧ (∀ u v, e.data = u ++ '@' :: v → '@' ∉ v → (domainKey e).data = v) := by
  constructor
  · intro h
    simp [domainKey, LastIndex, lastIndexFrom_absent '@' e.data 0 (-1) h]
  · intro u v he hv
    have hidx : LastIndex e '@' = (u.length : Int) := by
      unfold LastIndex
      rw [he, lastIndexFrom_last '@' u v 0 (-1) hv]
      simp
    have hne : (u.length : Int) ≠ -1 := by omega
    have hnat : ((u.length : Int) + 1).toNat = u.length + 1 := by omega
    simp only [domainKey, hidx, hne, ne_eq, not_false_eq_true, if_true, hnat, he]
    simp

theorem lessByDomain_asymm (a b : String) (h : lessByDomain a b = true) :
    lessByDomain b a = false :=
  ltChars_asymm _ _ h

theorem lessByDomain_trans (a b c : String) (h1 : lessByDomain a b = true)
    (h2 : lessByDomain b c = true) : lessByDomain a c = true :=
  ltChars_trans _ _ _ h1 h2

theorem lessByDomain_negtrans (a b c : String) (h1 : lessByDomain a b = false)
    (h2 : lessByDomain b c = false) : lessByDomain a c = false :=
  ltChars_negtrans _ _ _ h1 h2


/-! ## Properties: `handleBulk` -/

theorem normalizeEmails_eq (es : List String) :
    normalizeEmails es = (es.map TrimSpace).filter (fun e => decide (e ≠ "")) := by
  induction es with
  | nil => rfl
  | cons e rest ih =>
      by_cases h : TrimSpace e = ""
      · simp [normalizeEmails, h, ih]
      · simp [normalizeEmails, h, ih]

/-- What `handleBulk` does with a request that `parseBulkRequest` accepts. -/
theorem handleBulk_of_parsed (cfg : Config) (jm : JobManager) (newID : String) (now : Int)
    (r : Request) (p : ParsedBulk) (hm : r.Method = "POST")
    (hp : parseBulkRequest cfg r = Except.ok p) :
    handleBulk cfg jm newID now r =
      if p.emails.length = 0 then
        { resp := Response.error 400 "emails_required", jobs := jm, launch := none }
      else if (p.emails.length : Int) > cfg.MaxEmails then
        { resp := Response.error 400 "emails_limit_exceeded", jobs := jm, launch := none }
      else
        { resp := Response.accepted newID (sortSlice lessByDomain p.emails).length,
          jobs :=
            { jm with
              jobs := mapSet jm.jobs newID (newJob newID now p.level
                        (sortSlice lessByDomain p.emails).length p.storeResults) },
          launch := some
            { job := newJob newID now p.level
                       (sortSlice lessByDomain p.emails).length p.storeResults,
              emails := sortSlice lessByDomain p.emails, concurrency := p.concurrency,
              callbackURL := p.callbackURL, callbackBatch := p.callbackBatch } } := by
  unfold handleBulk
  simp only [hm, ne_eq, not_true_eq_false, if_false, hp]
  rfl

/-- C9: the list `handleBulk` hands to the worker pool is a permutation of the
list it accepted, in non-decreasing order of the part after the last `@`
(empty when there is no `@`), compared as Go compares strings. -/
theorem handleBulk_sorts_by_domain (cfg : Config) (jm : JobManager) (newID : String) (now : Int)
    (r : Request) (l : Launch) (h : (handleBulk cfg jm newID now r).launch = some l) :
    ∃ p, parseBulkRequest cfg r = Except.ok p
      ∧ l.emails.Perm p.emails
      ∧ l.emails.Pairwise (fun a b => ltChars (domainKey b).data (domainKey a).data = false)
      ∧ (∀ e : String, ('@' ∉ e.data → domainKey e = "")
            ∧ (∀ u v, e.data = u ++ '@' :: v → '@' ∉ v → (domainKey e).data = v)) := by
  by_cases hm : r.Method = "POST"
  · cases hp : parseBulkRequest cfg r with
    | error err =>
        simp [handleBulk, hm, hp] at h
    | ok p =>
        rw [handleBulk_of_parsed cfg jm newID now r p hm hp] at h
        by_cases h0 : p.emails.length = 0
        · simp [h0] at h
        · by_cases h1 : (p.emails.length : Int) > cfg.MaxEmails
          · simp [h0, h1] at h
          · simp only [h0, h1, if_false, Option.some.injEq] at h
            subst h
            exact ⟨p, rfl, sortSlice_perm _ _,
              sortSlice_sorted lessByDomain lessByDomain_asymm lessByDomain_negtrans _,
              domainKey_spec⟩
  · simp [handleBulk, hm] at h

theorem handleBulk_sorts_by_domain_witness :
    (handleBulk sampleConfig sampleManager "id1" 0 sampleRequest).launch = some sampleLaunch
    ∧ ∃ p, parseBulkRequest sampleConfig sampleRequest = Except.ok p
      ∧ sampleLaunch.emails.Perm p.emails
      ∧ sampleLaunch.emails.Pairwise
          (fun a b => ltChars (domainKey b).data (domainKey a).data = false)
      ∧ (∀ e : String, ('@' ∉ e.data → domainKey e = "")
            ∧ (∀ u v, e.data = u ++ '@' :: v → '@' ∉ v → (domainKey e).data = v)) :=
  ⟨by decide,
   handleBulk_sorts_by_domain sampleConfig sampleManager "id1" 0 sampleRequest sampleLaunch
     (by decide)⟩

/-- C10: a JSON bulk submission with a valid level is rejected with
`emails_required` when no address is left after trimming and dropping the
empty ones, and with `emails_limit_exceeded` when more than `MaxEmails` are
left; both rejections leave the job manager as it was.  Otherwise one job is
created, under the fresh id, with `Total` the number of addresses left, and
no other entry of the job manager changes. -/
theorem handleBulk_json_validation (cfg : Config) (jm : JobManager) (newID : String) (now : Int)
    (r : Request) (req : BulkRequest) (hm : r.Method = "POST")
    (hct : startsWith r.ContentType "application/json" = true ∨ r.ContentType = "")
    (hbody : r.jsonBody = some req) (hlevel : normalizeLevel req.Level ≠ 0) :
    normalizeEmails req.Emails = (req.Emails.map TrimSpace).filter (fun e => decide (e ≠ ""))
    ∧ ((normalizeEmails req.Emails).length = 0 →
        (handleBulk cfg jm newID now r).resp = Response.error 400 "emails_required"
          ∧ (handleBulk cfg jm newID now r).jobs = jm
          ∧ (handleBulk cfg jm newID now r).launch = none)
    ∧ (0 < (normalizeEmails req.Emails).length →
        ((normalizeEmails req.Emails).length : Int) > cfg.MaxEmails →
        (handleBulk cfg jm newID now r).resp = Response.error 400 "emails_limit_exceeded"
          ∧ (handleBulk cfg jm newID now r).jobs = jm
          ∧ (handleBulk cfg jm newID now r).launch = none)
    ∧ (0 < (normalizeEmails req.Emails).length →
        ((normalizeEmails req.Emails).length : Int) ≤ cfg.MaxEmails →
        (handleBulk cfg jm newID now r).resp
            = Response.accepted newID (normalizeEmails req.Emails).length
          ∧ (∃ j, (handleBulk cfg jm newID now r).jobs.GetJob newID = some j
                ∧ j.Total = (normalizeEmails req.Emails).length
                ∧ j.Status = JobStatus.JobQueued
                ∧ (∃ l, (handleBulk cfg jm newID now r).launch = some l ∧ l.job = j
                      ∧ l.emails.length = (normalizeEmails req.Emails).length))
          ∧ (∀ id, id ≠ newID →
                (handleBulk cfg jm newID now r).jobs.GetJob id = jm.GetJob id)
          ∧ ((handleBulk cfg jm newID now r).jobs.jobs.map Prod.fst).Perm
                (newID :: ((jm.jobs.map Prod.fst).filter (fun k => decide (k ≠ newID))))) := by
  have hp : parseBulkRequest cfg r = Except.ok
      { emails := normalizeEmails req.Emails, level := normalizeLevel req.Level,
        concurrency := req.Concurrency,
        storeResults := req.storeResultsOr cfg.StoreResults,
        callbackURL := req.CallbackURL, callbackBatch := req.CallbackBatch } := by
    unfold parseBulkRequest
    have hc : (startsWith r.ContentType "application/json" || decide (r.ContentType = "")) = true := by
      rcases hct with h | h
      · simp [h]
      · simp [h]
    simp only [hc, if_true, hbody, hlevel, if_false]
  have hlen : (sortSlice lessByDomain (normalizeEmails req.Emails)).length
      = (normalizeEmails req.Emails).length := (sortSlice_perm _ _).length_eq
  rw [handleBulk_of_parsed cfg jm newID now r _ hm hp]
  refine ⟨normalizeEmails_eq _, ?_, ?_, ?_⟩
  · intro h0
    simp [h0]
  · intro hpos hgt
    have h0 : ¬ (normalizeEmails req.Emails).length = 0 := by omega
    simp [h0, hgt]
  · intro hpos hle
    have h0 : ¬ (normalizeEmails req.Emails).length = 0 := by omega
    have h1 : ¬ ((normalizeEmails req.Emails).length : Int) > cfg.MaxEmails := by omega
    rw [if_neg h0, if_neg h1]
    refine ⟨by simp only [hlen], ⟨_, ?_, hlen, rfl, ⟨_, rfl, rfl, hlen⟩⟩, ?_, ?_⟩
    · simp [JobManager.GetJob, mapGet_mapSet]
    · intro id hid
      simp [JobManager.GetJob, mapGet_mapSet, hid]
    · simp only [mapSet, mapDelete, List.map_cons]
      refine List.Perm.cons _ ?_
      rw [List.filter_map]
      exact List.Perm.refl _

theorem handleBulk_json_validation_witness :
    sampleBigRequest.Method = "POST"
    ∧ (handleBulk sampleConfig sampleManager "id1" 0 sampleBigRequest).resp
        = Response.error 400 "emails_limit_exceeded" :=
  ⟨rfl,
   ((handleBulk_json_validation sampleConfig sampleManager "id1" 0 sampleBigRequest
      sampleBigBody rfl (Or.inl (by decide)) rfl (by decide)).2.2.1
        (by decide) (by decide)).1⟩


/-! ## Properties: steps of the worker pool -/

theorem sum_map_set {α M : Type} [AddCommMonoid M] (f : α → M) :
    ∀ (ws : List α) (k : Nat) (w w1 : α), ws.get? k = some w →
      ((ws.set k w1).map f).sum + f w = (ws.map f).sum + f w1 := by
  intro ws
  induction ws with
  | nil => intro k w w1 h; simp at h
  | cons x xs ih =>
      intro k w w1 h
      cases k with
      | zero =>
          simp only [List.get?_cons_zero, Option.some.injEq] at h
          subst h
          simp only [List.set_cons_zero, List.map_cons, List.sum_cons]
          abel
      | succ j =>
          simp only [List.get?_cons_succ] at h
          simp only [List.set_cons_succ, List.map_cons, List.sum_cons]
          rw [add_assoc, ih j w w1 h, add_assoc]

theorem Sys.step_eq (env : Env) (s : Sys) (k : Nat) :
    s.step env k = s ∨
      ∃ w, s.workers.get? k = some w ∧
        s.step env k = { sh := (w.step env s.sh).1, workers := s.workers.set k (w.step env s.sh).2 } := by
  unfold Sys.step
  cases h : s.workers.get? k with
  | none => exact Or.inl rfl
  | some w => exact Or.inr ⟨w, rfl, rfl⟩

theorem Sys.exec_append (env : Env) (s : Sys) (a b : List Nat) :
    s.exec env (a ++ b) = (s.exec env a).exec env b := by
  simp [Sys.exec, List.foldl_append]

/-- A property kept by every step holds in every state of every run. -/
theorem Sys.trace_invariant (env : Env) (P : Sys → Prop)
    (hstep : ∀ s k, P s → P (s.step env k)) :
    ∀ (sched : List Nat) (s : Sys), P s → ∀ t ∈ Sys.trace env s sched, P t := by
  intro sched
  induction sched with
  | nil =>
      intro s hs t ht
      simp only [Sys.trace, List.mem_singleton] at ht
      rw [ht]
      exact hs
  | cons k rest ih =>
      intro s hs t ht
      simp only [Sys.trace, List.mem_cons] at ht
      rcases ht with h | h
      · rw [h]
        exact hs
      · exact ih (s.step env k) (hstep s k hs) t h

theorem Sys.exec_invariant (env : Env) (P : Sys → Prop)
    (hstep : ∀ s k, P s → P (s.step env k)) :
    ∀ (sched : List Nat) (s : Sys), P s → P (s.exec env sched) := by
  intro sched
  induction sched with
  | nil => intro s hs; exact hs
  | cons k rest ih =>
      intro s hs
      exact ih (s.step env k) (hstep s k hs)

/-- The last state of the trace is the state `exec` returns. -/
theorem Sys.exec_mem_trace (env : Env) :
    ∀ (sched : List Nat) (s : Sys), s.exec env sched ∈ Sys.trace env s sched := by
  intro sched
  induction sched with
  | nil => intro s; simp [Sys.exec, Sys.trace]
  | cons k rest ih =>
      intro s
      simp only [Sys.trace, List.mem_cons]
      exact Or.inr (ih (s.step env k))

/-! ### What one worker step does to the job -/

@[simp] theorem Job.addResult_fields (j : Job) (r : EmailResult) :
    (j.addResult r).Done = j.Done ∧ (j.addResult r).Failed = j.Failed
      ∧ (j.addResult r).Status = j.Status ∧ (j.addResult r).Total = j.Total
      ∧ (j.addResult r).StoreResults = j.StoreResults ∧ (j.addResult r).Level = j.Level
      ∧ (j.addResult r).ID = j.ID ∧ (j.addResult r).FinishedAt = j.FinishedAt
      ∧ (j.addResult r).StartedAt = j.StartedAt ∧ (j.addResult r).domains = j.domains := by
  unfold Job.addResult
  split <;> simp

theorem Job.addResult_results (j : Job) (r : EmailResult) :
    (j.addResult r).results = if j.StoreResults then j.results ++ [r] else j.results := by
  unfold Job.addResult
  cases j.StoreResults <;> simp

@[simp] theorem Job.addResult_Done (j : Job) (r : EmailResult) : (j.addResult r).Done = j.Done :=
  (Job.addResult_fields j r).1

@[simp] theorem Job.addResult_Failed (j : Job) (r : EmailResult) :
    (j.addResult r).Failed = j.Failed :=
  (Job.addResult_fields j r).2.1

@[simp] theorem Job.addResult_Status (j : Job) (r : EmailResult) :
    (j.addResult r).Status = j.Status :=
  (Job.addResult_fields j r).2.2.1

@[simp] theorem Job.addResult_Total (j : Job) (r : EmailResult) :
    (j.addResult r).Total = j.Total :=
  (Job.addResult_fields j r).2.2.2.1

@[simp] theorem Job.addResult_StoreResults (j : Job) (r : EmailResult) :
    (j.addResult r).StoreResults = j.StoreResults :=
  (Job.addResult_fields j r).2.2.2.2.1

@[simp] theorem Job.addResult_Level (j : Job) (r : EmailResult) :
    (j.addResult r).Level = j.Level :=
  (Job.addResult_fields j r).2.2.2.2.2.1

@[simp] theorem Job.addResult_ID (j : Job) (r : EmailResult) : (j.addResult r).ID = j.ID :=
  (Job.addResult_fields j r).2.2.2.2.2.2.1

@[simp] theorem Job.addResult_FinishedAt (j : Job) (r : EmailResult) :
    (j.addResult r).FinishedAt = j.FinishedAt :=
  (Job.addResult_fields j r).2.2.2.2.2.2.2.1

@[simp] theorem Job.addResult_StartedAt (j : Job) (r : EmailResult) :
    (j.addResult r).StartedAt = j.StartedAt :=
  (Job.addResult_fields j r).2.2.2.2.2.2.2.2.1

@[simp] theorem Job.addResult_domains (j : Job) (r : EmailResult) :
    (j.addResult r).domains = j.domains :=
  (Job.addResult_fields j r).2.2.2.2.2.2.2.2.2

theorem Worker.step_done (env : Env) (sh : Shared) (w : Worker) :
    (w.step env sh).1.job.Done + (w.step env sh).2.owesDone + (w.step env sh).1.jobsCh.length
      = sh.job.Done + w.owesDone + sh.jobsCh.length := by
  cases w
  case recv =>
    simp only [Worker.step]
    split
    · next h => simp [Worker.owesDone, h]
    · next i e rest h =>
        simp only [Worker.owesDone, h, List.length_cons]
        omega
  case exited => rfl
  case token i email =>
    simp only [Worker.step]
    split <;> split <;> simp [Worker.owesDone]
  case mxLoad i email syn =>
    simp only [Worker.step]
    split <;> simp [Worker.owesDone]
  case checkMX i email syn =>
    simp only [Worker.step]
    split <;> simp [Worker.owesDone]
  case getCatchAll i email syn mx =>
    simp only [Worker.step]
    split
    · simp [Worker.owesDone]
    · split <;> simp [Worker.owesDone]
  case verify i email syn =>
    simp only [Worker.step]
    split
    · simp [Worker.owesDone]
    · split <;> simp [Worker.owesDone]
  case setCatchAll i email syn res => simp [Worker.step, Worker.owesDone, Job.setCatchAll]
  case incFailed i email msg => simp [Worker.step, Worker.owesDone, Job.incFailed]
  case addResult i email r errd =>
    simp [Worker.step, Worker.owesDone]
  case enqueue i email r errd => simp [Worker.step, Worker.owesDone]
  case incDone i email errd =>
    simp only [Worker.step, Worker.owesDone, Job.incDone]

theorem Worker.step_failed (env : Env) (sh : Shared) (w : Worker) :
    sh.job.Done + w.failedAhead + (w.step env sh).1.job.Failed
      ≤ (w.step env sh).1.job.Done + (w.step env sh).2.failedAhead + sh.job.Failed := by
  cases w <;> simp only [Worker.step] <;> (repeat' split) <;>
    simp_all [Worker.failedAhead, Job.setCatchAll, Job.incFailed, Job.incDone] <;>
    (try split) <;> omega

theorem Worker.step_mono (env : Env) (sh : Shared) (w : Worker) :
    sh.job.Done ≤ (w.step env sh).1.job.Done ∧ sh.job.Failed ≤ (w.step env sh).1.job.Failed := by
  cases w <;> simp only [Worker.step] <;> (repeat' split) <;>
    simp_all [Job.setCatchAll, Job.incFailed, Job.incDone]

/-- A worker step leaves the fields of the job that `runJob` never writes. -/
theorem Worker.step_frame (env : Env) (sh : Shared) (w : Worker) :
    (w.step env sh).1.job.Status = sh.job.Status
      ∧ (w.step env sh).1.job.Total = sh.job.Total
      ∧ (w.step env sh).1.job.StoreResults = sh.job.StoreResults
      ∧ (w.step env sh).1.job.Level = sh.job.Level
      ∧ (w.step env sh).1.job.ID = sh.job.ID
      ∧ (w.step env sh).1.job.FinishedAt = sh.job.FinishedAt
      ∧ (w.step env sh).1.job.StartedAt = sh.job.StartedAt := by
  cases w <;> simp only [Worker.step] <;> (repeat' split) <;>
    simp_all [Job.setCatchAll, Job.incFailed, Job.incDone]

@[simp] theorem invalidVerdict_Email (email : String) (syn : Syntax) :
    (invalidVerdict email syn).Email = email := rfl

@[simp] theorem level1Verdict_Email (env : Env) (email : String) (syn : Syntax) (mx : Option Mx) :
    (level1Verdict env email syn mx).Email = email := by
  unfold level1Verdict
  split <;> rfl

@[simp] theorem catchAllVerdict_Email (env : Env) (email : String) (syn : Syntax) :
    (catchAllVerdict env email syn).Email = email := rfl

/-- The results stored so far, the address the worker holds and the addresses
still in the channel: a step moves an address along and loses none. -/
theorem Worker.step_results (env : Env) (cell : EmailResult → String) (sh : Shared) (w : Worker)
    (hgood : w.good cell) (hstore : sh.job.StoreResults = true) :
    (w.step env sh).1.job.results.map cell ++ (w.step env sh).2.held
        ++ (w.step env sh).1.jobsCh.map Prod.snd
      = sh.job.results.map cell ++ w.held ++ sh.jobsCh.map Prod.snd := by
  cases w <;> simp only [Worker.step] <;> (repeat' split) <;>
    simp_all [Worker.held, Worker.good, Job.setCatchAll, Job.incFailed, Job.incDone,
      Job.addResult_results]

theorem Worker.step_good (env : Env) (cell : EmailResult → String)
    (hnone : ∀ e msg, cell { Email := e, Result := none, Error := msg } = e)
    (hsome : ∀ e res, res.Email = e → cell { Email := e, Result := some res, Error := "" } = e)
    (hverify : ∀ i e res, env.Verify i e = Except.ok res →
      cell { Email := e, Result := some res, Error := "" } = e)
    (sh : Shared) (w : Worker) (hgood : w.good cell) : (w.step env sh).2.good cell := by
  cases w <;> simp only [Worker.step] <;> (repeat' split) <;>
    simp_all [Worker.good] <;> exact hverify _ _ _ (by assumption)

theorem Worker.step_queue (env : Env) (sh : Shared) (w : Worker) :
    (w.step env sh).1.jobsCh.length ≤ sh.jobsCh.length
      ∧ (sh.jobsCh = [] → (w.step env sh).1.jobsCh = [])
      ∧ ((w.step env sh).2 = Worker.exited →
            w = Worker.exited ∨ (w.step env sh).1.jobsCh = []) := by
  cases w <;> simp only [Worker.step] <;> (repeat' split) <;> simp_all

/-- A step of a worker that has not left its loop lowers its bound. -/
theorem Worker.step_pot (env : Env) (sh : Shared) (w : Worker) (hw : w ≠ Worker.exited) :
    (w.step env sh).2.pot (w.step env sh).1.jobsCh.length + 1 ≤ w.pot sh.jobsCh.length := by
  cases w <;> simp only [Worker.step] <;> (repeat' split) <;>
    simp_all [Worker.pot, Worker.rem] <;> omega

theorem Worker.pot_mono (q1 q2 : Nat) (h : q1 ≤ q2) (w : Worker) : w.pot q1 ≤ w.pot q2 := by
  unfold Worker.pot
  split <;> omega

theorem Worker.pot_zero (q : Nat) (w : Worker) : w.pot q = 0 ↔ w = Worker.exited := by
  unfold Worker.pot
  split <;> simp_all

theorem Worker.pot_le (q : Nat) (w : Worker) : w.pot q ≤ 10 * (q + 1) := by
  unfold Worker.pot
  split
  · omega
  · cases w <;> simp [Worker.rem] <;> omega


/-! ## Properties: invariants of the worker pool -/

theorem Sys.step_workers_length (env : Env) (s : Sys) (k : Nat) :
    (s.step env k).workers.length = s.workers.length := by
  rcases Sys.step_eq env s k with h | ⟨w, _, h⟩
  · rw [h]
  · rw [h]
    simp

theorem Sys.step_job_frame (env : Env) (s : Sys) (k : Nat) :
    (s.step env k).sh.job.Status = s.sh.job.Status
      ∧ (s.step env k).sh.job.Total = s.sh.job.Total
      ∧ (s.step env k).sh.job.StoreResults = s.sh.job.StoreResults
      ∧ (s.step env k).sh.job.Level = s.sh.job.Level
      ∧ (s.step env k).sh.job.ID = s.sh.job.ID
      ∧ (s.step env k).sh.job.FinishedAt = s.sh.job.FinishedAt
      ∧ (s.step env k).sh.job.StartedAt = s.sh.job.StartedAt := by
  rcases Sys.step_eq env s k with h | ⟨w, _, h⟩
  · rw [h]
    simp
  · rw [h]
    exact Worker.step_frame env s.sh w

theorem Sys.pool_step_mono (env : Env) (s : Sys) (k : Nat) :
    s.sh.job.Done ≤ (s.step env k).sh.job.Done
      ∧ s.sh.job.Failed ≤ (s.step env k).sh.job.Failed := by
  rcases Sys.step_eq env s k with h | ⟨w, _, h⟩
  · rw [h]
    simp
  · rw [h]
    exact Worker.step_mono env s.sh w

theorem Sys.step_queue_length (env : Env) (s : Sys) (k : Nat) :
    (s.step env k).sh.jobsCh.length ≤ s.sh.jobsCh.length := by
  rcases Sys.step_eq env s k with h | ⟨w, _, h⟩
  · rw [h]
  · rw [h]
    exact (Worker.step_queue env s.sh w).1

theorem PoolInv.step (env : Env) (cell : EmailResult → String)
    (hnone : ∀ e msg, cell { Email := e, Result := none, Error := msg } = e)
    (hsome : ∀ e res, res.Email = e → cell { Email := e, Result := some res, Error := "" } = e)
    (hverify : ∀ i e res, env.Verify i e = Except.ok res →
      cell { Email := e, Result := some res, Error := "" } = e)
    (emails : List String) (s : Sys) (k : Nat) (inv : PoolInv cell emails s) :
    PoolInv cell emails (s.step env k) := by
  rcases Sys.step_eq env s k with h | ⟨w, hw, h⟩
  · rw [h]
    exact inv
  · rw [h]
    have hmem : w ∈ s.workers := List.get?_mem hw
    constructor
    · have h1 := sum_map_set Worker.owesDone s.workers k w (w.step env s.sh).2 hw
      have h2 := Worker.step_done env s.sh w
      have h3 := inv.done
      simp only
      omega
    · have h1 := sum_map_set Worker.failedAhead s.workers k w (w.step env s.sh).2 hw
      have h2 := Worker.step_failed env s.sh w
      have h3 := inv.failed
      simp only
      omega
    · intro hstore
      simp only at hstore ⊢
      have hstore0 : s.sh.job.StoreResults = true := by
        rw [← (Worker.step_frame env s.sh w).2.2.1]
        exact hstore
      have e1 := congrArg (fun l : List String => (↑l : Multiset String))
        (Worker.step_results env cell s.sh w (inv.good w hmem) hstore0)
      simp only [← Multiset.coe_add] at e1
      have e2 := sum_map_set (fun w => (↑w.held : Multiset String)) s.workers k w
        (w.step env s.sh).2 hw
      have e3 := inv.results hstore0
      apply add_right_cancel (b := (↑w.held : Multiset String))
      calc (↑((w.step env s.sh).1.job.results.map cell) : Multiset String)
              + ((s.workers.set k (w.step env s.sh).2).map
                  (fun w => (↑w.held : Multiset String))).sum
              + ↑((w.step env s.sh).1.jobsCh.map Prod.snd) + ↑w.held
            = (↑((w.step env s.sh).1.job.results.map cell) : Multiset String)
              + ↑((w.step env s.sh).1.jobsCh.map Prod.snd)
              + (((s.workers.set k (w.step env s.sh).2).map
                  (fun w => (↑w.held : Multiset String))).sum + ↑w.held) := by abel
        _ = (↑((w.step env s.sh).1.job.results.map cell) : Multiset String)
              + ↑((w.step env s.sh).1.jobsCh.map Prod.snd)
              + ((s.workers.map (fun w => (↑w.held : Multiset String))).sum
                  + ↑(w.step env s.sh).2.held) := by rw [e2]
        _ = (s.workers.map (fun w => (↑w.held : Multiset String))).sum
              + ((↑((w.step env s.sh).1.job.results.map cell) : Multiset String)
                  + ↑(w.step env s.sh).2.held
                  + ↑((w.step env s.sh).1.jobsCh.map Prod.snd)) := by abel
        _ = (s.workers.map (fun w => (↑w.held : Multiset String))).sum
              + ((↑(s.sh.job.results.map cell) : Multiset String) + ↑w.held
                  + ↑(s.sh.jobsCh.map Prod.snd)) := by rw [e1]
        _ = (↑(s.sh.job.results.map cell) : Multiset String)
              + (s.workers.map (fun w => (↑w.held : Multiset String))).sum
              + ↑(s.sh.jobsCh.map Prod.snd) + ↑w.held := by abel
        _ = ↑emails + ↑w.held := by rw [e3]
    · intro w1 hw1
      rcases List.mem_or_eq_of_mem_set hw1 with h1 | h1
      · exact inv.good w1 h1
      · rw [h1]
        exact Worker.step_good env cell hnone hsome hverify s.sh w (inv.good w hmem)
    · intro hex
      simp only at hex ⊢
      rcases List.mem_or_eq_of_mem_set hex with h1 | h1
      · exact (Worker.step_queue env s.sh w).2.1 (inv.closed h1)
      · rcases (Worker.step_queue env s.sh w).2.2 h1.symm with h2 | h2
        · rw [h2] at hmem
          exact (Worker.step_queue env s.sh w).2.1 (inv.closed hmem)
        · exact h2

/-! ### Every worker leaves its loop -/

theorem get?_some_lt {α : Type} (l : List α) (k : Nat) (w : α) (h : l.get? k = some w) :
    k < l.length := by
  by_contra hn
  rw [List.get?_eq_none.mpr (Nat.le_of_not_lt hn)] at h
  cases h

theorem Sys.step_exited_stable (env : Env) (s : Sys) (k j : Nat)
    (h : s.workers.get? j = some Worker.exited) :
    (s.step env k).workers.get? j = some Worker.exited := by
  rcases Sys.step_eq env s k with e | ⟨w, hw, e⟩
  · rw [e]
    exact h
  · rw [e]
    simp only
    by_cases hjk : k = j
    · subst hjk
      rw [hw] at h
      simp only [Option.some.injEq] at h
      subst h
      have hlt : k < s.workers.length := get?_some_lt _ _ _ hw
      simp [Worker.step, List.get?_eq_getElem?, List.getElem?_set, hlt]
    · simp only [List.get?_eq_getElem?] at h ⊢
      rw [List.getElem?_set_ne hjk]
      exact h

theorem Sys.exec_exited_stable (env : Env) (j : Nat) :
    ∀ (sched : List Nat) (s : Sys), s.workers.get? j = some Worker.exited →
      (s.exec env sched).workers.get? j = some Worker.exited := by
  intro sched
  induction sched with
  | nil => intro s h; exact h
  | cons k rest ih =>
      intro s h
      exact ih (s.step env k) (Sys.step_exited_stable env s k j h)

theorem Sys.exec_workers_length (env : Env) :
    ∀ (sched : List Nat) (s : Sys), (s.exec env sched).workers.length = s.workers.length := by
  intro sched
  induction sched with
  | nil => intro s; rfl
  | cons k rest ih =>
      intro s
      exact (ih (s.step env k)).trans (Sys.step_workers_length env s k)

theorem Sys.exec_queue_length (env : Env) :
    ∀ (sched : List Nat) (s : Sys), (s.exec env sched).sh.jobsCh.length ≤ s.sh.jobsCh.length := by
  intro sched
  induction sched with
  | nil => intro s; exact Nat.le_refl _
  | cons k rest ih =>
      intro s
      exact Nat.le_trans (ih (s.step env k)) (Sys.step_queue_length env s k)

/-- Worker `k`, given as many steps as its bound, has left its loop. -/
theorem Sys.exec_replicate_exits (env : Env) (k : Nat) :
    ∀ (m : Nat) (s : Sys) (w : Worker), s.workers.get? k = some w →
      w.pot s.sh.jobsCh.length ≤ m →
      (s.exec env (List.replicate m k)).workers.get? k = some Worker.exited := by
  intro m
  induction m with
  | zero =>
      intro s w hw hpot
      have : w = Worker.exited := (Worker.pot_zero s.sh.jobsCh.length w).mp (by omega)
      rw [this] at hw
      exact hw
  | succ m ih =>
      intro s w hw hpot
      simp only [List.replicate_succ, Sys.exec, List.foldl_cons]
      by_cases hex : w = Worker.exited
      · rw [hex] at hw
        exact Sys.exec_exited_stable env k _ _ (Sys.step_exited_stable env s k k hw)
      · have hlt : k < s.workers.length := get?_some_lt _ _ _ hw
        have hstep : s.step env k
            = { sh := (w.step env s.sh).1, workers := s.workers.set k (w.step env s.sh).2 } := by
          unfold Sys.step
          rw [hw]
        have hget : (s.step env k).workers.get? k = some (w.step env s.sh).2 := by
          rw [hstep]
          simp [List.get?_eq_getElem?, List.getElem?_set, hlt]
        have hp := Worker.step_pot env s.sh w hex
        refine ih (s.step env k) (w.step env s.sh).2 hget ?_
        rw [hstep]
        simp only
        omega

theorem Sys.exec_drain_exits (env : Env) (n : Nat) :
    ∀ (ks : List Nat) (s : Sys), (∀ k ∈ ks, k < s.workers.length) → s.sh.jobsCh.length ≤ n →
      ∀ k ∈ ks,
        (s.exec env ((ks.map (fun j => List.replicate (10 * (n + 1) + 1) j)).flatten)).workers.get? k
          = some Worker.exited := by
  intro ks
  induction ks with
  | nil => intro s _ _ k hk; simp at hk
  | cons k0 rest ih =>
      intro s hks hq k hk
      simp only [List.map_cons, List.flatten_cons, Sys.exec_append]
      have hk0 : k0 < s.workers.length := hks k0 (List.mem_cons_self _ _)
      obtain ⟨w, hw⟩ : ∃ w, s.workers.get? k0 = some w :=
        ⟨s.workers.get ⟨k0, hk0⟩, List.get?_eq_get hk0⟩
      have hpot : w.pot s.sh.jobsCh.length ≤ 10 * (n + 1) + 1 := by
        have := Worker.pot_le s.sh.jobsCh.length w
        omega
      have h0 := Sys.exec_replicate_exits env k0 (10 * (n + 1) + 1) s w hw hpot
      by_cases hkk : k = k0
      · rw [hkk]
        exact Sys.exec_exited_stable env k0 _ _ h0
      · have hkr : k ∈ rest := by
          rcases List.mem_cons.mp hk with h | h
          · exact absurd h hkk
          · exact h
        refine ih _ ?_ ?_ k hkr
        · intro j hj
          rw [Sys.exec_workers_length]
          exact hks j (List.mem_cons_of_mem _ hj)
        · exact Nat.le_trans (Sys.exec_queue_length env _ s) hq

/-- After any schedule followed by the drain, all workers have left their
loop. -/
theorem Sys.exec_then_drain (env : Env) (n : Nat) (s : Sys) (sched : List Nat)
    (hq : s.sh.jobsCh.length ≤ n) :
    ∀ w ∈ (s.exec env (sched ++ drainSchedule s.workers.length n)).workers, w = Worker.exited := by
  intro w hw
  rw [Sys.exec_append] at hw
  obtain ⟨k, hk⟩ := List.get?_of_mem hw
  have hlen : ((s.exec env sched).exec env (drainSchedule s.workers.length n)).workers.length
      = s.workers.length := by
    rw [Sys.exec_workers_length, Sys.exec_workers_length]
  have hklt : k < s.workers.length := by
    rw [← hlen]
    exact get?_some_lt _ _ _ hk
  have := Sys.exec_drain_exits env n (List.range s.workers.length) (s.exec env sched)
    (by
      intro j hj
      rw [Sys.exec_workers_length]
      exact List.mem_range.mp hj)
    (Nat.le_trans (Sys.exec_queue_length env _ s) hq) k (List.mem_range.mpr hklt)
  unfold drainSchedule at hk
  rw [this] at hk
  simp only [Option.some.injEq] at hk
  exact hk.symm


/-! ## Properties: `runPool` -/

theorem sum_map_replicate_zero {α : Type} (f : α → Nat) (a : α) (h : f a = 0) (n : Nat) :
    ((List.replicate n a).map f).sum = 0 := by
  induction n with
  | zero => rfl
  | succ n ih => simp [List.replicate_succ, h]

theorem initSys_workers (cfg : Config) (now : Int) (mxCache : List (String × Mx)) (job : Job)
    (emails : List String) (concurrency : Int) (callback : Option CallbackSender) :
    (initSys cfg now mxCache job emails concurrency callback).workers
        = List.replicate (effConcurrency cfg concurrency emails.length).toNat Worker.recv
      ∧ 1 ≤ (effConcurrency cfg concurrency emails.length).toNat := by
  refine ⟨rfl, ?_⟩
  unfold effConcurrency
  simp only
  split <;> omega

/-- The pool `runPool` sets up for a job that has counted and stored nothing
yet satisfies the conservation invariant. -/
theorem initSys_inv (cell : EmailResult → String) (cfg : Config) (now : Int)
    (mxCache : List (String × Mx)) (job : Job) (emails : List String) (concurrency : Int)
    (callback : Option CallbackSender)
    (hd : job.Done = 0) (hf : job.Failed = 0) (hr : job.results = []) :
    PoolInv cell emails
      (initSys cfg now mxCache job emails concurrency callback) := by
  constructor
  · simp [initSys, Job.markRunning, hd, sum_map_replicate_zero, Worker.owesDone,
      List.enum_length]
  · simp [initSys, Job.markRunning, hf]
  · intro _
    have hz : ((List.replicate (effConcurrency cfg concurrency emails.length).toNat
        Worker.recv).map (fun w => (↑w.held : Multiset String))).sum = 0 := by
      generalize (effConcurrency cfg concurrency emails.length).toNat = n
      induction n with
      | zero => rfl
      | succ n ih => simp [List.replicate_succ, Worker.held, ih]
    simp only [initSys, Job.markRunning, hr, List.map_nil, hz, List.enum_map_snd]
    simp
  · intro w hw
    simp only [initSys] at hw
    rw [List.eq_of_mem_replicate hw]
    trivial
  · intro hex
    simp only [initSys] at hex
    have := List.eq_of_mem_replicate hex
    cases this

/-- The state in which `runPool` finds the pool after `wg.Wait()`: the
invariant holds, every worker has left its loop, the channel is empty. -/
theorem runPool_inv (env : Env) (cell : EmailResult → String)
    (hnone : ∀ e msg, cell { Email := e, Result := none, Error := msg } = e)
    (hsome : ∀ e res, res.Email = e → cell { Email := e, Result := some res, Error := "" } = e)
    (hverify : ∀ i e res, env.Verify i e = Except.ok res →
      cell { Email := e, Result := some res, Error := "" } = e)
    (cfg : Config) (startedAt finishedAt : Int) (mxCache : List (String × Mx)) (job : Job)
    (emails : List String) (concurrency : Int) (callback : Option CallbackSender)
    (sched : List Nat) (hd : job.Done = 0) (hf : job.Failed = 0) (hr : job.results = []) :
    PoolInv cell emails
        (runPool env cfg startedAt finishedAt mxCache job emails concurrency callback sched).pool
      ∧ (∀ w ∈ (runPool env cfg startedAt finishedAt mxCache job emails concurrency callback sched).pool.workers, w = Worker.exited)
      ∧ (runPool env cfg startedAt finishedAt mxCache job emails concurrency callback sched).pool.workers ≠ []
      ∧ (runPool env cfg startedAt finishedAt mxCache job emails concurrency callback sched).pool.sh.jobsCh = [] := by
  have hinv : PoolInv cell emails
      (runPool env cfg startedAt finishedAt mxCache job emails concurrency callback sched).pool :=
    Sys.exec_invariant env (PoolInv cell emails)
      (fun s k h => PoolInv.step env cell hnone hsome hverify emails s k h) _ _
      (initSys_inv cell cfg startedAt mxCache job emails concurrency callback
        hd hf hr)
  have hex : ∀ w ∈ (runPool env cfg startedAt finishedAt mxCache job emails concurrency
      callback sched).pool.workers, w = Worker.exited :=
    Sys.exec_then_drain env emails.length _ sched (by simp [initSys, List.enum_length])
  have hne : (runPool env cfg startedAt finishedAt mxCache job emails concurrency callback sched).pool.workers ≠ [] := by
    intro h
    have hl := congrArg List.length h
    simp only [runPool, Sys.exec_workers_length, List.length_nil] at hl
    have := (initSys_workers cfg startedAt mxCache job emails concurrency callback)
    rw [this.1, List.length_replicate] at hl
    omega
  refine ⟨hinv, hex, hne, ?_⟩
  obtain ⟨w, hw⟩ := List.exists_mem_of_ne_nil _ hne
  have := hex w hw
  rw [this] at hw
  exact hinv.closed hw

theorem Worker.step_unstored (env : Env) (sh : Shared) (w : Worker)
    (h : sh.job.StoreResults = false) : (w.step env sh).1.job.results = sh.job.results := by
  cases w <;> simp only [Worker.step] <;> (repeat' split) <;>
    simp_all [Job.setCatchAll, Job.incFailed, Job.incDone, Job.addResult_results]

theorem Sys.pool_step_unstored (env : Env) (s : Sys) (k : Nat)
    (h : s.sh.job.StoreResults = false → s.sh.job.results = []) :
    (s.step env k).sh.job.StoreResults = false → (s.step env k).sh.job.results = [] := by
  rcases Sys.step_eq env s k with e | ⟨w, _, e⟩
  · rw [e]
    exact h
  · rw [e]
    intro hs
    simp only at hs ⊢
    rw [(Worker.step_frame env s.sh w).2.2.1] at hs
    rw [Worker.step_unstored env s.sh w hs]
    exact h hs

theorem sum_map_exited {M : Type} [AddCommMonoid M] (f : Worker → M) (hf : f Worker.exited = 0)
    (ws : List Worker) (h : ∀ w ∈ ws, w = Worker.exited) : (ws.map f).sum = 0 := by
  apply List.sum_eq_zero
  intro x hx
  obtain ⟨w, hw, rfl⟩ := List.mem_map.mp hx
  rw [h w hw]
  exact hf

/-- The job `runPool` returns, in terms of the pool after `wg.Wait()`. -/
theorem runPool_job (env : Env) (cfg : Config) (startedAt finishedAt : Int)
    (mxCache : List (String × Mx)) (job : Job) (emails : List String) (concurrency : Int)
    (callback : Option CallbackSender) (sched : List Nat) :
    (runPool env cfg startedAt finishedAt mxCache job emails concurrency callback sched).job
      = (runPool env cfg startedAt finishedAt mxCache job emails concurrency callback sched).pool.sh.job.markCompleted finishedAt := rfl

theorem runPool_frame (env : Env) (cfg : Config) (startedAt finishedAt : Int)
    (mxCache : List (String × Mx)) (job : Job) (emails : List String) (concurrency : Int)
    (callback : Option CallbackSender) (sched : List Nat) :
    (runPool env cfg startedAt finishedAt mxCache job emails concurrency callback sched).pool.sh.job.Total = job.Total
      ∧ (runPool env cfg startedAt finishedAt mxCache job emails concurrency callback sched).pool.sh.job.StoreResults = job.StoreResults
      ∧ (runPool env cfg startedAt finishedAt mxCache job emails concurrency callback sched).pool.sh.job.Level = job.Level
      ∧ (runPool env cfg startedAt finishedAt mxCache job emails concurrency callback sched).pool.sh.job.Status = JobStatus.JobRunning := by
  have h := Sys.exec_invariant env
    (fun s => s.sh.job.Total = job.Total ∧ s.sh.job.StoreResults = job.StoreResults
      ∧ s.sh.job.Level = job.Level ∧ s.sh.job.Status = JobStatus.JobRunning)
    (fun s k hs => by
      have hf := Sys.step_job_frame env s k
      exact ⟨hf.2.1.trans hs.1, hf.2.2.1.trans hs.2.1, hf.2.2.2.1.trans hs.2.2.1,
        hf.1.trans hs.2.2.2⟩)
    ((initSys cfg startedAt mxCache job emails concurrency callback).workers.length
      |> fun n => (sched ++ drainSchedule n emails.length))
    (initSys cfg startedAt mxCache job emails concurrency callback)
    ⟨rfl, rfl, rfl, rfl⟩
  exact h

/-- When `runJob` returns, the callback set-up has yielded a sender or none,
and the result is that of the pool run with it. -/
theorem runJob_eq_some (env : Env) (cfg : Config) (startedAt finishedAt : Int)
    (mxCache : List (String × Mx)) (job : Job) (emails : List String) (concurrency : Int)
    (callbackURL : String) (callbackBatch : Int) (sched : List Nat) (R : RunResult)
    (h : runJob env cfg startedAt finishedAt mxCache job emails concurrency callbackURL
      callbackBatch sched = some R) :
    ∃ callback, startCallback job.ID callbackURL callbackBatch = some callback
      ∧ R = runPool env cfg startedAt finishedAt mxCache job emails concurrency callback
          sched := by
  unfold runJob at h
  cases hc : startCallback job.ID callbackURL callbackBatch with
  | none =>
      rw [hc] at h
      cases h
  | some callback =>
      rw [hc] at h
      exact ⟨callback, rfl, (Option.some.inj h).symm⟩

theorem startCallback_eq_none (jobID callbackURL : String) (callbackBatch : Int) :
    startCallback jobID callbackURL callbackBatch = none
      ↔ callbackURL ≠ ""
        ∧ NewCallbackSender callbackURL (if callbackBatch ≤ 0 then 200 else callbackBatch)
            = none := by
  unfold startCallback
  by_cases hu : callbackURL ≠ ""
  · rw [if_pos hu]
    cases hn : NewCallbackSender callbackURL (if callbackBatch ≤ 0 then 200 else callbackBatch)
      <;> simp [hu]
  · rw [if_neg hu]
    simp [hu]

/-- The function `runJob` fails to return exactly when a callback URL is given
and `NewCallbackSender` panics on the batch size. -/
theorem runJob_eq_none (env : Env) (cfg : Config) (startedAt finishedAt : Int)
    (mxCache : List (String × Mx)) (job : Job) (emails : List String) (concurrency : Int)
    (callbackURL : String) (callbackBatch : Int) (sched : List Nat) :
    runJob env cfg startedAt finishedAt mxCache job emails concurrency callbackURL
        callbackBatch sched = none
      ↔ callbackURL ≠ ""
        ∧ NewCallbackSender callbackURL (if callbackBatch ≤ 0 then 200 else callbackBatch)
            = none := by
  rw [← startCallback_eq_none job.ID callbackURL callbackBatch]
  unfold runJob
  cases startCallback job.ID callbackURL callbackBatch <;> simp

/-- C1: `runJob` returns unless a callback URL is given and the callback
sender cannot be created; when it returns for a job created with `Total` the
number of addresses, whatever the verifier answered and however the workers
interleaved, `Done` equals `Total`, and the stored results, if results are
stored, are exactly `Total` many, one per address (their `Email` fields are
the addresses, as a multiset); if results are not stored there are none. -/
theorem runJob_conservation (env : Env) (cfg : Config) (jm : JobManager) (id : String)
    (createdAt startedAt finishedAt : Int) (mxCache : List (String × Mx)) (level : Int)
    (storeResults : Bool) (emails : List String) (concurrency : Int) (callbackURL : String)
    (callbackBatch : Int) (sched : List Nat) :
    (runJob env cfg startedAt finishedAt mxCache
        (jm.CreateJob id createdAt level emails.length storeResults).2 emails concurrency
        callbackURL callbackBatch sched = none
        ↔ callbackURL ≠ ""
          ∧ NewCallbackSender callbackURL (if callbackBatch ≤ 0 then 200 else callbackBatch)
              = none)
      ∧ ∀ R : RunResult, runJob env cfg startedAt finishedAt mxCache
        (jm.CreateJob id createdAt level emails.length storeResults).2 emails concurrency
        callbackURL callbackBatch sched = some R →
        R.job.Total = emails.length
          ∧ R.job.Done = emails.length
          ∧ R.job.Status = JobStatus.JobCompleted
          ∧ R.job.results.length = (if storeResults then emails.length else 0)
          ∧ (R.job.results.map (fun r => r.Email)).Perm
              (if storeResults then emails else []) := by
  refine ⟨runJob_eq_none env cfg startedAt finishedAt mxCache _ emails concurrency callbackURL
    callbackBatch sched, ?_⟩
  intro R hR
  obtain ⟨callback, _, rfl⟩ := runJob_eq_some env cfg startedAt finishedAt mxCache _ emails
    concurrency callbackURL callbackBatch sched R hR
  obtain ⟨hinv, hex, _, hq⟩ := runPool_inv env (fun r => r.Email) (fun _ _ => rfl)
    (fun _ _ _ => rfl) (fun _ _ _ _ => rfl) cfg startedAt finishedAt mxCache
    (jm.CreateJob id createdAt level emails.length storeResults).2 emails concurrency
    callback sched rfl rfl rfl
  have hfr := runPool_frame env cfg startedAt finishedAt mxCache
    (jm.CreateJob id createdAt level emails.length storeResults).2 emails concurrency
    callback sched
  have hun := Sys.exec_invariant env
    (fun s => s.sh.job.StoreResults = false → s.sh.job.results = [])
    (fun s k hs => Sys.pool_step_unstored env s k hs)
    (sched ++ drainSchedule
      (initSys cfg startedAt mxCache (jm.CreateJob id createdAt level emails.length
        storeResults).2 emails concurrency callback).workers.length
      emails.length)
    (initSys cfg startedAt mxCache (jm.CreateJob id createdAt level emails.length
        storeResults).2 emails concurrency callback)
    (fun _ => rfl)
  have hdone := hinv.done
  rw [sum_map_exited Worker.owesDone rfl _ hex, hq] at hdone
  have hperm : storeResults = true →
      ((runPool env cfg startedAt finishedAt mxCache
        (jm.CreateJob id createdAt level emails.length storeResults).2 emails concurrency
        callback sched).pool.sh.job.results.map (fun r => r.Email)).Perm
        emails := by
    intro hs
    have hres := hinv.results (hfr.2.1.trans hs)
    rw [sum_map_exited (fun w => (↑w.held : Multiset String)) rfl _ hex, hq] at hres
    simp only [List.map_nil, Multiset.coe_nil, add_zero] at hres
    exact Multiset.coe_eq_coe.mp hres
  have hnil : storeResults = false →
      (runPool env cfg startedAt finishedAt mxCache
        (jm.CreateJob id createdAt level emails.length storeResults).2 emails concurrency
        callback sched).pool.sh.job.results = [] := by
    intro hs
    exact hun (hfr.2.1.trans hs)
  have hdone1 : (runPool env cfg startedAt finishedAt mxCache
        (jm.CreateJob id createdAt level emails.length storeResults).2 emails concurrency
        callback sched).pool.sh.job.Done = emails.length := by
    simpa using hdone
  have hlen : (runPool env cfg startedAt finishedAt mxCache
        (jm.CreateJob id createdAt level emails.length storeResults).2 emails concurrency
        callback sched).pool.sh.job.results.length
          = (if storeResults then emails.length else 0) := by
    cases storeResults with
    | true =>
        have := (hperm rfl).length_eq
        simpa using this
    | false => simp [hnil rfl]
  have hp : ((runPool env cfg startedAt finishedAt mxCache
        (jm.CreateJob id createdAt level emails.length storeResults).2 emails concurrency
        callback sched).pool.sh.job.results.map (fun r => r.Email)).Perm
          (if storeResults then emails else []) := by
    cases storeResults with
    | true => simpa using hperm rfl
    | false => simp [hnil rfl]
  exact ⟨hfr.1, hdone1, rfl, hlen, hp⟩


/-! ## Properties: counters and status while a job runs -/

theorem Sys.trace_pairwise_mono (env : Env) :
    ∀ (sched : List Nat) (s : Sys),
      (Sys.trace env s sched).Pairwise
        (fun a b => a.sh.job.Done ≤ b.sh.job.Done ∧ a.sh.job.Failed ≤ b.sh.job.Failed) := by
  intro sched
  induction sched with
  | nil => intro s; simp [Sys.trace]
  | cons k rest ih =>
      intro s
      simp only [Sys.trace]
      refine List.pairwise_cons.mpr ⟨?_, ih (s.step env k)⟩
      intro t ht
      exact Sys.trace_invariant env
        (fun t => s.sh.job.Done ≤ t.sh.job.Done ∧ s.sh.job.Failed ≤ t.sh.job.Failed)
        (fun a j ha =>
          ⟨Nat.le_trans ha.1 (Sys.pool_step_mono env a j).1,
           Nat.le_trans ha.2 (Sys.pool_step_mono env a j).2⟩)
        rest (s.step env k) (Sys.pool_step_mono env s k) t ht

/-- The trace of `runJob` is empty when the callback set-up panics and is
the trace of the pool otherwise. -/
theorem runJobTrace_cases (env : Env) (cfg : Config) (startedAt : Int)
    (mxCache : List (String × Mx)) (job : Job) (emails : List String) (concurrency : Int)
    (callbackURL : String) (callbackBatch : Int) (sched : List Nat) :
    (startCallback job.ID callbackURL callbackBatch = none
        ∧ runJobTrace env cfg startedAt mxCache job emails concurrency callbackURL
            callbackBatch sched = [])
      ∨ ∃ callback, startCallback job.ID callbackURL callbackBatch = some callback
          ∧ runJobTrace env cfg startedAt mxCache job emails concurrency callbackURL
              callbackBatch sched
            = Sys.trace env (initSys cfg startedAt mxCache job emails concurrency callback)
                (sched ++ drainSchedule
                  (initSys cfg startedAt mxCache job emails concurrency callback).workers.length
                  emails.length) := by
  unfold runJobTrace
  cases startCallback job.ID callbackURL callbackBatch with
  | none => exact Or.inl ⟨rfl, rfl⟩
  | some callback => exact Or.inr ⟨callback, rfl, rfl⟩

theorem Sys.trace_ne_nil (env : Env) (s : Sys) (sched : List Nat) :
    Sys.trace env s sched ≠ [] := by
  cases sched <;> simp [Sys.trace]

/-- C2, counterexample: a level-2 job over one address on which the verifier
fails; after the worker has counted the failure and before it has counted the
address done, `Failed` is 1 and `Done` is 0. -/
theorem failed_exceeds_done_midway :
    (((initSys sampleConfig 1 [] (newJob "id1" 0 2 1 true) ["a@x.org"] 1 none).exec
        failingEnv [0, 0, 0, 0, 0, 0, 0]).sh.job.Failed = 1
      ∧ ((initSys sampleConfig 1 [] (newJob "id1" 0 2 1 true) ["a@x.org"] 1 none).exec
        failingEnv [0, 0, 0, 0, 0, 0, 0]).sh.job.Done = 0)
    ∧ (initSys sampleConfig 1 [] (newJob "id1" 0 2 1 true) ["a@x.org"] 1 none).exec
        failingEnv [0, 0, 0, 0, 0, 0, 0]
      ∈ runJobTrace failingEnv sampleConfig 1 [] (newJob "id1" 0 2 1 true) ["a@x.org"] 1 "" 0
          [0, 0, 0, 0, 0, 0, 0]
    ∧ ¬ (∀ t ∈ runJobTrace failingEnv sampleConfig 1 [] (newJob "id1" 0 2 1 true) ["a@x.org"]
            1 "" 0 [0, 0, 0, 0, 0, 0, 0], t.sh.job.Failed ≤ t.sh.job.Done) := by
  have hval : ((initSys sampleConfig 1 [] (newJob "id1" 0 2 1 true) ["a@x.org"] 1 none).exec
        failingEnv [0, 0, 0, 0, 0, 0, 0]).sh.job.Failed = 1
      ∧ ((initSys sampleConfig 1 [] (newJob "id1" 0 2 1 true) ["a@x.org"] 1 none).exec
        failingEnv [0, 0, 0, 0, 0, 0, 0]).sh.job.Done = 0 := by
    decide
  have hmem : (initSys sampleConfig 1 [] (newJob "id1" 0 2 1 true) ["a@x.org"] 1 none).exec
        failingEnv [0, 0, 0, 0, 0, 0, 0]
      ∈ runJobTrace failingEnv sampleConfig 1 [] (newJob "id1" 0 2 1 true) ["a@x.org"] 1 "" 0
          [0, 0, 0, 0, 0, 0, 0] := by
    have htr : runJobTrace failingEnv sampleConfig 1 [] (newJob "id1" 0 2 1 true) ["a@x.org"]
          1 "" 0 [0, 0, 0, 0, 0, 0, 0]
        = Sys.trace failingEnv
            (initSys sampleConfig 1 [] (newJob "id1" 0 2 1 true) ["a@x.org"] 1 none)
            ([0, 0, 0, 0, 0, 0, 0] ++ drainSchedule
              (initSys sampleConfig 1 [] (newJob "id1" 0 2 1 true) ["a@x.org"] 1
                none).workers.length ["a@x.org"].length) := rfl
    rw [htr]
    have h1 := Sys.exec_mem_trace failingEnv [0, 0, 0, 0, 0, 0, 0]
      (initSys sampleConfig 1 [] (newJob "id1" 0 2 1 true) ["a@x.org"] 1 none)
    have hsub : ∀ (a b : List Nat) (s t : Sys),
        t ∈ Sys.trace failingEnv s a → t ∈ Sys.trace failingEnv s (a ++ b) := by
      intro a
      induction a with
      | nil =>
          intro b s t ht
          simp only [Sys.trace, List.mem_singleton] at ht
          rw [ht]
          cases b <;> simp [Sys.trace]
      | cons k rest ih =>
          intro b s t ht
          simp only [Sys.trace, List.cons_append, List.mem_cons] at ht ⊢
          rcases ht with h | h
          · exact Or.inl h
          · exact Or.inr (ih b _ t h)
    exact hsub _ _ _ _ h1
  refine ⟨hval, hmem, ?_⟩
  intro hall
  have := hall _ hmem
  rw [hval.1, hval.2] at this
  omega

/-- C2, as amended: along `runJob`, from one observation point to any later
one neither `Done` nor `Failed` decreases; at every observation point
`Failed` is at most `Done` plus the number of workers that have counted a
failure for the address they hold and not yet counted that address done; so
`Failed ≤ Done` wherever no worker is between these two updates, and when
`runJob` returns.  There are observation points unless the callback set-up
panics. -/
theorem counters_monotone_failed_bounded (env : Env) (cfg : Config) (jm : JobManager)
    (id : String) (createdAt startedAt finishedAt : Int) (mxCache : List (String × Mx))
    (level : Int) (storeResults : Bool) (emails : List String) (concurrency : Int)
    (callbackURL : String) (callbackBatch : Int) (sched : List Nat) :
    (runJobTrace env cfg startedAt mxCache
        (jm.CreateJob id createdAt level emails.length storeResults).2 emails concurrency
        callbackURL callbackBatch sched).Pairwise
        (fun a b => a.sh.job.Done ≤ b.sh.job.Done ∧ a.sh.job.Failed ≤ b.sh.job.Failed)
      ∧ (∀ t ∈ runJobTrace env cfg startedAt mxCache
        (jm.CreateJob id createdAt level emails.length storeResults).2 emails concurrency
        callbackURL callbackBatch sched,
          t.sh.job.Failed ≤ t.sh.job.Done + (t.workers.map Worker.failedAhead).sum
            ∧ ((∀ w ∈ t.workers, w.failedAhead = 0) → t.sh.job.Failed ≤ t.sh.job.Done))
      ∧ (∀ R : RunResult, runJob env cfg startedAt finishedAt mxCache
        (jm.CreateJob id createdAt level emails.length storeResults).2 emails concurrency
        callbackURL callbackBatch sched = some R → R.job.Failed ≤ R.job.Done)
      ∧ (runJobTrace env cfg startedAt mxCache
        (jm.CreateJob id createdAt level emails.length storeResults).2 emails concurrency
        callbackURL callbackBatch sched = []
          ↔ callbackURL ≠ ""
            ∧ NewCallbackSender callbackURL (if callbackBatch ≤ 0 then 200 else callbackBatch)
                = none) := by
  have htr := runJobTrace_cases env cfg startedAt mxCache
    (jm.CreateJob id createdAt level emails.length storeResults).2 emails concurrency
    callbackURL callbackBatch sched
  have hnone := startCallback_eq_none
    (jm.CreateJob id createdAt level emails.length storeResults).2.ID callbackURL callbackBatch
  refine ⟨?_, ?_, ?_, ?_⟩
  · rcases htr with ⟨_, h⟩ | ⟨callback, _, h⟩
    · rw [h]
      exact List.Pairwise.nil
    · rw [h]
      exact Sys.trace_pairwise_mono env _ _
  · intro t ht
    rcases htr with ⟨_, h⟩ | ⟨callback, _, h⟩
    · rw [h] at ht
      cases ht
    · rw [h] at ht
      have hinv : PoolInv (fun r => r.Email) emails t :=
        Sys.trace_invariant env (PoolInv (fun r => r.Email) emails)
          (fun s k h => PoolInv.step env (fun r => r.Email) (fun _ _ => rfl) (fun _ _ _ => rfl)
            (fun _ _ _ _ => rfl) emails s k h) _ _
          (initSys_inv (fun r => r.Email) cfg startedAt mxCache
            (jm.CreateJob id createdAt level emails.length storeResults).2 emails concurrency
            callback rfl rfl rfl) t ht
      refine ⟨hinv.failed, fun hz => ?_⟩
      have h0 : (t.workers.map Worker.failedAhead).sum = 0 := by
        apply List.sum_eq_zero
        intro x hx
        obtain ⟨w, hw, rfl⟩ := List.mem_map.mp hx
        exact hz w hw
      have := hinv.failed
      omega
  · intro R hR
    obtain ⟨callback, _, rfl⟩ := runJob_eq_some env cfg startedAt finishedAt mxCache _ emails
      concurrency callbackURL callbackBatch sched R hR
    obtain ⟨hinv, hex, _, _⟩ := runPool_inv env (fun r => r.Email) (fun _ _ => rfl)
      (fun _ _ _ => rfl) (fun _ _ _ _ => rfl) cfg startedAt finishedAt mxCache
      (jm.CreateJob id createdAt level emails.length storeResults).2 emails concurrency
      callback sched rfl rfl rfl
    have hf := hinv.failed
    rw [sum_map_exited Worker.failedAhead rfl _ hex] at hf
    exact hf
  · rw [← hnone]
    rcases htr with ⟨hc, h⟩ | ⟨callback, hc, h⟩
    · rw [h, hc]
      exact ⟨fun _ => rfl, fun _ => rfl⟩
    · rw [h, hc]
      constructor
      · intro hnil
        exact absurd hnil (Sys.trace_ne_nil env _ _)
      · intro hn
        cases hn

/-! ## Properties: status transitions -/

/-- C4, counterexample: `markRunning` applied to a completed job makes it
running again. -/
theorem markRunning_reopens_completed :
    ((newJob "id1" 0 1 1 true).markCompleted 5).Status = JobStatus.JobCompleted
      ∧ (((newJob "id1" 0 1 1 true).markCompleted 5).markRunning 6).Status
          = JobStatus.JobRunning
      ∧ (((newJob "id1" 0 1 1 true).markFailed 5 none).markCompleted 6).Status
          = JobStatus.JobCompleted := by
  decide

/-- C4, as amended: `markRunning`, `markCompleted` and `markFailed` set the
status to running, completed and failed whatever it was before; along
`runJob`, their only caller, a job made by `CreateJob` is queued before the
call, running at every observation point during it and completed when it
returns, so its status never moves backward; `runJob` returns unless the
callback set-up panics. -/
theorem status_progression (env : Env) (cfg : Config) (jm : JobManager)
    (id : String) (createdAt startedAt finishedAt : Int) (mxCache : List (String × Mx))
    (level : Int) (storeResults : Bool) (emails : List String) (concurrency : Int)
    (callbackURL : String) (callbackBatch : Int) (sched : List Nat) :
    (∀ (j : Job) (now : Int) (err : Option String),
        (j.markRunning now).Status = JobStatus.JobRunning
          ∧ (j.markCompleted now).Status = JobStatus.JobCompleted
          ∧ (j.markFailed now err).Status = JobStatus.JobFailed)
      ∧ (jm.CreateJob id createdAt level emails.length storeResults).2.Status
          = JobStatus.JobQueued
      ∧ (∀ t ∈ runJobTrace env cfg startedAt mxCache
        (jm.CreateJob id createdAt level emails.length storeResults).2 emails concurrency
        callbackURL callbackBatch sched, t.sh.job.Status = JobStatus.JobRunning)
      ∧ (∀ R : RunResult, runJob env cfg startedAt finishedAt mxCache
        (jm.CreateJob id createdAt level emails.length storeResults).2 emails concurrency
        callbackURL callbackBatch sched = some R → R.job.Status = JobStatus.JobCompleted)
      ∧ (runJob env cfg startedAt finishedAt mxCache
        (jm.CreateJob id createdAt level emails.length storeResults).2 emails concurrency
        callbackURL callbackBatch sched = none
          ↔ callbackURL ≠ ""
            ∧ NewCallbackSender callbackURL (if callbackBatch ≤ 0 then 200 else callbackBatch)
                = none) := by
  refine ⟨?_, rfl, ?_, ?_, runJob_eq_none env cfg startedAt finishedAt mxCache _ emails
    concurrency callbackURL callbackBatch sched⟩
  · intro j now err
    refine ⟨rfl, rfl, ?_⟩
    cases err <;> rfl
  · intro t ht
    rcases runJobTrace_cases env cfg startedAt mxCache
      (jm.CreateJob id createdAt level emails.length storeResults).2 emails concurrency
      callbackURL callbackBatch sched with ⟨_, h⟩ | ⟨callback, _, h⟩
    · rw [h] at ht
      cases ht
    · rw [h] at ht
      exact Sys.trace_invariant env (fun s => s.sh.job.Status = JobStatus.JobRunning)
        (fun s k hs => (Sys.step_job_frame env s k).1.trans hs) _ _ rfl t ht
  · intro R hR
    obtain ⟨callback, _, rfl⟩ := runJob_eq_some env cfg startedAt finishedAt mxCache _ emails
      concurrency callbackURL callbackBatch sched R hR
    rfl


/-! ## Properties: creating the callback sender -/

theorem csvRow_length (r : EmailResult) : (csvRow r).length = 15 := by
  unfold csvRow
  split <;> rfl

theorem csvEmail_none (e msg : String) :
    csvEmail { Email := e, Result := none, Error := msg } = e := rfl

theorem csvEmail_some (e : String) (res : Result) (h : res.Email = e) :
    csvEmail { Email := e, Result := some res, Error := "" } = e := by
  simp [csvEmail, csvRow, h]

theorem wrapInt_maxInt : wrapInt (0 + maxInt) = maxInt := by
  norm_num [wrapInt, maxInt]

theorem clamp_maxInt (n : Nat) (h : (n : Int) ≤ maxInt) :
    (if maxInt > (n : Int) then (n : Int) else maxInt) = (n : Int) := by
  split <;> omega

theorem goSlice_all {α : Type} (xs : List α) : goSlice xs 0 (xs.length : Int) = some xs := by
  unfold goSlice
  have hc : (0 : Int) ≤ 0 ∧ (0 : Int) ≤ (xs.length : Int)
      ∧ (xs.length : Int) ≤ (xs.length : Int) :=
    ⟨le_refl _, by omega, le_refl _⟩
  rw [if_pos hc]
  simp

theorem getResults_all (job : Job) (h : (job.results.length : Int) ≤ maxInt) :
    job.getResults 0 maxInt = some (job.results, (job.results.length : Int)) := by
  unfold Job.getResults
  have h0 : ¬ (0 : Int) > (job.results.length : Int) := by omega
  dsimp only
  rw [if_neg h0, wrapInt_maxInt, clamp_maxInt _ h, goSlice_all]

/-- The download of a job with fewer stored results than the largest `int`:
the header, then one record per stored result, in order. -/
theorem writeCSV_eq (job : Job) (h : (job.results.length : Int) ≤ maxInt) :
    writeCSV job = some (csvHeader :: job.results.map csvRow) := by
  unfold writeCSV
  rw [getResults_all job h, Option.map_some']

theorem normalizeEmails_clean (es : List String)
    (h : ∀ e ∈ es, TrimSpace e = e ∧ e ≠ "") : normalizeEmails es = es := by
  induction es with
  | nil => rfl
  | cons e rest ih =>
      have he := h e (List.mem_cons_self _ _)
      have hne : ¬ TrimSpace e = "" := by
        rw [he.1]
        exact he.2
      simp only [normalizeEmails, hne, if_false]
      rw [he.1, ih (fun x hx => h x (List.mem_cons_of_mem _ hx))]

theorem normalizeEmails_nonblank (es : List String)
    (h : ∀ e ∈ es, TrimSpace e ≠ "") : normalizeEmails es = es.map TrimSpace := by
  induction es with
  | nil => rfl
  | cons e rest ih =>
      have he : ¬ TrimSpace e = "" := h e (List.mem_cons_self _ _)
      simp only [normalizeEmails, he, if_false, List.map_cons]
      rw [ih (fun x hx => h x (List.mem_cons_of_mem _ hx))]

/-- C8, counterexample: a JSON bulk job over the one address `U+00A0 a@b.c`,
which the parser of `echoEnv` accepts.  `normalizeEmails` trims the no-break
space, the job runs over `a@b.c`, and the one data row of the CSV download has
`a@b.c` in its email cell, which is not the submitted address. -/
theorem csv_cell_is_trimmed :
    (echoEnv.ParseAddress "\u00a0a@b.c").Valid = true
      ∧ (handleBulk sampleConfig sampleManager "id1" 0 sampleNbspRequest).launch
          = some { job := newJob "id1" 0 2 1 true, emails := ["a@b.c"], concurrency := 1,
                   callbackURL := "", callbackBatch := 0 }
      ∧ (runJob echoEnv sampleConfig 1 2 [] (newJob "id1" 0 2 1 true) ["a@b.c"] 1 "" 0
            []).map (fun R => writeCSV R.job)
          = some (some [csvHeader,
              ["a@b.c", "yes", "true", "u", "b.c", "false", "false", "false", "true", "",
               "", "", "", "", ""]])
      ∧ ¬ (["a@b.c"] : List String).Perm sampleNbspBody.Emails := by
  refine ⟨rfl, by decide, by decide, ?_⟩
  intro h
  have := h.subset (List.mem_singleton.mpr rfl)
  revert this
  decide

/-- C8, as amended: a JSON bulk job with results stored that `handleBulk`
accepts, run against a verifier whose verdicts carry the address they were
asked about.  `runJob` returns unless the callback set-up panics, and once it
has returned the CSV download is the fixed header of 15 columns followed by
one record per normalised address (the submitted addresses trimmed of
surrounding white space, blank ones dropped), every record has 15 cells, and
the first cells of the records are, as a multiset, the normalised addresses.
When no submitted address is blank there is one record per submitted address,
and when none has surrounding white space the normalised addresses are the
submitted ones. -/
theorem csv_round_trip (env : Env) (cfg : Config) (jm : JobManager) (newID : String)
    (now startedAt finishedAt : Int) (mxCache : List (String × Mx)) (r : Request)
    (req : BulkRequest) (sched : List Nat)
    (hm : r.Method = "POST")
    (hct : startsWith r.ContentType "application/json" = true ∨ r.ContentType = "")
    (hbody : r.jsonBody = some req) (hlevel : normalizeLevel req.Level ≠ 0)
    (hstore : req.storeResultsOr cfg.StoreResults = true)
    (hecho : ∀ i e res, env.Verify i e = Except.ok res → res.Email = e)
    (hne : normalizeEmails req.Emails ≠ [])
    (hmax : ((normalizeEmails req.Emails).length : Int) ≤ cfg.MaxEmails)
    (hint : cfg.MaxEmails ≤ maxInt) :
    ∃ l, (handleBulk cfg jm newID now r).launch = some l
      ∧ l.emails.Perm (normalizeEmails req.Emails)
      ∧ (runJob env cfg startedAt finishedAt mxCache l.job l.emails l.concurrency
            l.callbackURL l.callbackBatch sched = none
          ↔ l.callbackURL ≠ ""
            ∧ NewCallbackSender l.callbackURL
                (if l.callbackBatch ≤ 0 then 200 else l.callbackBatch) = none)
      ∧ (∀ R : RunResult, runJob env cfg startedAt finishedAt mxCache l.job l.emails l.concurrency
            l.callbackURL l.callbackBatch sched = some R →
          ∃ rows, writeCSV R.job = some (csvHeader :: rows)
            ∧ csvHeader.length = 15
            ∧ rows.length = (normalizeEmails req.Emails).length
            ∧ (∀ row ∈ rows, row.length = 15)
            ∧ (rows.map (fun row => row.headD "")).Perm (normalizeEmails req.Emails))
      ∧ ((∀ e ∈ req.Emails, TrimSpace e ≠ "") →
          normalizeEmails req.Emails = req.Emails.map TrimSpace)
      ∧ ((∀ e ∈ req.Emails, TrimSpace e = e ∧ e ≠ "") →
          normalizeEmails req.Emails = req.Emails) := by
  have hp : parseBulkRequest cfg r = Except.ok
      { emails := normalizeEmails req.Emails, level := normalizeLevel req.Level,
        concurrency := req.Concurrency, storeResults := true,
        callbackURL := req.CallbackURL, callbackBatch := req.CallbackBatch } := by
    unfold parseBulkRequest
    have hc : (startsWith r.ContentType "application/json" || decide (r.ContentType = "")) = true := by
      rcases hct with h | h
      · simp [h]
      · simp [h]
    simp only [hc, if_true, hbody, hlevel, if_false, hstore]
  have hlen0 : ¬ (normalizeEmails req.Emails).length = 0 :=
    fun h => hne (List.length_eq_zero.mp h)
  have hle : ¬ ((normalizeEmails req.Emails).length : Int) > cfg.MaxEmails := by omega
  have hl := handleBulk_of_parsed cfg jm newID now r _ hm hp
  simp only [hlen0, hle, if_false] at hl
  have hsperm : (sortSlice lessByDomain (normalizeEmails req.Emails)).Perm
      (normalizeEmails req.Emails) := sortSlice_perm _ _
  refine ⟨_, by rw [hl], hsperm, runJob_eq_none env cfg startedAt finishedAt mxCache _ _ _ _ _
    sched, ?_, normalizeEmails_nonblank req.Emails, normalizeEmails_clean req.Emails⟩
  intro R hR
  obtain ⟨callback, _, rfl⟩ := runJob_eq_some env cfg startedAt finishedAt mxCache _ _ _ _ _
    sched R hR
  obtain ⟨hinv, hex, _, hq⟩ := runPool_inv env csvEmail csvEmail_none csvEmail_some
    (fun i e res h => csvEmail_some e res (hecho i e res h)) cfg startedAt finishedAt mxCache
    (newJob newID now (normalizeLevel req.Level)
      (sortSlice lessByDomain (normalizeEmails req.Emails)).length true)
    (sortSlice lessByDomain (normalizeEmails req.Emails)) req.Concurrency callback sched
    rfl rfl rfl
  have hfr := runPool_frame env cfg startedAt finishedAt mxCache
    (newJob newID now (normalizeLevel req.Level)
      (sortSlice lessByDomain (normalizeEmails req.Emails)).length true)
    (sortSlice lessByDomain (normalizeEmails req.Emails)) req.Concurrency callback sched
  have hres := hinv.results hfr.2.1
  rw [sum_map_exited (fun w => (↑w.held : Multiset String)) rfl _ hex, hq] at hres
  simp only [List.map_nil, Multiset.coe_nil, add_zero] at hres
  have hperm := (Multiset.coe_eq_coe.mp hres).trans hsperm
  have hrlen : ((runPool env cfg startedAt finishedAt mxCache
      (newJob newID now (normalizeLevel req.Level)
        (sortSlice lessByDomain (normalizeEmails req.Emails)).length true)
      (sortSlice lessByDomain (normalizeEmails req.Emails)) req.Concurrency callback
      sched).pool.sh.job.results).length = (normalizeEmails req.Emails).length := by
    have := hperm.length_eq
    simpa using this
  refine ⟨(runPool env cfg startedAt finishedAt mxCache
      (newJob newID now (normalizeLevel req.Level)
        (sortSlice lessByDomain (normalizeEmails req.Emails)).length true)
      (sortSlice lessByDomain (normalizeEmails req.Emails)) req.Concurrency callback
      sched).pool.sh.job.results.map csvRow, ?_, rfl, ?_, ?_, ?_⟩
  · refine writeCSV_eq _ ?_
    show ((_ : List EmailResult).length : Int) ≤ maxInt
    simp only [runPool_job, Job.markCompleted]
    rw [hrlen]
    omega
  · simp only [List.length_map]
    exact hrlen
  · intro row hrow
    obtain ⟨x, _, rfl⟩ := List.mem_map.mp hrow
    exact csvRow_length x
  · simp only [List.map_map]
    exact hperm

theorem csv_round_trip_witness :
    sampleNbspRequest.Method = "POST"
    ∧ ∃ l, (handleBulk sampleConfig sampleManager "id1" 0 sampleNbspRequest).launch = some l
      ∧ l.emails.Perm (normalizeEmails sampleNbspBody.Emails)
      ∧ (runJob echoEnv sampleConfig 1 2 [] l.job l.emails l.concurrency
            l.callbackURL l.callbackBatch [0, 0] = none
          ↔ l.callbackURL ≠ ""
            ∧ NewCallbackSender l.callbackURL
                (if l.callbackBatch ≤ 0 then 200 else l.callbackBatch) = none)
      ∧ (∀ R : RunResult, runJob echoEnv sampleConfig 1 2 [] l.job l.emails l.concurrency
            l.callbackURL l.callbackBatch [0, 0] = some R →
          ∃ rows, writeCSV R.job = some (csvHeader :: rows)
            ∧ csvHeader.length = 15
            ∧ rows.length = (normalizeEmails sampleNbspBody.Emails).length
            ∧ (∀ row ∈ rows, row.length = 15)
            ∧ (rows.map (fun row => row.headD "")).Perm (normalizeEmails sampleNbspBody.Emails))
      ∧ ((∀ e ∈ sampleNbspBody.Emails, TrimSpace e ≠ "") →
          normalizeEmails sampleNbspBody.Emails = sampleNbspBody.Emails.map TrimSpace)
      ∧ ((∀ e ∈ sampleNbspBody.Emails, TrimSpace e = e ∧ e ≠ "") →
          normalizeEmails sampleNbspBody.Emails = sampleNbspBody.Emails) :=
  ⟨rfl,
   csv_round_trip echoEnv sampleConfig sampleManager "id1" 0 1 2 [] sampleNbspRequest
     sampleNbspBody [0, 0] rfl (Or.inl (by decide)) rfl (by decide) rfl
     (fun i e res h => by
       simp only [echoEnv, Except.ok.injEq] at h
       rw [← h])
     (by decide) (by decide) (by decide)⟩


/-! ## Properties: `float64` rounding -/

theorem roundEven_le (q : ℚ) : ((roundEven q : Int) : ℚ) ≤ q + 1 / 2 := by
  have h1 := Int.floor_le q
  have h2 := Int.lt_floor_add_one q
  unfold roundEven
  simp only
  split
  · linarith
  · split
    · push_cast
      linarith
    · split
      · linarith
      · push_cast
        linarith

theorem roundEven_ge (q : ℚ) : q - 1 / 2 ≤ ((roundEven q : Int) : ℚ) := by
  have h1 := Int.floor_le q
  have h2 := Int.lt_floor_add_one q
  unfold roundEven
  simp only
  split
  · linarith
  · split
    · push_cast
      linarith
    · split
      · linarith
      · push_cast
        linarith

theorem roundEven_intCast (n : Int) : roundEven (n : ℚ) = n := by
  unfold roundEven
  simp

theorem roundEven_mono {a b : ℚ} (h : a ≤ b) : roundEven a ≤ roundEven b := by
  by_contra hlt
  have hlt1 : roundEven b + 1 ≤ roundEven a := by omega
  have hq : ((roundEven b : Int) : ℚ) + 1 ≤ ((roundEven a : Int) : ℚ) := by exact_mod_cast hlt1
  have h1 := roundEven_le a
  have h2 := roundEven_ge b
  have hab : a = b := by linarith
  rw [hab] at hlt
  exact hlt (le_refl _)

theorem two_zpow_pos (e : Int) : (0 : ℚ) < 2 ^ e := zpow_pos (by norm_num) e

theorem two_zpow_log_le {r : ℚ} (hr : 0 < r) : (2 : ℚ) ^ Int.log 2 r ≤ r := by
  have h := Int.zpow_log_le_self (b := 2) (by norm_num) hr
  simpa using h

theorem lt_two_zpow_log (r : ℚ) : r < (2 : ℚ) ^ (Int.log 2 r + 1) := by
  have h := Int.lt_zpow_succ_log_self (b := 2) (by norm_num) r
  simpa using h

theorem log_eq_of_bounds {r : ℚ} (E : Int) (hlo : (2 : ℚ) ^ E ≤ r) (hhi : r < (2 : ℚ) ^ (E + 1)) :
    Int.log 2 r = E := by
  have hr : 0 < r := lt_of_lt_of_le (two_zpow_pos E) hlo
  have h1 : E ≤ Int.log 2 r := by
    have := (Int.zpow_le_iff_le_log (b := 2) (by norm_num) (x := E) hr).mp (by simpa using hlo)
    exact this
  have h2 : Int.log 2 r < E + 1 := by
    have := (Int.lt_zpow_iff_log_lt (b := 2) (by norm_num) (x := E + 1) hr).mp (by simpa using hhi)
    exact this
  omega

theorem two_zpow_le_of_le {a b : Int} (h : a ≤ b) : (2 : ℚ) ^ a ≤ 2 ^ b :=
  zpow_le_zpow_right₀ (by norm_num) h

theorem two_zpow_succ (e : Int) : (2 : ℚ) ^ (e + 1) = 2 * 2 ^ e := by
  rw [zpow_add₀ (by norm_num : (2 : ℚ) ≠ 0), zpow_one, mul_comm]

/-- `2 ^ (e + 1) = 2 ^ 53 * 2 ^ (e - 52)`. -/
theorem two_zpow_split53 (e : Int) : (2 : ℚ) ^ (e + 1) = 2 ^ (53 : ℕ) * 2 ^ (e - 52) := by
  have : e + 1 = 53 + (e - 52) := by omega
  rw [this, zpow_add₀ (by norm_num : (2 : ℚ) ≠ 0)]
  norm_num

theorem two_zpow_split52 (e : Int) : (2 : ℚ) ^ e = 2 ^ (52 : ℕ) * 2 ^ (e - 52) := by
  have : e = 52 + (e - 52) := by omega
  nth_rewrite 1 [this]
  rw [zpow_add₀ (by norm_num : (2 : ℚ) ≠ 0)]
  norm_num

theorem rnd_zero : F64.rnd 0 = 0 := by
  unfold F64.rnd
  simp [roundEven]

theorem rnd_nonneg {x : ℚ} (hx : 0 ≤ x) : 0 ≤ F64.rnd x := by
  unfold F64.rnd
  have hq : (0 : ℚ) ≤ x / 2 ^ F64.ulpExp x := div_nonneg hx (le_of_lt (two_zpow_pos _))
  have h0 : roundEven ((0 : Int) : ℚ) ≤ roundEven (x / 2 ^ F64.ulpExp x) :=
    roundEven_mono (by simpa using hq)
  rw [roundEven_intCast] at h0
  have : (0 : ℚ) ≤ ((roundEven (x / 2 ^ F64.ulpExp x) : Int) : ℚ) := by exact_mod_cast h0
  exact mul_nonneg this (le_of_lt (two_zpow_pos _))

theorem rnd_nonpos {x : ℚ} (hx : x ≤ 0) : F64.rnd x ≤ 0 := by
  unfold F64.rnd
  have hq : x / 2 ^ F64.ulpExp x ≤ (0 : ℚ) := div_nonpos_of_nonpos_of_nonneg hx (le_of_lt (two_zpow_pos _))
  have h0 : roundEven (x / 2 ^ F64.ulpExp x) ≤ roundEven ((0 : Int) : ℚ) :=
    roundEven_mono (by simpa using hq)
  rw [roundEven_intCast] at h0
  have : ((roundEven (x / 2 ^ F64.ulpExp x) : Int) : ℚ) ≤ 0 := by exact_mod_cast h0
  exact mul_nonpos_of_nonpos_of_nonneg this (le_of_lt (two_zpow_pos _))

/-- The exponent of a positive number, not below the smallest normal one. -/
theorem ulpExp_pos {x : ℚ} (hx : 0 < x) :
    F64.ulpExp x = max (Int.log 2 x) (-1022) - 52 := by
  unfold F64.ulpExp
  rw [abs_of_pos hx]

/-- A positive number is below `2 ^ 53` units in the last place. -/
theorem div_ulp_lt {x : ℚ} (hx : 0 < x) : x / 2 ^ F64.ulpExp x < 2 ^ (53 : ℕ) := by
  rw [div_lt_iff₀ (two_zpow_pos _), ulpExp_pos hx, ← two_zpow_split53]
  exact lt_of_lt_of_le (lt_two_zpow_log x) (two_zpow_le_of_le (by omega))

/-- A positive number in the normal range is at least `2 ^ 52` units in the
last place. -/
theorem le_div_ulp {x : ℚ} (hx : 0 < x) (hn : -1022 ≤ Int.log 2 x) :
    (2 : ℚ) ^ (52 : ℕ) ≤ x / 2 ^ F64.ulpExp x := by
  rw [le_div_iff₀ (two_zpow_pos _), ulpExp_pos hx, max_eq_left hn, ← two_zpow_split52]
  exact two_zpow_log_le hx

theorem rnd_le_pow {x : ℚ} (hx : 0 < x) :
    F64.rnd x ≤ 2 ^ (max (Int.log 2 x) (-1022) + 1) := by
  have h1 : roundEven (x / 2 ^ F64.ulpExp x) ≤ roundEven (((2 ^ 53 : Int)) : ℚ) :=
    roundEven_mono (by
      have := div_ulp_lt hx
      push_cast
      exact le_of_lt this)
  rw [roundEven_intCast] at h1
  have h2 : ((roundEven (x / 2 ^ F64.ulpExp x) : Int) : ℚ) ≤ 2 ^ (53 : ℕ) := by exact_mod_cast h1
  unfold F64.rnd
  rw [two_zpow_split53, ← ulpExp_pos hx]
  exact mul_le_mul_of_nonneg_right h2 (le_of_lt (two_zpow_pos _))

theorem pow_le_rnd {x : ℚ} (hx : 0 < x) (hn : -1022 ≤ Int.log 2 x) :
    (2 : ℚ) ^ Int.log 2 x ≤ F64.rnd x := by
  have h1 : roundEven (((2 ^ 52 : Int)) : ℚ) ≤ roundEven (x / 2 ^ F64.ulpExp x) :=
    roundEven_mono (by
      have := le_div_ulp hx hn
      push_cast
      exact this)
  rw [roundEven_intCast] at h1
  have h2 : (2 : ℚ) ^ (52 : ℕ) ≤ ((roundEven (x / 2 ^ F64.ulpExp x) : Int) : ℚ) := by
    exact_mod_cast h1
  unfold F64.rnd
  have he : F64.ulpExp x = Int.log 2 x - 52 := by rw [ulpExp_pos hx, max_eq_left hn]
  rw [two_zpow_split52 (Int.log 2 x), he]
  rw [he] at h2
  exact mul_le_mul_of_nonneg_right h2 (le_of_lt (two_zpow_pos _))

theorem rnd_mono_pos {x y : ℚ} (hx : 0 < x) (h : x ≤ y) : F64.rnd x ≤ F64.rnd y := by
  have hy : 0 < y := lt_of_lt_of_le hx h
  have hlog : Int.log 2 x ≤ Int.log 2 y := Int.log_mono_right hx h
  by_cases he : max (Int.log 2 x) (-1022) = max (Int.log 2 y) (-1022)
  · have hu : F64.ulpExp x = F64.ulpExp y := by rw [ulpExp_pos hx, ulpExp_pos hy, he]
    unfold F64.rnd
    rw [hu]
    have hq : x / 2 ^ F64.ulpExp y ≤ y / 2 ^ F64.ulpExp y :=
      div_le_div_of_nonneg_right h (le_of_lt (two_zpow_pos _))
    have h1 : ((roundEven (x / 2 ^ F64.ulpExp y) : Int) : ℚ)
        ≤ ((roundEven (y / 2 ^ F64.ulpExp y) : Int) : ℚ) := by
      exact_mod_cast roundEven_mono hq
    exact mul_le_mul_of_nonneg_right h1 (le_of_lt (two_zpow_pos _))
  · have hlt : max (Int.log 2 x) (-1022) < Int.log 2 y := by
      rcases le_total (Int.log 2 x) (-1022) with h1 | h1
      · rw [max_eq_right h1] at he ⊢
        rcases le_total (Int.log 2 y) (-1022) with h2 | h2
        · rw [max_eq_right h2] at he
          exact absurd rfl he
        · rw [max_eq_left h2] at he
          omega
      · rw [max_eq_left h1] at he ⊢
        have h2 : -1022 ≤ Int.log 2 y := le_trans h1 hlog
        rw [max_eq_left h2] at he
        omega
    have hn : -1022 ≤ Int.log 2 y := by
      have := le_max_right (Int.log 2 x) (-1022)
      omega
    calc F64.rnd x ≤ 2 ^ (max (Int.log 2 x) (-1022) + 1) := rnd_le_pow hx
      _ ≤ 2 ^ Int.log 2 y := two_zpow_le_of_le (by omega)
      _ ≤ F64.rnd y := pow_le_rnd hy hn

/-- Rounding is monotone below a number that is not negative. -/
theorem rnd_mono {x y : ℚ} (h : x ≤ y) (hy : 0 ≤ y) : F64.rnd x ≤ F64.rnd y := by
  rcases lt_or_le 0 x with hx | hx
  · exact rnd_mono_pos hx h
  · exact le_trans (rnd_nonpos hx) (rnd_nonneg hy)

/-- A multiple `k * 2 ^ (E - 52)` with a significand `k` of at most 53 bits and
an exponent in range is its own rounding. -/
theorem rnd_of_rep (k E : Int) (hE : -1022 ≤ E) (hk0 : 0 ≤ k) (hk : k < 2 ^ 53)
    (hn : E = -1022 ∨ 2 ^ 52 ≤ k) :
    F64.rnd ((k : ℚ) * 2 ^ (E - 52)) = (k : ℚ) * 2 ^ (E - 52) := by
  rcases eq_or_lt_of_le hk0 with h0 | hpos
  · rw [← h0]
    simp [rnd_zero]
  · have hkq : (0 : ℚ) < (k : ℚ) := by exact_mod_cast hpos
    have hy : (0 : ℚ) < (k : ℚ) * 2 ^ (E - 52) := mul_pos hkq (two_zpow_pos _)
    have hkq53 : (k : ℚ) < 2 ^ (53 : ℕ) := by exact_mod_cast hk
    have hu : F64.ulpExp ((k : ℚ) * 2 ^ (E - 52)) = E - 52 := by
      rw [ulpExp_pos hy]
      by_cases h52 : 2 ^ 52 ≤ k
      · have hkq52 : (2 : ℚ) ^ (52 : ℕ) ≤ (k : ℚ) := by exact_mod_cast h52
        have hlog : Int.log 2 ((k : ℚ) * 2 ^ (E - 52)) = E := by
          apply log_eq_of_bounds
          · rw [two_zpow_split52 E]
            exact mul_le_mul_of_nonneg_right hkq52 (le_of_lt (two_zpow_pos _))
          · rw [two_zpow_split53 E]
            exact mul_lt_mul_of_pos_right hkq53 (two_zpow_pos _)
        rw [hlog, max_eq_left hE]
      · have hE2 : E = -1022 := by
          rcases hn with h | h
          · exact h
          · exact absurd h h52
        have hkq52 : (k : ℚ) < 2 ^ (52 : ℕ) := by
          have : k < 2 ^ 52 := by omega
          exact_mod_cast this
        have hlt : (k : ℚ) * 2 ^ (E - 52) < (2 : ℚ) ^ (-1022 : Int) := by
          rw [two_zpow_split52 (-1022), hE2]
          exact mul_lt_mul_of_pos_right hkq52 (two_zpow_pos _)
        have hlog : Int.log 2 ((k : ℚ) * 2 ^ (E - 52)) < -1022 := by
          have := (Int.lt_zpow_iff_log_lt (b := 2) (by norm_num) (x := -1022) hy).mp
            (by simpa using hlt)
          exact this
        rw [max_eq_right (le_of_lt hlog), hE2]
    unfold F64.rnd
    rw [hu, mul_div_assoc, div_self (ne_of_gt (two_zpow_pos _)), mul_one, roundEven_intCast]

/-- A rounded number that is not negative is such a multiple. -/
theorem rep_of_rnd {x : ℚ} (hx : 0 ≤ x) :
    ∃ k E : Int, -1022 ≤ E ∧ 0 ≤ k ∧ k < 2 ^ 53 ∧ (E = -1022 ∨ 2 ^ 52 ≤ k)
      ∧ F64.rnd x = (k : ℚ) * 2 ^ (E - 52) := by
  rcases eq_or_lt_of_le hx with h0 | hpos
  · refine ⟨0, -1022, le_refl _, le_refl _, by norm_num, Or.inl rfl, ?_⟩
    rw [← h0, rnd_zero]
    simp
  · have hk0 : 0 ≤ roundEven (x / 2 ^ F64.ulpExp x) := by
      have hq : (0 : ℚ) ≤ x / 2 ^ F64.ulpExp x := div_nonneg hx (le_of_lt (two_zpow_pos _))
      have h0 : roundEven ((0 : Int) : ℚ) ≤ roundEven (x / 2 ^ F64.ulpExp x) :=
        roundEven_mono (by simpa using hq)
      rw [roundEven_intCast] at h0
      exact h0
    have hk53 : roundEven (x / 2 ^ F64.ulpExp x) ≤ 2 ^ 53 := by
      have h1 : roundEven (x / 2 ^ F64.ulpExp x) ≤ roundEven (((2 ^ 53 : Int)) : ℚ) :=
        roundEven_mono (by
          have := div_ulp_lt hpos
          push_cast
          exact le_of_lt this)
      rw [roundEven_intCast] at h1
      exact h1
    have hmax : -1022 ≤ max (Int.log 2 x) (-1022) := le_max_right _ _
    rcases eq_or_lt_of_le hk53 with heq | hlt
    · refine ⟨2 ^ 52, max (Int.log 2 x) (-1022) + 1, by omega, by norm_num, by norm_num,
        Or.inr (le_refl _), ?_⟩
      unfold F64.rnd
      rw [heq, ulpExp_pos hpos]
      have e1 : max (Int.log 2 x) (-1022) + 1 - 52
          = 1 + (max (Int.log 2 x) (-1022) - 52) := by omega
      rw [e1, zpow_add₀ (by norm_num : (2 : ℚ) ≠ 0)]
      push_cast
      norm_num
      ring
    · refine ⟨roundEven (x / 2 ^ F64.ulpExp x), max (Int.log 2 x) (-1022), hmax, hk0, hlt,
        ?_, ?_⟩
      · rcases le_or_lt (-1022) (Int.log 2 x) with hn | hn
        · right
          have h1 : roundEven (((2 ^ 52 : Int)) : ℚ) ≤ roundEven (x / 2 ^ F64.ulpExp x) :=
            roundEven_mono (by
              have := le_div_ulp hpos hn
              push_cast
              exact this)
          rw [roundEven_intCast] at h1
          exact h1
        · left
          exact max_eq_right (le_of_lt hn)
      · unfold F64.rnd
        rw [ulpExp_pos hpos]

theorem rnd_rnd {x : ℚ} (hx : 0 ≤ x) : F64.rnd (F64.rnd x) = F64.rnd x := by
  obtain ⟨k, E, hE, hk0, hk, hn, h⟩ := rep_of_rnd hx
  rw [h]
  exact rnd_of_rep k E hE hk0 hk hn

/-- Twice a rounded number is its own rounding. -/
theorem rnd_two_mul_rnd {x : ℚ} (hx : 0 ≤ x) : F64.rnd (2 * F64.rnd x) = 2 * F64.rnd x := by
  obtain ⟨k, E, hE, hk0, hk, hn, h⟩ := rep_of_rnd hx
  rw [h]
  by_cases h52 : 2 ^ 52 ≤ k
  · have e : 2 * ((k : ℚ) * 2 ^ (E - 52)) = (k : ℚ) * 2 ^ (E + 1 - 52) := by
      have : E + 1 - 52 = 1 + (E - 52) := by omega
      rw [this, zpow_add₀ (by norm_num : (2 : ℚ) ≠ 0), zpow_one]
      ring
    rw [e]
    exact rnd_of_rep k (E + 1) (by omega) hk0 hk (Or.inr h52)
  · have hE2 : E = -1022 := by
      rcases hn with h1 | h1
      · exact h1
      · exact absurd h1 h52
    have e : 2 * ((k : ℚ) * 2 ^ (E - 52)) = ((2 * k : Int) : ℚ) * 2 ^ (E - 52) := by
      push_cast
      ring
    rw [e]
    exact rnd_of_rep (2 * k) E hE (by omega) (by omega) (Or.inl hE2)

theorem rnd_two : F64.rnd 2 = 2 := by
  have h := rnd_of_rep (2 ^ 52) 1 (by norm_num) (by norm_num) (by norm_num) (Or.inr (le_refl _))
  have e : (((2 ^ 52 : Int)) : ℚ) * 2 ^ ((1 : Int) - 52) = 2 := by
    norm_num
  rw [e] at h
  exact h

theorem goRound_mono {a b : ℚ} (h : a ≤ b) : goRound a ≤ goRound b := by
  unfold goRound
  by_cases ha : 0 ≤ a
  · have hb : 0 ≤ b := le_trans ha h
    rw [if_pos ha, if_pos hb]
    exact Int.floor_mono (by linarith)
  · rw [if_neg ha]
    have ha' : a < 0 := lt_of_not_ge ha
    by_cases hb : 0 ≤ b
    · rw [if_pos hb]
      have h1 : (0 : Int) ≤ Int.floor (-a + 1 / 2) := Int.floor_nonneg.mpr (by linarith)
      have h2 : (0 : Int) ≤ Int.floor (b + 1 / 2) := Int.floor_nonneg.mpr (by linarith)
      omega
    · rw [if_neg hb]
      have h1 : Int.floor (-b + 1 / 2) ≤ Int.floor (-a + 1 / 2) := Int.floor_mono (by linarith)
      omega

theorem ofRat_cases (x : ℚ) :
    F64.ofRat x = F64.inf (decide (x < 0)) ∨ F64.ofRat x = F64.fin (F64.rnd x) := by
  unfold F64.ofRat
  split
  · exact Or.inl rfl
  · exact Or.inr rfl

theorem ofRat_of_lt (x : ℚ) (h : |F64.rnd x| < 2 ^ (1024 : ℕ)) :
    F64.ofRat x = F64.fin (F64.rnd x) := by
  unfold F64.ofRat
  rw [if_neg (not_le.mpr h)]

/-- The count made of the sum `rate + variation`. -/
theorem count_bounds (s : F64) :
    1 ≤ (if s.Round.toInt < 1 then 1 else s.Round.toInt)
      ∧ (if s.Round.toInt < 1 then 1 else s.Round.toInt) ≤ 2 ^ 63 - 1 := by
  have h : s.Round.toInt < 2 ^ 63 := by
    cases s with
    | fin q =>
        simp only [F64.Round, F64.toInt]
        generalize (if (0 : ℚ) ≤ ((goRound q : Int) : ℚ) then Int.floor ((goRound q : Int) : ℚ)
          else Int.ceil ((goRound q : Int) : ℚ)) = t
        split
        · next h => exact h.2
        · norm_num
    | inf b => simp [F64.Round, F64.toInt]
    | nan => simp [F64.Round, F64.toInt]
  constructor
  · split <;> omega
  · split <;> omega

theorem count_inf (b : Bool) :
    (if (F64.inf b).Round.toInt < 1 then 1 else (F64.inf b).Round.toInt) = 1 := by
  simp [F64.Round, F64.toInt]

theorem count_fin (q : ℚ) :
    (if (F64.fin q).Round.toInt < 1 then 1 else (F64.fin q).Round.toInt) ≤ max 1 (goRound q) := by
  have ht : (F64.fin q).Round.toInt = goRound q ∨ (F64.fin q).Round.toInt = -(2 ^ 63) := by
    simp only [F64.Round, F64.toInt]
    have e : (if (0 : ℚ) ≤ ((goRound q : Int) : ℚ) then Int.floor ((goRound q : Int) : ℚ)
        else Int.ceil ((goRound q : Int) : ℚ)) = goRound q := by
      split <;> simp
    rw [e]
    split
    · exact Or.inl rfl
    · exact Or.inr rfl
  rcases ht with h | h
  · rw [h]
    split
    · exact le_max_left _ _
    · exact le_max_right _ _
  · rw [h]
    norm_num

theorem one_le_tickMax (R J : ℚ) : 1 ≤ tickMax R J := by
  unfold tickMax
  split
  · exact le_max_left _ _
  · norm_num

/-- What one tick adds is at most the count at the top of the jitter band. -/
theorem refillCount_le (R J u : ℚ) (hR : 0 < R) (hJ : 0 ≤ J) (hu0 : 0 ≤ u) (hu1 : u < 1) :
    refillCount (F64.fin R) (F64.fin J) u ≤ tickMax R J := by
  have hRJ : 0 ≤ R * J := mul_nonneg (le_of_lt hR) hJ
  have hnRJ : ¬ R * J < 0 := not_lt.mpr hRJ
  unfold refillCount jitterVariation tickMax
  simp only [F64.mul]
  rcases ofRat_cases (R * J) with hoff | hoff
  · -- the offset overflows
    rw [hoff]
    simp only [hnRJ, decide_False, F64.add]
    exact (count_bounds _).2
  · rw [hoff]
    have ho : 0 ≤ F64.rnd (R * J) := rnd_nonneg hRJ
    -- `u * 2` rounds to at most 2
    have hv2 : F64.rnd (u * 2) ≤ 2 := by
      have := rnd_mono (x := u * 2) (y := 2) (by linarith) (by norm_num)
      rwa [rnd_two] at this
    have hv0 : 0 ≤ F64.rnd (u * 2) := rnd_nonneg (by linarith)
    have hv : F64.ofRat (u * 2) = F64.fin (F64.rnd (u * 2)) := by
      apply ofRat_of_lt
      rw [abs_of_nonneg hv0]
      exact lt_of_le_of_lt hv2 (by norm_num)
    rw [hv]
    simp only [F64.mul]
    have hprod : 0 ≤ F64.rnd (u * 2) * F64.rnd (R * J) := mul_nonneg hv0 ho
    rcases ofRat_cases (F64.rnd (u * 2) * F64.rnd (R * J)) with ht | ht
    · rw [ht]
      simp only [not_lt.mpr hprod, decide_False, F64.sub, F64.neg, F64.add]
      rw [count_inf]
      split
      · exact le_max_left _ _
      · norm_num
    · rw [ht]
      have htle : F64.rnd (F64.rnd (u * 2) * F64.rnd (R * J)) ≤ 2 * F64.rnd (R * J) := by
        have := rnd_mono (x := F64.rnd (u * 2) * F64.rnd (R * J)) (y := 2 * F64.rnd (R * J))
          (mul_le_mul_of_nonneg_right hv2 ho) (by linarith)
        rwa [rnd_two_mul_rnd hRJ] at this
      simp only [F64.sub, F64.neg, F64.add]
      rcases ofRat_cases (F64.rnd (F64.rnd (u * 2) * F64.rnd (R * J)) + -F64.rnd (R * J))
        with hvar | hvar
      · rw [hvar]
        simp only [F64.add]
        rw [count_inf]
        split
        · exact le_max_left _ _
        · norm_num
      · rw [hvar]
        have hvle : F64.rnd (F64.rnd (F64.rnd (u * 2) * F64.rnd (R * J)) + -F64.rnd (R * J))
            ≤ F64.rnd (R * J) := by
          have := rnd_mono
            (x := F64.rnd (F64.rnd (u * 2) * F64.rnd (R * J)) + -F64.rnd (R * J))
            (y := F64.rnd (R * J)) (by linarith) ho
          rwa [rnd_rnd hRJ] at this
        simp only [F64.add]
        rcases ofRat_cases
          (R + F64.rnd (F64.rnd (F64.rnd (u * 2) * F64.rnd (R * J)) + -F64.rnd (R * J)))
          with hs | hs
        · rw [hs, count_inf]
          split
          · exact le_max_left _ _
          · norm_num
        · rw [hs]
          have hsle : F64.rnd
              (R + F64.rnd (F64.rnd (F64.rnd (u * 2) * F64.rnd (R * J)) + -F64.rnd (R * J)))
              ≤ F64.rnd (R + F64.rnd (R * J)) :=
            rnd_mono (by linarith) (by linarith)
          rcases ofRat_cases (R + F64.rnd (R * J)) with hm | hm
          · rw [hm]
            exact (count_bounds _).2
          · rw [hm]
            exact le_trans (count_fin _) (max_le_max (le_refl _) (goRound_mono hsle))

theorem one_le_refillCount (rate jitter : F64) (u : ℚ) : 1 ≤ refillCount rate jitter u := by
  unfold refillCount
  exact (count_bounds _).1

/-- Rounding a positive number whose binade is known. -/
theorem rnd_eval (x : ℚ) (E k : Int) (hE : -1022 ≤ E) (hlo : (2 : ℚ) ^ E ≤ x)
    (hhi : x < (2 : ℚ) ^ (E + 1)) (hk : roundEven (x / 2 ^ (E - 52)) = k) :
    F64.rnd x = (k : ℚ) * 2 ^ (E - 52) := by
  have hx : 0 < x := lt_of_lt_of_le (two_zpow_pos E) hlo
  have hu : F64.ulpExp x = E - 52 := by
    rw [ulpExp_pos hx, log_eq_of_bounds E hlo hhi, max_eq_left hE]
  unfold F64.rnd
  rw [hu, hk]

theorem roundEven_near (q : ℚ) (k : Int) (h1 : (k : ℚ) - 1 / 2 < q) (h2 : q < (k : ℚ) + 1 / 2) :
    roundEven q = k := by
  have hle := roundEven_le q
  have hge := roundEven_ge q
  have a1 : ((roundEven q : Int) : ℚ) < (k : ℚ) + 1 := by linarith
  have a2 : (k : ℚ) - 1 < ((roundEven q : Int) : ℚ) := by linarith
  have b1 : roundEven q < k + 1 := by exact_mod_cast a1
  have b2 : k - 1 < roundEven q := by exact_mod_cast a2
  omega

theorem roundEven_tie (f : Int) : roundEven ((f : ℚ) + 1 / 2) = if f % 2 = 0 then f else f + 1 := by
  have hf : Int.floor ((f : ℚ) + 1 / 2) = f := by
    rw [Int.floor_eq_iff]
    constructor <;> norm_num
  unfold roundEven
  simp only [hf]
  have e : (f : ℚ) + 1 / 2 - (f : ℚ) = 1 / 2 := by ring
  rw [e]
  simp

theorem ofRat_eval (x y : ℚ) (h : F64.rnd x = y) (h0 : 0 ≤ y) (hlt : y < 1024) :
    F64.ofRat x = F64.fin y := by
  have hlt2 : |F64.rnd x| < 2 ^ (1024 : ℕ) := by
    rw [h, abs_of_nonneg h0]
    refine lt_trans hlt ?_
    have h1 : (1024 : ℚ) = 2 ^ (10 : ℕ) := by norm_num
    rw [h1]
    exact pow_lt_pow_right₀ (by norm_num) (by norm_num)
  rw [ofRat_of_lt x hlt2, h]

theorem ofRat_zero : F64.ofRat 0 = F64.fin 0 :=
  ofRat_eval 0 0 rnd_zero (le_refl _) (by norm_num)

theorem goRound_eval (q : ℚ) (n : Int) (h0 : 0 ≤ q) (h1 : (n : ℚ) ≤ q + 1 / 2)
    (h2 : q + 1 / 2 < (n : ℚ) + 1) : goRound q = n := by
  unfold goRound
  rw [if_pos h0, Int.floor_eq_iff]
  exact ⟨h1, h2⟩

theorem toInt_intCast (n : Int) (h1 : -(2 ^ 63) ≤ n) (h2 : n < 2 ^ 63) :
    (F64.fin (n : ℚ)).toInt = n := by
  simp only [F64.toInt]
  have e : (if (0 : ℚ) ≤ (n : ℚ) then Int.floor (n : ℚ) else Int.ceil (n : ℚ)) = n := by
    split <;> simp
  rw [e, if_pos ⟨h1, h2⟩]

theorem refillCount_quarter : refillCount (F64.fin (1 / 4)) (F64.fin 0) 0 = 1 := by
  have h14 : F64.ofRat (1 / 4) = F64.fin (1 / 4) := by
    apply ofRat_eval
    · have h := rnd_of_rep (2 ^ 52) (-2) (by norm_num) (by norm_num) (by norm_num)
        (Or.inr (le_refl _))
      have e : (((2 ^ 52 : Int)) : ℚ) * 2 ^ ((-2 : Int) - 52) = 1 / 4 := by norm_num
      rw [e] at h
      exact h
    · norm_num
    · norm_num
  have hr : goRound (1 / 4) = 0 := goRound_eval _ 0 (by norm_num) (by norm_num) (by norm_num)
  unfold refillCount jitterVariation
  simp only [F64.mul, F64.sub, F64.neg, F64.add, mul_zero, zero_mul, neg_zero, add_zero,
    ofRat_zero, h14, F64.Round, hr]
  rw [toInt_intCast 0 (by norm_num) (by norm_num)]
  decide

theorem refillCount_five : refillCount (F64.fin 5) (F64.fin float03) floatBelowOne = 7 := by
  have h1 : F64.ofRat (5 * float03) = F64.fin (3 / 2) := by
    apply ofRat_eval
    · have h := rnd_eval (5 * float03) 0 6755399441055744 (by norm_num)
        (by norm_num [float03]) (by norm_num [float03])
        (roundEven_near _ _ (by norm_num [float03]) (by norm_num [float03]))
      rw [h]
      norm_num
    · norm_num
    · norm_num
  have h2 : F64.ofRat (floatBelowOne * 2) = F64.fin (9007199254740991 / 4503599627370496) := by
    apply ofRat_eval
    · have h := rnd_of_rep 9007199254740991 0 (by norm_num) (by norm_num) (by norm_num)
        (Or.inr (by norm_num))
      have e : ((9007199254740991 : Int) : ℚ) * 2 ^ ((0 : Int) - 52)
          = 9007199254740991 / 4503599627370496 := by norm_num
      rw [e] at h
      have e2 : floatBelowOne * 2 = 9007199254740991 / 4503599627370496 := by
        norm_num [floatBelowOne]
      rw [e2]
      exact h
    · norm_num
    · norm_num
  have h3 : F64.ofRat (9007199254740991 / 4503599627370496 * (3 / 2))
      = F64.fin (6755399441055743 / 2251799813685248) := by
    apply ofRat_eval
    · have h := rnd_eval (9007199254740991 / 4503599627370496 * (3 / 2)) 1 6755399441055743
        (by norm_num) (by norm_num) (by norm_num)
        (roundEven_near _ _ (by norm_num) (by norm_num))
      rw [h]
      norm_num
    · norm_num
    · norm_num
  have h4 : F64.ofRat (6755399441055743 / 2251799813685248 + -(3 / 2))
      = F64.fin (3377699720527871 / 2251799813685248) := by
    apply ofRat_eval
    · have h := rnd_of_rep 6755399441055742 0 (by norm_num) (by norm_num) (by norm_num)
        (Or.inr (by norm_num))
      have e : ((6755399441055742 : Int) : ℚ) * 2 ^ ((0 : Int) - 52)
          = 3377699720527871 / 2251799813685248 := by norm_num
      rw [e] at h
      have e2 : (6755399441055743 / 2251799813685248 + -(3 / 2) : ℚ)
          = 3377699720527871 / 2251799813685248 := by norm_num
      rw [e2]
      exact h
    · norm_num
    · norm_num
  have h5 : F64.ofRat (5 + 3377699720527871 / 2251799813685248) = F64.fin (13 / 2) := by
    apply ofRat_eval
    · have hk : roundEven ((5 + 3377699720527871 / 2251799813685248 : ℚ) / 2 ^ ((2 : Int) - 52))
          = 7318349394477056 := by
        have e : ((5 + 3377699720527871 / 2251799813685248 : ℚ) / 2 ^ ((2 : Int) - 52))
            = ((7318349394477055 : Int) : ℚ) + 1 / 2 := by norm_num
        rw [e, roundEven_tie]
        decide
      have h := rnd_eval (5 + 3377699720527871 / 2251799813685248) 2 7318349394477056
        (by norm_num) (by norm_num) (by norm_num) hk
      rw [h]
      norm_num
    · norm_num
    · norm_num
  have hr : goRound (13 / 2) = 7 := goRound_eval _ 7 (by norm_num) (by norm_num) (by norm_num)
  unfold refillCount jitterVariation
  simp only [F64.mul, F64.sub, F64.neg, F64.add, h1, h2, h3, h4, h5, F64.Round, hr]
  rw [toInt_intCast 7 (by norm_num) (by norm_num)]
  decide

theorem rnd_three_tenths : F64.rnd (3 / 10) = float03 := by
  have h := rnd_eval (3 / 10) (-2) 5404319552844595 (by norm_num) (by norm_num) (by norm_num)
    (roundEven_near _ _ (by norm_num) (by norm_num))
  rw [h]
  norm_num [float03]

/-- What `roundEven` returns: a nearest integer, the even one of two. -/
theorem roundEven_spec (q : ℚ) :
    |q - (roundEven q : ℚ)| < 1 / 2
      ∨ (|q - (roundEven q : ℚ)| = 1 / 2 ∧ roundEven q % 2 = 0) := by
  have h1 := Int.floor_le q
  have h2 := Int.lt_floor_add_one q
  unfold roundEven
  simp only
  split
  · next h =>
      left
      rw [abs_of_nonneg (by linarith)]
      exact h
  · next h =>
      split
      · next h3 =>
          left
          push_cast
          rw [abs_of_nonpos (by linarith)]
          linarith
      · next h3 =>
          have he : q - (Int.floor q : ℚ) = 1 / 2 := le_antisymm (not_lt.mp h3) (not_lt.mp h)
          split
          · next hev =>
              right
              refine ⟨?_, hev⟩
              rw [he]
              norm_num
          · next hodd =>
              right
              refine ⟨?_, by omega⟩
              push_cast
              have : q - ((Int.floor q : ℚ) + 1) = -(1 / 2) := by linarith
              rw [this]
              norm_num

theorem roundEven_unique (q : ℚ) (n : Int)
    (h : |q - (n : ℚ)| < 1 / 2 ∨ (|q - (n : ℚ)| = 1 / 2 ∧ n % 2 = 0)) : roundEven q = n := by
  have hs := roundEven_spec q
  have hm : |q - (roundEven q : ℚ)| ≤ 1 / 2 := by
    rcases hs with h1 | h1
    · exact le_of_lt h1
    · exact le_of_eq h1.1
  have hn : |q - (n : ℚ)| ≤ 1 / 2 := by
    rcases h with h1 | h1
    · exact le_of_lt h1
    · exact le_of_eq h1.1
  have hm' := abs_le.mp hm
  have hn' := abs_le.mp hn
  have d1 : ((roundEven q : Int) : ℚ) - (n : ℚ) ≤ 1 := by linarith
  have d2 : (-1 : ℚ) ≤ ((roundEven q : Int) : ℚ) - (n : ℚ) := by linarith
  have e1 : roundEven q - n ≤ 1 := by exact_mod_cast d1
  have e2 : -1 ≤ roundEven q - n := by exact_mod_cast d2
  by_contra hne
  have hcase : roundEven q - n = 1 ∨ roundEven q - n = -1 := by omega
  -- both are at distance one half, so both are even, which their difference forbids
  have hboth : |q - (roundEven q : ℚ)| = 1 / 2 ∧ |q - (n : ℚ)| = 1 / 2 := by
    rcases hcase with hc | hc
    · have hq : ((roundEven q : Int) : ℚ) - (n : ℚ) = 1 := by exact_mod_cast hc
      have a1 : q - (roundEven q : ℚ) = -(1 / 2) := by linarith
      have a2 : q - (n : ℚ) = 1 / 2 := by linarith
      rw [a1, a2]
      norm_num
    · have hq : ((roundEven q : Int) : ℚ) - (n : ℚ) = -1 := by exact_mod_cast hc
      have a1 : q - (roundEven q : ℚ) = 1 / 2 := by linarith
      have a2 : q - (n : ℚ) = -(1 / 2) := by linarith
      rw [a1, a2]
      norm_num
  have hev1 : roundEven q % 2 = 0 := by
    rcases hs with h1 | h1
    · rw [hboth.1] at h1
      exact absurd h1 (lt_irrefl _)
    · exact h1.2
  have hev2 : n % 2 = 0 := by
    rcases h with h1 | h1
    · rw [hboth.2] at h1
      exact absurd h1 (lt_irrefl _)
    · exact h1.2
  omega

theorem roundEven_neg (q : ℚ) : roundEven (-q) = - roundEven q := by
  apply roundEven_unique
  have e : -q - ((-roundEven q : Int) : ℚ) = -(q - (roundEven q : ℚ)) := by
    push_cast
    ring
  rw [e, abs_neg]
  rcases roundEven_spec q with h | h
  · exact Or.inl h
  · exact Or.inr ⟨h.1, by omega⟩

theorem rnd_neg (x : ℚ) : F64.rnd (-x) = - F64.rnd x := by
  unfold F64.rnd F64.ulpExp
  rw [abs_neg, neg_div, roundEven_neg]
  push_cast
  ring

/-- Rounding is monotone. -/
theorem rnd_monotone {x y : ℚ} (h : x ≤ y) : F64.rnd x ≤ F64.rnd y := by
  rcases le_or_lt 0 y with hy | hy
  · exact rnd_mono h hy
  · have h1 : F64.rnd (-y) ≤ F64.rnd (-x) := rnd_mono_pos (by linarith) (by linarith)
    rw [rnd_neg, rnd_neg] at h1
    linarith

/-- The variation of a tick lies in the jitter band around zero, whose half
width is the product `rate * jitter` as a `float64`. -/
theorem variation_band (R J u : ℚ) (hR : 0 < R) (hJ : 0 ≤ J) (hu0 : 0 ≤ u) (hu1 : u < 1)
    (v : ℚ) (hv : jitterVariation (F64.fin R) (F64.fin J) u = F64.fin v) :
    ∃ o : ℚ, (F64.fin R).mul (F64.fin J) = F64.fin o ∧ 0 ≤ o ∧ -o ≤ v ∧ v ≤ o := by
  have hRJ : 0 ≤ R * J := mul_nonneg (le_of_lt hR) hJ
  have hnRJ : ¬ R * J < 0 := not_lt.mpr hRJ
  have ho : 0 ≤ F64.rnd (R * J) := rnd_nonneg hRJ
  have hv2 : F64.rnd (u * 2) ≤ 2 := by
    have := rnd_mono (x := u * 2) (y := 2) (by linarith) (by norm_num)
    rwa [rnd_two] at this
  have hv0 : 0 ≤ F64.rnd (u * 2) := rnd_nonneg (by linarith)
  have hvv : F64.ofRat (u * 2) = F64.fin (F64.rnd (u * 2)) := by
    apply ofRat_of_lt
    rw [abs_of_nonneg hv0]
    exact lt_of_le_of_lt hv2 (by norm_num)
  unfold jitterVariation at hv
  simp only [F64.mul] at hv ⊢
  rw [hvv] at hv
  rcases ofRat_cases (R * J) with hoff | hoff
  · rw [hoff] at hv
    simp only [hnRJ, decide_False, F64.mul, F64.sub, F64.neg] at hv
    split at hv
    · simp [F64.add] at hv
    · simp only [F64.add, Bool.false_bne, Bool.not_true] at hv
      split at hv <;> cases hv
  · rw [hoff] at hv ⊢
    refine ⟨F64.rnd (R * J), rfl, ho, ?_⟩
    simp only [F64.mul, F64.sub, F64.neg] at hv
    have hprod : 0 ≤ F64.rnd (u * 2) * F64.rnd (R * J) := mul_nonneg hv0 ho
    rcases ofRat_cases (F64.rnd (u * 2) * F64.rnd (R * J)) with ht | ht
    · rw [ht] at hv
      simp [F64.add] at hv
    · rw [ht] at hv
      simp only [F64.add] at hv
      have ht0 : 0 ≤ F64.rnd (F64.rnd (u * 2) * F64.rnd (R * J)) := rnd_nonneg hprod
      have htle : F64.rnd (F64.rnd (u * 2) * F64.rnd (R * J)) ≤ 2 * F64.rnd (R * J) := by
        have := rnd_mono (x := F64.rnd (u * 2) * F64.rnd (R * J)) (y := 2 * F64.rnd (R * J))
          (mul_le_mul_of_nonneg_right hv2 ho) (by linarith)
        rwa [rnd_two_mul_rnd hRJ] at this
      rcases ofRat_cases (F64.rnd (F64.rnd (u * 2) * F64.rnd (R * J)) + -F64.rnd (R * J))
        with hvar | hvar
      · rw [hvar] at hv
        cases hv
      · rw [hvar] at hv
        have hveq : F64.rnd (F64.rnd (F64.rnd (u * 2) * F64.rnd (R * J)) + -F64.rnd (R * J))
            = v := F64.fin.inj hv
        rw [← hveq]
        constructor
        · have := rnd_monotone
            (x := -F64.rnd (R * J))
            (y := F64.rnd (F64.rnd (u * 2) * F64.rnd (R * J)) + -F64.rnd (R * J))
            (by linarith)
          rwa [rnd_neg, rnd_rnd hRJ] at this
        · have := rnd_monotone
            (x := F64.rnd (F64.rnd (u * 2) * F64.rnd (R * J)) + -F64.rnd (R * J))
            (y := F64.rnd (R * J)) (by linarith)
          rwa [rnd_rnd hRJ] at this


/-! ## Properties: rate pacer -/

theorem Pacer.recv_total (p : Pacer) :
    p.recv.bucket + p.recv.obtained = p.bucket + p.obtained ∧ p.recv.bucket ≤ p.bucket
      ∧ p.obtained ≤ p.recv.obtained := by
  unfold Pacer.recv
  split
  · simp only
    omega
  · exact ⟨rfl, Nat.le_refl _, Nat.le_refl _⟩

theorem Pacer.trySend_total (p : Pacer) :
    p.trySend.bucket + p.trySend.obtained ≤ p.bucket + p.obtained + 1
      ∧ (p.bucket ≤ rateCap → p.trySend.bucket ≤ rateCap)
      ∧ p.trySend.obtained = p.obtained := by
  unfold Pacer.trySend
  split
  · next hlt => exact ⟨by simp only; omega, fun _ => by simp only; omega, rfl⟩
  · exact ⟨by omega, fun h => h, rfl⟩

/-- A step of the pool counts a token exactly when its worker is at the
receive from `rateCh`. -/
theorem Sys.step_tokens (env : Env) (s : Sys) (k : Nat) :
    (s.step env k).sh.tokens = s.sh.tokens + (if s.atPacer k = true then 1 else 0) := by
  unfold Sys.step Sys.atPacer
  cases h : s.workers.get? k with
  | none => simp
  | some w =>
      cases w <;> simp only [Worker.step] <;> (repeat' split) <;> simp_all

/-- In a level-2 job a call of the verifier is made by a worker that has taken
a token for the address. -/
theorem Worker.step_calls (env : Env) (sh : Shared) (w : Worker) (hl : sh.job.Level = 2) :
    (w.step env sh).1.verifyLog.length + (w.step env sh).2.pastToken + sh.tokens
      ≤ sh.verifyLog.length + w.pastToken + (w.step env sh).1.tokens := by
  cases w <;> simp only [Worker.step] <;> (repeat' split) <;>
    simp_all [Worker.pastToken] <;> omega

theorem Sys.pool_step_calls (env : Env) (s : Sys) (k : Nat) (hl : s.sh.job.Level = 2) :
    (s.step env k).sh.verifyLog.length + ((s.step env k).workers.map Worker.pastToken).sum
        + s.sh.tokens
      ≤ s.sh.verifyLog.length + (s.workers.map Worker.pastToken).sum
        + (s.step env k).sh.tokens := by
  rcases Sys.step_eq env s k with h | ⟨w, hw, h⟩
  · rw [h]
  · rw [h]
    have h1 := sum_map_set Worker.pastToken s.workers k w (w.step env s.sh).2 hw
    have h2 := Worker.step_calls env s.sh w hl
    simp only
    omega

theorem Sys.exec_calls (env : Env) :
    ∀ (sched : List Nat) (s : Sys), s.sh.job.Level = 2 →
      (s.exec env sched).sh.verifyLog.length
          + ((s.exec env sched).workers.map Worker.pastToken).sum + s.sh.tokens
        ≤ s.sh.verifyLog.length + (s.workers.map Worker.pastToken).sum
          + (s.exec env sched).sh.tokens := by
  intro sched
  induction sched with
  | nil => intro s _; exact Nat.le_refl _
  | cons k rest ih =>
      intro s hl
      have h1 := Sys.pool_step_calls env s k hl
      have h2 := ih (s.step env k) ((Sys.step_job_frame env s k).2.2.2.1.trans hl)
      simp only [Sys.exec, List.foldl_cons] at h2 ⊢
      omega

theorem PacedRel.refl (env : Env) (x : Paced) : PacedRel env x x 0 :=
  ⟨Nat.le_refl _, fun h => h, Nat.le_refl _, Nat.le_of_eq (Nat.add_comm _ _), ⟨[], rfl⟩⟩

theorem PacedRel.trans (env : Env) (x y z : Paced) (a b : Nat) (h1 : PacedRel env x y a)
    (h2 : PacedRel env y z b) : PacedRel env x z (a + b) := by
  obtain ⟨s1, e1⟩ := h1.sched
  obtain ⟨s2, e2⟩ := h2.sched
  refine ⟨?_, fun h => h2.cap (h1.cap h), Nat.le_trans h1.mono h2.mono, ?_, ⟨s1 ++ s2, ?_⟩⟩
  · have := h1.total
    have := h2.total
    omega
  · have := h1.taken
    have := h2.taken
    omega
  · rw [Sys.exec_append, ← e1, e2]

theorem PacedRel.move (env : Env) (x : Paced) (m : Move) : PacedRel env x (x.move env m) 0 := by
  cases m with
  | other =>
      have h := x.pacer.recv_total
      refine ⟨?_, ?_, h.2.2, ?_, ⟨[], rfl⟩⟩
      · simp only [Paced.move]
        omega
      · intro hb
        simp only [Paced.move]
        omega
      · simp only [Paced.move]
        omega
  | worker k =>
      have ht := Sys.step_tokens env x.pool k
      have h := x.pacer.recv_total
      have hm : x.move env (Move.worker k)
          = if x.pool.atPacer k = true then
              if 0 < x.pacer.bucket then { pacer := x.pacer.recv, pool := x.pool.step env k }
              else x
            else { x with pool := x.pool.step env k } := rfl
      rw [hm]
      by_cases hp : x.pool.atPacer k = true
      · rw [if_pos hp]
        rw [if_pos hp] at ht
        by_cases hb : 0 < x.pacer.bucket
        · rw [if_pos hb]
          have ho : x.pacer.recv.obtained = x.pacer.obtained + 1 := by
            simp [Pacer.recv, hb]
          refine ⟨?_, ?_, h.2.2, ?_, ⟨[k], rfl⟩⟩
          · simp only
            omega
          · intro _
            simp only
            omega
          · simp only
            omega
        · rw [if_neg hb]
          exact PacedRel.refl env x
      · rw [if_neg hp]
        rw [if_neg hp] at ht
        refine ⟨Nat.le_refl _, fun hb => hb, Nat.le_refl _, ?_, ⟨[k], rfl⟩⟩
        simp only
        omega

theorem PacedRel.moves (env : Env) : ∀ (ms : List Move) (x : Paced),
    PacedRel env x (Paced.moves env x ms) 0 := by
  intro ms
  induction ms with
  | nil => intro x; exact PacedRel.refl env x
  | cons m rest ih =>
      intro x
      exact PacedRel.trans env x (x.move env m) _ 0 0 (PacedRel.move env x m) (ih _)

theorem PacedRel.send (env : Env) (x : Paced) :
    PacedRel env x { pacer := x.pacer.trySend, pool := x.pool } 1 := by
  have h := x.pacer.trySend_total
  refine ⟨h.1, h.2.1, Nat.le_of_eq h.2.2.symm, ?_, ⟨[], rfl⟩⟩
  simp only
  omega

theorem PacedRel.refillFrom (env : Env) (pre : Nat → List Move) :
    ∀ (remaining i : Nat) (x : Paced),
      PacedRel env x (Paced.refillFrom env pre i remaining x) remaining := by
  intro remaining
  induction remaining with
  | zero => intro i x; exact PacedRel.refl env x
  | succ r ih =>
      intro i x
      have h1 := PacedRel.moves env (pre i) x
      have h2 := PacedRel.send env (Paced.moves env x (pre i))
      have h3 := ih (i + 1)
        { pacer := (Paced.moves env x (pre i)).pacer.trySend,
          pool := (Paced.moves env x (pre i)).pool }
      have h12 := PacedRel.trans env _ _ _ 0 1 h1 h2
      have h := PacedRel.trans env _ _ _ (0 + 1) r h12 h3
      have e : 0 + 1 + r = r + 1 := by omega
      rw [e] at h
      exact h

theorem PacedRel.run (env : Env) (rate jitter : F64) :
    ∀ (evs : List PacedEvent) (x : Paced),
      PacedRel env x (Paced.run env rate jitter x evs) (tokensAdded rate jitter evs) := by
  intro evs
  induction evs with
  | nil => intro x; exact PacedRel.refl env x
  | cons ev rest ih =>
      intro x
      have h2 := ih (Paced.step env rate jitter x ev)
      cases ev with
      | tick u pre =>
          have h1 := PacedRel.refillFrom env (fun i => pre.getD i [])
            (refillCount rate jitter u).toNat 0 x
          exact PacedRel.trans env _ _ _ _ _ h1 h2
      | move m =>
          have h1 := PacedRel.move env x m
          have h := PacedRel.trans env _ _ _ _ _ h1 h2
          have e : 0 + tokensAdded rate jitter rest
              = tokensAdded rate jitter (PacedEvent.move m :: rest) := by
            simp [tokensAdded]
          rw [e] at h
          exact h

theorem tokensAdded_le (R J : ℚ) (hR : 0 < R) (hJ : 0 ≤ J) :
    ∀ (evs : List PacedEvent), (∀ u pre, PacedEvent.tick u pre ∈ evs → 0 ≤ u ∧ u < 1) →
      ((tokensAdded (F64.fin R) (F64.fin J) evs : Nat) : Int)
        ≤ (ticksOf evs : Int) * tickMax R J := by
  intro evs
  induction evs with
  | nil => intro _; simp [tokensAdded, ticksOf]
  | cons ev rest ih =>
      intro hu
      have hrest := ih (fun u pre h => hu u pre (List.mem_cons_of_mem _ h))
      cases ev with
      | tick u pre =>
          have hb := hu u pre (List.mem_cons_self _ _)
          have h1 := refillCount_le R J u hR hJ hb.1 hb.2
          have h0 := one_le_refillCount (F64.fin R) (F64.fin J) u
          have hcast : (((refillCount (F64.fin R) (F64.fin J) u).toNat : Nat) : Int)
              = refillCount (F64.fin R) (F64.fin J) u := Int.toNat_of_nonneg (by omega)
          have ht : ticksOf (PacedEvent.tick u pre :: rest) = ticksOf rest + 1 := by
            simp [ticksOf, List.filter, PacedEvent.isTick]
          simp only [tokensAdded, ht]
          push_cast
          rw [hcast]
          linarith
      | move m =>
          have ht : ticksOf (PacedEvent.move m :: rest) = ticksOf rest := by
            simp [ticksOf, List.filter, PacedEvent.isTick]
          simp only [tokensAdded, ht]
          exact hrest

theorem Paced.moves_other (env : Env) : ∀ (n : Nat) (x : Paced), n ≤ x.pacer.bucket →
    Paced.moves env x (List.replicate n Move.other)
      = { pacer := { bucket := x.pacer.bucket - n, obtained := x.pacer.obtained + n },
          pool := x.pool } := by
  intro n
  induction n with
  | zero => intro x _; rfl
  | succ n ih =>
      intro x h
      have hpos : 0 < x.pacer.bucket := by omega
      have hm : x.move env Move.other
          = { pacer := { bucket := x.pacer.bucket - 1, obtained := x.pacer.obtained + 1 },
              pool := x.pool } := by
        simp [Paced.move, Pacer.recv, hpos]
      simp only [List.replicate_succ, Paced.moves, List.foldl_cons]
      have := ih (x.move env Move.other) (by rw [hm]; simp only; omega)
      simp only [Paced.moves] at this
      rw [this, hm]
      simp only [Paced.mk.injEq, Pacer.mk.injEq, and_true]
      omega

/-- When the product and the sum at the top of the jitter band are `float64`
values, the most a tick adds is `max(1, round(R * (1 + J)))`. -/
theorem tickMax_exact (R J : ℚ) (h1 : F64.ofRat (R * J) = F64.fin (R * J))
    (h2 : F64.ofRat (R + R * J) = F64.fin (R + R * J)) :
    tickMax R J = max 1 (goRound (R * (1 + J))) := by
  have e : R * (1 + J) = R + R * J := by ring
  unfold tickMax
  simp only [F64.mul, h1, F64.add, h2, e]

/-- C6, counterexample: two windows of one tick that start with a full
`rateCh`.  At rate 1/4 without jitter the consumers take the 1000 tokens,
the tick adds `max(1, round(0.25)) = 1` token and worker 0 of the job takes
it: 1001 tokens, more than `1 * 0.25 * (1 + 0) + 1000`.  At rate 5 with
jitter fraction 0.3 (as a `float64`) and the largest draw, the tick adds
`round(6.5) = 7` tokens, the sum `5 + 1.5 - 2^-51` having rounded to 6.5:
1007 tokens, more than `1 * 5 * (1 + 0.3) + 1000`, and more than it with
one half added for the rounding to an integer. -/
theorem pacer_bound_exceeded :
    ((Paced.run echoEnv (F64.fin (1 / 4)) (F64.fin 0) samplePaced
          sampleQuarterWindow).pacer.obtained = 1001
      ∧ (Paced.run echoEnv (F64.fin (1 / 4)) (F64.fin 0) samplePaced
          sampleQuarterWindow).pool.sh.tokens = 1
      ∧ ticksOf sampleQuarterWindow = 1
      ∧ ¬ (((Paced.run echoEnv (F64.fin (1 / 4)) (F64.fin 0) samplePaced
              sampleQuarterWindow).pacer.obtained : ℚ)
            ≤ (ticksOf sampleQuarterWindow : ℚ) * (1 / 4) * (1 + 0) + 1000))
      ∧ ((Paced.run echoEnv (F64.fin 5) (F64.fin float03) samplePaced
            sampleFiveWindow).pacer.obtained = 1007
        ∧ ticksOf sampleFiveWindow = 1
        ∧ F64.rnd (3 / 10) = float03
        ∧ ¬ (((Paced.run echoEnv (F64.fin 5) (F64.fin float03) samplePaced
                sampleFiveWindow).pacer.obtained : ℚ)
              ≤ (ticksOf sampleFiveWindow : ℚ) * 5 * (1 + float03) + 1000)
        ∧ ¬ (((Paced.run echoEnv (F64.fin 5) (F64.fin float03) samplePaced
                sampleFiveWindow).pacer.obtained : ℚ)
              ≤ (ticksOf sampleFiveWindow : ℚ) * max 1 (5 * (1 + float03) + 1 / 2) + 1000)) := by
  have hq : (Paced.run echoEnv (F64.fin (1 / 4)) (F64.fin 0) samplePaced
        sampleQuarterWindow).pacer.obtained = 1001
      ∧ (Paced.run echoEnv (F64.fin (1 / 4)) (F64.fin 0) samplePaced
        sampleQuarterWindow).pool.sh.tokens = 1 := by
    have h1 : (1 : Int).toNat = 1 := rfl
    simp only [sampleQuarterWindow, Paced.run, List.foldl_cons, List.foldl_nil, Paced.step,
      refillCount_quarter, h1, Paced.refillFrom, List.getD_cons_zero]
    rw [Paced.moves_other echoEnv 1000 _ (by decide)]
    decide
  have hf : (Paced.run echoEnv (F64.fin 5) (F64.fin float03) samplePaced
        sampleFiveWindow).pacer.obtained = 1007 := by
    have h1 : (7 : Int).toNat = 7 := rfl
    simp only [sampleFiveWindow, Paced.run, List.foldl_cons, List.foldl_nil, Paced.step,
      refillCount_five, h1, Paced.refillFrom, List.getD_cons_zero]
    rw [Paced.moves_other echoEnv 1000 _ (by decide)]
    decide
  have htq : ticksOf sampleQuarterWindow = 1 := by decide
  have htf : ticksOf sampleFiveWindow = 1 := by decide
  refine ⟨⟨hq.1, hq.2, htq, ?_⟩, hf, htf, rnd_three_tenths, ?_, ?_⟩
  · rw [hq.1, htq]
    norm_num
  · rw [hf, htf]
    norm_num [float03]
  · rw [hf, htf]
    have hm : max (1 : ℚ) (5 * (1 + float03) + 1 / 2) = 5 * (1 + float03) + 1 / 2 :=
      max_eq_right (by norm_num [float03])
    rw [hm]
    norm_num [float03]

/-- C6, as amended: for a rate `R > 0`, a jitter fraction `J ≥ 0` and a window
with `T` refill ticks that starts with at most 1000 tokens in `rateCh`.  A
tick adds `max(1, round(R + v))` tokens, computed in `float64`, with `v`
between `-(R*J)` and `R*J`, the product as a `float64`; this is at least 1
and at most `M = max(1, round(R + R*J))` with the sum and the product in
`float64` (the largest `int` when that sum is not finite; `max(1,
round(R * (1 + J)))` when they are exact); the channel never holds more
than 1000 tokens; the consumers obtain at most `T * M + 1000` tokens; the
workers of a job take no more tokens than the consumers obtain, so they start
on at most `T * M + 1000` level-2 addresses; and the calls of the verifier
they make in the window are at most that many, plus one for each worker that
held a token when the window began. -/
theorem pacer_bound (env : Env) (R J : ℚ) (hR : 0 < R) (hJ : 0 ≤ J) (x : Paced)
    (hb : x.pacer.bucket ≤ rateCap) (evs : List PacedEvent)
    (hu : ∀ u pre, PacedEvent.tick u pre ∈ evs → 0 ≤ u ∧ u < 1) :
    (∀ u : ℚ, 0 ≤ u → u < 1 →
        1 ≤ refillCount (F64.fin R) (F64.fin J) u
          ∧ refillCount (F64.fin R) (F64.fin J) u ≤ tickMax R J)
      ∧ (∀ u : ℚ, refillCount (F64.fin R) (F64.fin J) u
          = max 1 ((F64.fin R).add (jitterVariation (F64.fin R) (F64.fin J) u)).Round.toInt)
      ∧ (∀ u : ℚ, 0 ≤ u → u < 1 → ∀ v : ℚ,
          jitterVariation (F64.fin R) (F64.fin J) u = F64.fin v →
          ∃ o : ℚ, (F64.fin R).mul (F64.fin J) = F64.fin o ∧ 0 ≤ o ∧ -o ≤ v ∧ v ≤ o)
      ∧ (F64.ofRat (R * J) = F64.fin (R * J) → F64.ofRat (R + R * J) = F64.fin (R + R * J) →
          tickMax R J = max 1 (goRound (R * (1 + J))))
      ∧ (Paced.run env (F64.fin R) (F64.fin J) x evs).pacer.bucket ≤ rateCap
      ∧ (((Paced.run env (F64.fin R) (F64.fin J) x evs).pacer.obtained : Nat) : Int)
          ≤ (x.pacer.obtained : Int) + (ticksOf evs : Int) * tickMax R J + 1000
      ∧ (Paced.run env (F64.fin R) (F64.fin J) x evs).pool.sh.tokens + x.pacer.obtained
          ≤ (Paced.run env (F64.fin R) (F64.fin J) x evs).pacer.obtained + x.pool.sh.tokens
      ∧ (((Paced.run env (F64.fin R) (F64.fin J) x evs).pool.sh.tokens : Nat) : Int)
          ≤ (x.pool.sh.tokens : Int) + (ticksOf evs : Int) * tickMax R J + 1000
      ∧ (∃ sched : List Nat,
          (Paced.run env (F64.fin R) (F64.fin J) x evs).pool = x.pool.exec env sched)
      ∧ (x.pool.sh.job.Level = 2 →
          (((Paced.run env (F64.fin R) (F64.fin J) x evs).pool.sh.verifyLog.length : Nat) : Int)
            ≤ (x.pool.sh.verifyLog.length : Int)
              + ((x.pool.workers.map Worker.pastToken).sum : Nat)
              + (ticksOf evs : Int) * tickMax R J + 1000) := by
  have hrel := PacedRel.run env (F64.fin R) (F64.fin J) evs x
  have hadd := tokensAdded_le R J hR hJ evs hu
  have htot := hrel.total
  have hcap : x.pacer.bucket ≤ 1000 := hb
  have hobt : (((Paced.run env (F64.fin R) (F64.fin J) x evs).pacer.obtained : Nat) : Int)
      ≤ (x.pacer.obtained : Int) + (ticksOf evs : Int) * tickMax R J + 1000 := by
    have h1 : (((Paced.run env (F64.fin R) (F64.fin J) x evs).pacer.obtained : Nat) : Int)
        ≤ (x.pacer.bucket : Int) + (x.pacer.obtained : Int)
          + ((tokensAdded (F64.fin R) (F64.fin J) evs : Nat) : Int) := by
      have : (Paced.run env (F64.fin R) (F64.fin J) x evs).pacer.obtained
          ≤ x.pacer.bucket + x.pacer.obtained + tokensAdded (F64.fin R) (F64.fin J) evs := by
        omega
      exact_mod_cast this
    have h2 : (x.pacer.bucket : Int) ≤ 1000 := by exact_mod_cast hcap
    linarith
  have htok : (((Paced.run env (F64.fin R) (F64.fin J) x evs).pool.sh.tokens : Nat) : Int)
      ≤ (x.pool.sh.tokens : Int) + (ticksOf evs : Int) * tickMax R J + 1000 := by
    have h1 : (((Paced.run env (F64.fin R) (F64.fin J) x evs).pool.sh.tokens : Nat) : Int)
        + (x.pacer.obtained : Int)
        ≤ ((Paced.run env (F64.fin R) (F64.fin J) x evs).pacer.obtained : Int)
          + (x.pool.sh.tokens : Int) := by
      exact_mod_cast hrel.taken
    linarith
  refine ⟨fun u h0 h1 => ⟨one_le_refillCount _ _ u, refillCount_le R J u hR hJ h0 h1⟩,
    ?_, fun u h0 h1 v hv => variation_band R J u hR hJ h0 h1 v hv,
    tickMax_exact R J, hrel.cap hb, hobt, hrel.taken, htok, hrel.sched, ?_⟩
  · intro u
    unfold refillCount
    simp only
    split
    · next h => exact (max_eq_left (le_of_lt h)).symm
    · next h => exact (max_eq_right (not_lt.mp h)).symm
  intro hl
  obtain ⟨sched, hs⟩ := hrel.sched
  have hc := Sys.exec_calls env sched x.pool hl
  rw [← hs] at hc
  have hc2 : (((Paced.run env (F64.fin R) (F64.fin J) x evs).pool.sh.verifyLog.length : Nat) : Int)
      + (x.pool.sh.tokens : Int)
      ≤ (x.pool.sh.verifyLog.length : Int) + ((x.pool.workers.map Worker.pastToken).sum : Nat)
        + ((Paced.run env (F64.fin R) (F64.fin J) x evs).pool.sh.tokens : Int) := by
    have : (Paced.run env (F64.fin R) (F64.fin J) x evs).pool.sh.verifyLog.length
        + x.pool.sh.tokens
        ≤ x.pool.sh.verifyLog.length + (x.pool.workers.map Worker.pastToken).sum
          + (Paced.run env (F64.fin R) (F64.fin J) x evs).pool.sh.tokens := by
      omega
    exact_mod_cast this
  linarith

theorem pacer_bound_witness :
    ((0 : ℚ) < 20 ∧ (0 : ℚ) ≤ 1 / 8 ∧ samplePaced.pacer.bucket ≤ rateCap)
      ∧ (((Paced.run echoEnv (F64.fin 20) (F64.fin (1 / 8)) samplePaced
            sampleWindow).pacer.obtained : Nat) : Int)
          ≤ (samplePaced.pacer.obtained : Int)
            + (ticksOf sampleWindow : Int) * tickMax 20 (1 / 8) + 1000 :=
  ⟨⟨by norm_num, by norm_num, by decide⟩,
   (pacer_bound echoEnv 20 (1 / 8) (by norm_num) (by norm_num) samplePaced (by decide)
     sampleWindow
     (by
       intro u pre h
       simp only [sampleWindow, List.mem_cons, PacedEvent.tick.injEq, List.mem_singleton,
         reduceCtorEq, false_or, or_false, List.not_mem_nil] at h
       rw [h.1]
       norm_num)).2.2.2.2.2.1⟩


/-! ## Properties: one worker, one address at a time -/

theorem Worker.iter_exited (env : Env) : ∀ (n : Nat) (sh : Shared),
    Worker.iter env n (sh, Worker.exited) = (sh, Worker.exited) := by
  intro n
  induction n with
  | zero => intro sh; rfl
  | succ n ih => intro sh; simp only [Worker.iter, Worker.step, ih]

theorem Worker.iter_add (env : Env) : ∀ (a b : Nat) (x : Shared × Worker),
    Worker.iter env (a + b) x = Worker.iter env b (Worker.iter env a x) := by
  intro a
  induction a with
  | zero => intro b x; simp [Worker.iter]
  | succ a ih =>
      intro b x
      rw [Nat.add_right_comm]
      simp only [Worker.iter]
      exact ih b _

/-- Inside the loop body a step brings the worker nearer to the head of the
loop and leaves the channel alone. -/
theorem Worker.step_body (env : Env) (sh : Shared) (w : Worker)
    (h1 : w ≠ Worker.recv) (h2 : w ≠ Worker.exited) :
    (w.step env sh).2.rem < w.rem ∧ (w.step env sh).2 ≠ Worker.exited
      ∧ (w.step env sh).1.jobsCh = sh.jobsCh := by
  cases w <;> simp only [Worker.step] <;> (repeat' split) <;>
    simp_all [Worker.rem]

theorem Worker.finish_iter (env : Env) : ∀ (fuel : Nat) (x : Shared × Worker),
    x.2.rem ≤ fuel → x.2 ≠ Worker.exited →
      ∃ k, k ≤ x.2.rem ∧ Worker.finish env fuel x = Worker.iter env k x
        ∧ (Worker.finish env fuel x).2 = Worker.recv
        ∧ (Worker.finish env fuel x).1.jobsCh = x.1.jobsCh := by
  intro fuel
  induction fuel with
  | zero =>
      intro x hrem hne
      have hrecv : x.2 = Worker.recv := by
        cases hx : x.2 <;> simp_all [Worker.rem]
      exact ⟨0, Nat.zero_le _, rfl, hrecv, rfl⟩
  | succ fuel ih =>
      intro x hrem hne
      by_cases hrecv : x.2 = Worker.recv
      · refine ⟨0, Nat.zero_le _, ?_, ?_, ?_⟩ <;> simp [Worker.finish, hrecv, Worker.iter]
      · have hb := Worker.step_body env x.1 x.2 hrecv hne
        obtain ⟨k, hk, h1, h2, h3⟩ := ih (x.2.step env x.1) (by omega) hb.2.1
        have hf : Worker.finish env (fuel + 1) x = Worker.finish env fuel (x.2.step env x.1) := by
          simp [Worker.finish, hrecv, hne]
        refine ⟨k + 1, by omega, ?_, ?_, ?_⟩
        · rw [hf, h1]
          rfl
        · rw [hf]
          exact h2
        · rw [hf, h3]
          exact hb.2.2

/-- One turn of the loop is at most ten steps of the worker. -/
theorem Worker.turn_iter (env : Env) (sh : Shared) (i : Nat) (e : String)
    (rest : List (Nat × String)) (hq : sh.jobsCh = (i, e) :: rest) :
    ∃ k, 1 ≤ k ∧ k ≤ 10 ∧ Worker.iter env k (sh, Worker.recv) = Worker.turn env sh
      ∧ (Worker.turn env sh).2 = Worker.recv ∧ (Worker.turn env sh).1.jobsCh = rest := by
  have hstep : Worker.recv.step env sh = ({ sh with jobsCh := rest }, Worker.token i e) := by
    simp [Worker.step, hq]
  obtain ⟨k, hk, h1, h2, h3⟩ := Worker.finish_iter env 9 (Worker.recv.step env sh)
    (by rw [hstep]; simp [Worker.rem]) (by rw [hstep]; simp)
  refine ⟨k + 1, by omega, ?_, ?_, h2, ?_⟩
  · have : (Worker.recv.step env sh).2.rem = 9 := by rw [hstep]; rfl
    omega
  · unfold Worker.turn
    rw [h1]
    rfl
  · unfold Worker.turn
    rw [h3, hstep]

/-- A single worker given enough steps makes one turn per address and then
leaves its loop. -/
theorem Worker.iter_seqRun (env : Env) : ∀ (q : Nat) (sh : Shared) (m : Nat),
    sh.jobsCh.length = q → 10 * q + 1 ≤ m →
      Worker.iter env m (sh, Worker.recv) = (seqRun env q sh, Worker.exited) := by
  intro q
  induction q with
  | zero =>
      intro sh m hq hm
      have hnil : sh.jobsCh = [] := List.length_eq_zero.mp hq
      obtain ⟨m1, rfl⟩ : ∃ m1, m = m1 + 1 := ⟨m - 1, by omega⟩
      have hstep : Worker.recv.step env sh = (sh, Worker.exited) := by
        simp [Worker.step, hnil]
      simp only [Worker.iter, hstep, Worker.iter_exited, seqRun]
  | succ q ih =>
      intro sh m hq hm
      obtain ⟨ie, rest, hcons⟩ : ∃ ie rest, sh.jobsCh = ie :: rest := by
        cases hj : sh.jobsCh with
        | nil => rw [hj] at hq; simp at hq
        | cons ie rest => exact ⟨ie, rest, rfl⟩
      obtain ⟨i, e⟩ := ie
      obtain ⟨k, hk1, hk10, hiter, hrecv, hrest⟩ := Worker.turn_iter env sh i e rest hcons
      have hm2 : m = k + (m - k) := by omega
      rw [hm2, Worker.iter_add, hiter]
      have hpair : Worker.turn env sh = ((Worker.turn env sh).1, Worker.recv) := by
        rw [← hrecv]
      rw [hpair]
      have hlen : (Worker.turn env sh).1.jobsCh.length = q := by
        rw [hrest]
        rw [hcons] at hq
        simpa using hq
      rw [ih (Worker.turn env sh).1 (m - k) hlen (by omega)]
      rfl

/-! ### The pool with one worker -/

theorem Sys.exec_single (env : Env) : ∀ (sched : List Nat) (sh : Shared) (w : Worker),
    Sys.exec env { sh := sh, workers := [w] } sched
      = { sh := (Worker.iter env (sched.count 0) (sh, w)).1,
          workers := [(Worker.iter env (sched.count 0) (sh, w)).2] } := by
  intro sched
  induction sched with
  | nil => intro sh w; rfl
  | cons k rest ih =>
      intro sh w
      cases k with
      | zero =>
          have hstep : Sys.step env { sh := sh, workers := [w] } 0
              = { sh := (w.step env sh).1, workers := [(w.step env sh).2] } := by
            simp [Sys.step]
          simp only [Sys.exec, List.foldl_cons, hstep, List.count_cons_self]
          have := ih (w.step env sh).1 (w.step env sh).2
          simp only [Sys.exec] at this
          rw [this]
          rfl
      | succ j =>
          have hstep : Sys.step env { sh := sh, workers := [w] } (j + 1)
              = { sh := sh, workers := [w] } := by
            simp [Sys.step]
          simp only [Sys.exec, List.foldl_cons, hstep]
          have := ih sh w
          simp only [Sys.exec] at this
          rw [this]
          simp

theorem effConcurrency_one (cfg : Config) (n : Nat) : effConcurrency cfg 1 n = 1 := by
  unfold effConcurrency
  simp only
  split <;> split <;> omega

/-- With `concurrency = 1` the pool `runPool` leaves behind is the one a single
worker reaches by making one turn per address. -/
theorem runPool_sequential (env : Env) (cfg : Config) (startedAt finishedAt : Int)
    (mxCache : List (String × Mx)) (job : Job) (emails : List String) (callback : Option CallbackSender) (sched : List Nat) :
    (runPool env cfg startedAt finishedAt mxCache job emails 1 callback
        sched).pool.sh
      = seqRun env emails.length
          (initSys cfg startedAt mxCache job emails 1 callback).sh := by
  have hw : (initSys cfg startedAt mxCache job emails 1 callback).workers
      = [Worker.recv] := by
    simp [initSys, effConcurrency_one]
  have hs : initSys cfg startedAt mxCache job emails 1 callback
      = { sh := (initSys cfg startedAt mxCache job emails 1 callback).sh,
          workers := [Worker.recv] } := by
    rw [← hw]
  have hq : (initSys cfg startedAt mxCache job emails 1 callback).sh.jobsCh.length
      = emails.length := by
    simp [initSys, List.enum_length]
  unfold runPool
  simp only [hw, List.length_singleton]
  rw [hs, Sys.exec_single]
  simp only
  rw [Worker.iter_seqRun env emails.length _ _ hq]
  simp only [List.count_append, drainSchedule]
  simp [List.range_succ]
  omega

/-! ### One turn of a level-2 worker -/

/-- The effect of one turn of a level-2 worker on the log of verifier calls,
the catch-all cache and the results, by the three ways through the loop body:
invalid syntax, catch-all cache hit, call of the verifier. -/
theorem Worker.turn_level2 (env : Env) (sh : Shared) (i : Nat) (e : String)
    (rest : List (Nat × String)) (hq : sh.jobsCh = (i, e) :: rest) (hl : sh.job.Level = 2) :
    ∃ r, (Worker.turn env sh).1.emitted = sh.emitted ++ [(i, r)]
      ∧ (Worker.turn env sh).1.job.results
          = (if sh.job.StoreResults then sh.job.results ++ [r] else sh.job.results)
      ∧ (Worker.turn env sh).1.job.StoreResults = sh.job.StoreResults
      ∧ (Worker.turn env sh).1.job.Level = 2
      ∧ (((env.ParseAddress e).Valid = false
            ∧ (Worker.turn env sh).1.verifyLog = sh.verifyLog
            ∧ (Worker.turn env sh).1.job.domains = sh.job.domains)
          ∨ ((env.ParseAddress e).Valid = true
            ∧ mapGet sh.job.domains (env.ParseAddress e).Domain = some true
            ∧ r = catchAllResult env e
            ∧ (Worker.turn env sh).1.verifyLog = sh.verifyLog
            ∧ (Worker.turn env sh).1.job.domains = sh.job.domains)
          ∨ ((env.ParseAddress e).Valid = true
            ∧ mapGet sh.job.domains (env.ParseAddress e).Domain ≠ some true
            ∧ (Worker.turn env sh).1.verifyLog = sh.verifyLog ++ [i]
            ∧ (Worker.turn env sh).1.job.domains
                = (if verdictCatchAll env i e then
                    mapSet sh.job.domains (env.ParseAddress e).Domain true
                  else sh.job.domains))) := by
  have h12 : ¬ ((2 : Int) = 1) := by decide
  by_cases hv : (env.ParseAddress e).Valid = true
  · by_cases hc : mapGet sh.job.domains (env.ParseAddress e).Domain = some true
    · refine ⟨catchAllResult env e, ?_⟩
      cases hmx : mapGet sh.mxCache (env.ParseAddress e).Domain <;>
        cases hck : env.CheckMX i (env.ParseAddress e).Domain <;>
        simp [Worker.turn, Worker.finish, Worker.step, hq, hl, hv, hc, hmx, hck, h12,
          Job.getCatchAll, Job.incDone, Job.addResult_results, catchAllResult]
    · cases hver : env.Verify i e with
      | error msg =>
          refine ⟨{ Email := e, Result := none, Error := msg }, ?_⟩
          cases hmx : mapGet sh.mxCache (env.ParseAddress e).Domain <;>
            cases hck : env.CheckMX i (env.ParseAddress e).Domain <;>
            simp [Worker.turn, Worker.finish, Worker.step, hq, hl, hv, hc, hmx, hck, h12, hver,
              Job.getCatchAll, Job.incDone, Job.incFailed, Job.addResult_results,
              verdictCatchAll]
      | ok res =>
          refine ⟨{ Email := e, Result := some res, Error := "" }, ?_⟩
          by_cases hca : res.isCatchAll = true
          · cases hmx : mapGet sh.mxCache (env.ParseAddress e).Domain <;>
              cases hck : env.CheckMX i (env.ParseAddress e).Domain <;>
              simp [Worker.turn, Worker.finish, Worker.step, hq, hl, hv, hc, hmx, hck, h12, hver,
                hca, Job.getCatchAll, Job.incDone, Job.setCatchAll, Job.addResult_results,
                verdictCatchAll]
          · cases hmx : mapGet sh.mxCache (env.ParseAddress e).Domain <;>
              cases hck : env.CheckMX i (env.ParseAddress e).Domain <;>
              simp [Worker.turn, Worker.finish, Worker.step, hq, hl, hv, hc, hmx, hck, h12, hver,
                hca, Job.getCatchAll, Job.incDone, Job.setCatchAll, Job.addResult_results,
                verdictCatchAll]
  · refine ⟨{ Email := e, Result := some (invalidVerdict e (env.ParseAddress e)), Error := "" },
      ?_⟩
    simp [Worker.turn, Worker.finish, Worker.step, hq, hl, hv, Job.incDone,
      Job.addResult_results]

theorem enum_drop_cons (l : List String) (p : Nat) (h : p < l.length) :
    l.enum.drop p = (p, l.getD p "") :: l.enum.drop (p + 1) := by
  rw [List.drop_eq_getElem_cons (by simpa [List.enum_length] using h)]
  simp [List.getElem?_eq_getElem h]

/-! ### The catch-all cache over a sequential run -/

theorem SeqInv.turn (env : Env) (emails : List String) (p : Nat) (sh : Shared)
    (inv : SeqInv env emails p sh) (hp : p < emails.length) :
    SeqInv env emails (p + 1) (Worker.turn env sh).1 := by
  have hq : sh.jobsCh = (p, emails.getD p "") :: emails.enum.drop (p + 1) := by
    rw [inv.queue, enum_drop_cons emails p hp]
  obtain ⟨_, _, _, _, _, hrest⟩ := Worker.turn_iter env sh p (emails.getD p "") _ hq
  obtain ⟨r, hem, hres, hst, hlv, hcases⟩ :=
    Worker.turn_level2 env sh p (emails.getD p "") _ hq inv.level
  have hpos : (Worker.turn env sh).1.emitted.map Prod.fst = List.range (p + 1) := by
    rw [hem, List.map_append, inv.positions, List.range_succ]
    rfl
  have hstored : (Worker.turn env sh).1.job.results
      = if (Worker.turn env sh).1.job.StoreResults then
          (Worker.turn env sh).1.emitted.map Prod.snd else [] := by
    rw [hres, hst, hem, inv.stored]
    cases sh.job.StoreResults <;> simp
  have hnotin : p ∉ sh.verifyLog := fun h => absurd (inv.log p h).1 (Nat.lt_irrefl p)
  rcases hcases with ⟨hv, hlog, hdom⟩ | ⟨hv, hc, hr, hlog, hdom⟩ | ⟨hv, hc, hlog, hdom⟩
  · -- invalid syntax
    refine ⟨hrest, hlv, ?_, ?_, ?_, hpos, hstored, ?_, ?_⟩
    · intro D
      rw [hdom, hlog]
      exact inv.cache D
    · intro i hi
      rw [hlog] at hi
      exact ⟨Nat.lt_succ_of_lt (inv.log i hi).1, (inv.log i hi).2⟩
    · rw [hlog]
      exact inv.nodup
    · intro i j hij hj hi hca hvj hd
      rw [hlog] at hi ⊢
      rw [hem]
      by_cases hjp : j < p
      · have := inv.hit i j hij hjp hi hca hvj hd
        exact ⟨this.1, List.mem_append_left _ this.2⟩
      · have hje : j = p := by omega
        rw [hje, hv] at hvj
        cases hvj
    · intro j hj hvj hnot
      rw [hlog] at hnot ⊢
      by_cases hjp : j < p
      · exact inv.miss j hjp hvj hnot
      · have hje : j = p := by omega
        rw [hje, hv] at hvj
        cases hvj
  · -- catch-all cache hit
    refine ⟨hrest, hlv, ?_, ?_, ?_, hpos, hstored, ?_, ?_⟩
    · intro D
      rw [hdom, hlog]
      exact inv.cache D
    · intro i hi
      rw [hlog] at hi
      exact ⟨Nat.lt_succ_of_lt (inv.log i hi).1, (inv.log i hi).2⟩
    · rw [hlog]
      exact inv.nodup
    · intro i j hij hj hi hca hvj hd
      rw [hlog] at hi ⊢
      rw [hem]
      by_cases hjp : j < p
      · have := inv.hit i j hij hjp hi hca hvj hd
        exact ⟨this.1, List.mem_append_left _ this.2⟩
      · have hje : j = p := by omega
        rw [hje]
        refine ⟨hnotin, List.mem_append_right _ ?_⟩
        rw [hr]
        exact List.mem_singleton_self _
    · intro j hj hvj hnot
      rw [hlog] at hnot ⊢
      by_cases hjp : j < p
      · exact inv.miss j hjp hvj hnot
      · have hje : j = p := by omega
        rw [hje]
        obtain ⟨i, hi, hca, hd⟩ := (inv.cache _).mp hc
        exact ⟨i, (inv.log i hi).1, hi, hca, hd⟩
  · -- the verifier is called
    refine ⟨hrest, hlv, ?_, ?_, ?_, hpos, hstored, ?_, ?_⟩
    · intro D
      rw [hdom, hlog]
      by_cases hca : verdictCatchAll env p (emails.getD p "") = true
      · simp only [hca, if_true]
        rw [mapGet_mapSet]
        by_cases hD : D = (env.ParseAddress (emails.getD p "")).Domain
        · rw [if_pos hD]
          constructor
          · intro _
            exact ⟨p, List.mem_append_right _ (List.mem_singleton_self _), hca, hD.symm⟩
          · intro _
            rfl
        · rw [if_neg hD, inv.cache D]
          constructor
          · rintro ⟨i, hi, h1, h2⟩
            exact ⟨i, List.mem_append_left _ hi, h1, h2⟩
          · rintro ⟨i, hi, h1, h2⟩
            rcases List.mem_append.mp hi with h | h
            · exact ⟨i, h, h1, h2⟩
            · rw [List.mem_singleton.mp h] at h2
              exact absurd h2.symm hD
      · have hfalse : verdictCatchAll env p (emails.getD p "") = false := by
          simpa using hca
        simp only [hfalse, Bool.false_eq_true, if_false]
        rw [inv.cache D]
        constructor
        · rintro ⟨i, hi, h1, h2⟩
          exact ⟨i, List.mem_append_left _ hi, h1, h2⟩
        · rintro ⟨i, hi, h1, h2⟩
          rcases List.mem_append.mp hi with h | h
          · exact ⟨i, h, h1, h2⟩
          · rw [List.mem_singleton.mp h] at h1
            exact absurd h1 hca
    · intro i hi
      rw [hlog] at hi
      rcases List.mem_append.mp hi with h | h
      · exact ⟨Nat.lt_succ_of_lt (inv.log i h).1, (inv.log i h).2⟩
      · rw [List.mem_singleton.mp h]
        exact ⟨Nat.lt_succ_self p, hv⟩
    · rw [hlog]
      refine List.nodup_append.mpr ⟨inv.nodup, List.nodup_singleton p, ?_⟩
      intro x hx hx2
      rw [List.mem_singleton.mp hx2] at hx
      exact hnotin hx
    · intro i j hij hj hi hca hvj hd
      rw [hlog] at hi ⊢
      rw [hem]
      have hi0 : i ∈ sh.verifyLog := by
        rcases List.mem_append.mp hi with h | h
        · exact h
        · have := List.mem_singleton.mp h
          omega
      by_cases hjp : j < p
      · have := inv.hit i j hij hjp hi0 hca hvj hd
        refine ⟨?_, List.mem_append_left _ this.2⟩
        intro hmem
        rcases List.mem_append.mp hmem with h | h
        · exact this.1 h
        · have := List.mem_singleton.mp h
          omega
      · have hje : j = p := by omega
        rw [hje] at hd
        have := (inv.cache _).mpr ⟨i, hi0, hca, rfl⟩
        rw [← hd] at this
        exact absurd this hc
    · intro j hj hvj hnot
      rw [hlog] at hnot ⊢
      have hjne : j ≠ p := fun h =>
        hnot (List.mem_append_right _ (by rw [h]; exact List.mem_singleton_self _))
      have hjp : j < p := by omega
      obtain ⟨i, h1, h2, h3, h4⟩ := inv.miss j hjp hvj
        (fun h => hnot (List.mem_append_left _ h))
      exact ⟨i, h1, List.mem_append_left _ h2, h3, h4⟩

theorem SeqInv.seqRun (env : Env) (emails : List String) : ∀ (k p : Nat) (sh : Shared),
    SeqInv env emails p sh → p + k ≤ emails.length →
      SeqInv env emails (p + k) (seqRun env k sh) := by
  intro k
  induction k with
  | zero => intro p sh inv _; exact inv
  | succ k ih =>
      intro p sh inv hle
      have h1 := SeqInv.turn env emails p sh inv (by omega)
      have h2 := ih (p + 1) _ h1 (by omega)
      have he : p + (k + 1) = p + 1 + k := by omega
      rw [he]
      exact h2

/-- The pool of a fresh level-2 job satisfies the sequential invariant before
the first turn. -/
theorem SeqInv.init (env : Env) (cfg : Config) (startedAt : Int)
    (mxCache : List (String × Mx)) (id : String) (createdAt : Int) (storeResults : Bool)
    (emails : List String) (callback : Option CallbackSender) :
    SeqInv env emails 0
      (initSys cfg startedAt mxCache (newJob id createdAt 2 emails.length storeResults)
        emails 1 callback).sh := by
  constructor
  · simp [initSys]
  · rfl
  · intro D
    simp [initSys, Job.markRunning, newJob, mapGet]
  · intro i hi
    simp [initSys] at hi
  · simp [initSys]
  · simp [initSys]
  · simp [initSys, Job.markRunning, newJob]
  · intro i j _ hj
    omega
  · intro j hj
    omega

theorem verdictCatchAll_of_ok (env : Env) (i : Nat) (e : String) (res : Result)
    (h : env.Verify i e = Except.ok res) (hca : res.isCatchAll = true) :
    verdictCatchAll env i e = true := by
  simp [verdictCatchAll, h, hca]

theorem filter_eq_singleton (P : Nat → Bool) (a : Nat) :
    ∀ (l : List Nat), l.Nodup → a ∈ l → P a = true → (∀ j ∈ l, P j = true → j = a) →
      l.filter P = [a] := by
  intro l
  induction l with
  | nil => intro _ h; simp at h
  | cons x xs ih =>
      intro hnd hmem hPa hall
      have hx : x ∉ xs := (List.nodup_cons.mp hnd).1
      have hxs : xs.Nodup := (List.nodup_cons.mp hnd).2
      by_cases hxa : x = a
      · subst hxa
        have hnil : xs.filter P = [] := by
          apply List.filter_eq_nil_iff.mpr
          intro j hj hPj
          have := hall j (List.mem_cons_of_mem _ hj) hPj
          rw [this] at hj
          exact hx hj
        simp [List.filter, hPa, hnil]
      · have hPx : P x = false := by
          cases hP : P x with
          | false => rfl
          | true => exact absurd (hall x (List.mem_cons_self _ _) hP) hxa
        have hmem2 : a ∈ xs := by
          rcases List.mem_cons.mp hmem with h | h
          · exact absurd h.symm hxa
          · exact h
        simp only [List.filter, hPx]
        exact ih hxs hmem2 hPa (fun j hj => hall j (List.mem_cons_of_mem _ hj))

/-- C3: a level-2 job run by one worker (`concurrency = 1`), one address at a
time; `runJob` returns unless the callback set-up panics, and when it has
returned the following holds.  Once the verifier, called for address `i`, has
answered with a verdict whose SMTP section says catch-all, every later
address `j` with valid syntax
and the same parsed domain is not handed to the verifier and gets the
synthesized verdict (`HasMxRecords = true`, `SMTP = {HostExists: true,
CatchAll: true, Deliverable: false}`, `Reachable = "unknown"`); every
position emits one result, and these are the stored results when results are
stored.  Hence, when the first address with valid syntax in a domain gets a
catch-all verdict, the verifier is called for that domain exactly once. -/
theorem catchall_short_circuit (env : Env) (cfg : Config) (jm : JobManager) (id : String)
    (createdAt startedAt finishedAt : Int) (mxCache : List (String × Mx))
    (storeResults : Bool) (emails : List String) (callbackURL : String)
    (callbackBatch : Int) (sched : List Nat) :
    (runJob env cfg startedAt finishedAt mxCache
        (jm.CreateJob id createdAt 2 emails.length storeResults).2 emails 1 callbackURL
        callbackBatch sched = none
        ↔ callbackURL ≠ ""
          ∧ NewCallbackSender callbackURL (if callbackBatch ≤ 0 then 200 else callbackBatch)
              = none)
      ∧ ∀ R : RunResult, runJob env cfg startedAt finishedAt mxCache
        (jm.CreateJob id createdAt 2 emails.length storeResults).2 emails 1 callbackURL
        callbackBatch sched = some R →
        (∀ i j res, i < j → j < emails.length →
            i ∈ R.pool.sh.verifyLog →
            env.Verify i (emails.getD i "") = Except.ok res → res.isCatchAll = true →
            (env.ParseAddress (emails.getD j "")).Valid = true →
            (env.ParseAddress (emails.getD j "")).Domain
              = (env.ParseAddress (emails.getD i "")).Domain →
            j ∉ R.pool.sh.verifyLog
              ∧ (j, catchAllResult env (emails.getD j ""))
                  ∈ R.pool.sh.emitted)
          ∧ R.pool.sh.emitted.map Prod.fst = List.range emails.length
          ∧ R.job.results
              = (if storeResults then
                  R.pool.sh.emitted.map Prod.snd
                else [])
          ∧ (∀ i0 res, i0 < emails.length →
              (env.ParseAddress (emails.getD i0 "")).Valid = true →
              (∀ i, i < i0 → ¬ ((env.ParseAddress (emails.getD i "")).Valid = true
                  ∧ (env.ParseAddress (emails.getD i "")).Domain
                      = (env.ParseAddress (emails.getD i0 "")).Domain)) →
              env.Verify i0 (emails.getD i0 "") = Except.ok res → res.isCatchAll = true →
              R.pool.sh.verifyLog.filter
                (fun j => decide ((env.ParseAddress (emails.getD j "")).Domain
                    = (env.ParseAddress (emails.getD i0 "")).Domain)) = [i0])
          ∧ (∀ e, (catchAllResult env e).Email = e ∧ (catchAllResult env e).Error = ""
              ∧ ∃ v, (catchAllResult env e).Result = some v ∧ v.Email = e
                  ∧ v.Syntax = env.ParseAddress e ∧ v.HasMxRecords = true
                  ∧ v.SMTP = some { HostExists := true, FullInbox := false, CatchAll := true,
                                    Deliverable := false, Disabled := false }
                  ∧ v.Reachable = "unknown") := by
  refine ⟨runJob_eq_none env cfg startedAt finishedAt mxCache _ emails 1 callbackURL
    callbackBatch sched, ?_⟩
  intro R hR
  obtain ⟨callback, _, rfl⟩ := runJob_eq_some env cfg startedAt finishedAt mxCache _ emails
    1 callbackURL callbackBatch sched R hR
  have hsh := runPool_sequential env cfg startedAt finishedAt mxCache
    (jm.CreateJob id createdAt 2 emails.length storeResults).2 emails callback sched
  have inv : SeqInv env emails emails.length
      (runPool env cfg startedAt finishedAt mxCache
        (jm.CreateJob id createdAt 2 emails.length storeResults).2 emails 1 callback sched).pool.sh := by
    rw [hsh]
    have h0 := SeqInv.init env cfg startedAt mxCache id createdAt storeResults emails
      callback
    have := SeqInv.seqRun env emails emails.length 0 _ h0 (by omega)
    simpa using this
  have hfr := runPool_frame env cfg startedAt finishedAt mxCache
    (jm.CreateJob id createdAt 2 emails.length storeResults).2 emails 1 callback sched
  refine ⟨?_, inv.positions, ?_, ?_, ?_⟩
  · intro i j res hij hj hi hver hca hvj hd
    exact inv.hit i j hij hj hi (verdictCatchAll_of_ok env i _ res hver hca) hvj hd
  · have hs := inv.stored
    rw [hfr.2.1] at hs
    exact hs
  · intro i0 res hi0 hv0 hfirst hver hca
    have hC := verdictCatchAll_of_ok env i0 _ res hver hca
    have hmem : i0 ∈ (runPool env cfg startedAt finishedAt mxCache
        (jm.CreateJob id createdAt 2 emails.length storeResults).2 emails 1 callback sched).pool.sh.verifyLog := by
      by_contra hnot
      obtain ⟨i, h1, h2, _, h4⟩ := inv.miss i0 hi0 hv0 hnot
      exact hfirst i h1 ⟨(inv.log i h2).2, h4⟩
    refine filter_eq_singleton _ i0 _ inv.nodup hmem (by simp) ?_
    intro j hj hPj
    have hdj : (env.ParseAddress (emails.getD j "")).Domain
        = (env.ParseAddress (emails.getD i0 "")).Domain := by simpa using hPj
    have hjl := inv.log j hj
    rcases Nat.lt_trichotomy j i0 with h | h | h
    · exact absurd ⟨hjl.2, hdj⟩ (hfirst j h)
    · exact h
    · exact absurd hj (inv.hit i0 j h hjl.1 hmem hC hjl.2 hdj).1
  · intro e
    exact ⟨rfl, rfl, _, rfl, rfl, rfl, rfl, rfl, rfl⟩


theorem catchall_short_circuit_witness :
    ∃ R : RunResult,
      runJob catchAllEnv sampleConfig 1 2 []
          (sampleManager.CreateJob "id1" 0 2 sampleCatchAllEmails.length true).2
          sampleCatchAllEmails 1 "" 0 [] = some R
        ∧ R.pool.sh.verifyLog.filter
            (fun j => decide ((catchAllEnv.ParseAddress (sampleCatchAllEmails.getD j "")).Domain
              = (catchAllEnv.ParseAddress (sampleCatchAllEmails.getD 0 "")).Domain)) = [0] :=
  ⟨_, rfl,
   ((catchall_short_circuit catchAllEnv sampleConfig sampleManager "id1" 0 1 2 [] true
      sampleCatchAllEmails "" 0 []).2 _ rfl).2.2.2.1 0
      { Email := "a@c.test", Reachable := "unknown",
        Syntax := { Username := "u", Domain := domainKey "a@c.test", Valid := true },
        SMTP := some { HostExists := true, FullInbox := false, CatchAll := true,
                       Deliverable := false, Disabled := false },
        Suggestion := "", Disposable := false, RoleAccount := false,
        Free := false, HasMxRecords := true }
      (by decide) rfl (fun i hi => absurd hi (Nat.not_lt_zero i)) rfl rfl⟩


/-! ## Properties: verifier errors -/

theorem Worker.step_holdsOf (env : Env) (emails : List String) (sh : Shared) (w : Worker)
    (hq : ∀ ie ∈ sh.jobsCh, ie.2 = emails.getD ie.1 "") (hw : w.holdsOf emails) :
    (w.step env sh).2.holdsOf emails
      ∧ (∀ ie ∈ (w.step env sh).1.jobsCh, ie.2 = emails.getD ie.1 "") := by
  cases w <;> simp only [Worker.step] <;> (repeat' split) <;>
    simp_all [Worker.holdsOf] <;> (try exact hq) <;> (try exact hq.2)

/-- A step moves the position a worker holds from the channel to the worker
and from the worker to the log of verifier calls, or drops it. -/
theorem Worker.step_fresh (env : Env) (sh : Shared) (w : Worker) :
    ((w.step env sh).1.verifyLog ++ (w.step env sh).2.unverified
        ++ (w.step env sh).1.jobsCh.map Prod.fst).Sublist
      (sh.verifyLog ++ w.unverified ++ sh.jobsCh.map Prod.fst) := by
  cases w <;> simp only [Worker.step] <;> (repeat' split) <;>
    simp_all [Worker.unverified]

theorem Worker.step_unemitted (env : Env) (sh : Shared) (w : Worker) :
    (w.step env sh).1.emitted.map Prod.fst ++ (w.step env sh).2.unemitted
        ++ (w.step env sh).1.jobsCh.map Prod.fst
      = sh.emitted.map Prod.fst ++ w.unemitted ++ sh.jobsCh.map Prod.fst := by
  cases w <;> simp only [Worker.step] <;> (repeat' split) <;>
    simp_all [Worker.unemitted]

theorem Worker.step_owesFailed (env : Env) (emails : List String) (sh : Shared) (w : Worker)
    (hw : w.holdsOf emails) :
    (w.step env sh).1.job.Failed + (w.step env sh).2.owesFailed
        + (sh.verifyLog.filter (fun i => verifyFails env i (emails.getD i ""))).length
      = sh.job.Failed + w.owesFailed
        + ((w.step env sh).1.verifyLog.filter
            (fun i => verifyFails env i (emails.getD i ""))).length := by
  cases w <;> simp only [Worker.step] <;> (repeat' split) <;>
    simp_all [Worker.owesFailed, Worker.holdsOf, Job.setCatchAll, Job.incFailed, Job.incDone,
      List.filter_append, verifyFails, List.filter] <;> omega

theorem Worker.step_stored (env : Env) (sh : Shared) (w : Worker)
    (h : sh.job.results = if sh.job.StoreResults then sh.emitted.map Prod.snd else []) :
    (w.step env sh).1.job.results
      = if (w.step env sh).1.job.StoreResults then (w.step env sh).1.emitted.map Prod.snd
        else [] := by
  cases w <;> simp only [Worker.step] <;> (repeat' split) <;>
    simp_all [Job.setCatchAll, Job.incFailed, Job.incDone, Job.addResult_results]

theorem Worker.step_emitted_mono (env : Env) (sh : Shared) (w : Worker)
    (x : Nat × EmailResult) (hx : x ∈ sh.emitted) : x ∈ (w.step env sh).1.emitted := by
  cases w <;> simp only [Worker.step] <;> (repeat' split) <;> simp_all

theorem Worker.step_recordsError (env : Env) (emails : List String) (sh : Shared) (w : Worker)
    (i : Nat) (msg : String) (h : w.recordsError emails i msg) :
    (w.step env sh).2.recordsError emails i msg
      ∨ (i, errorResult (emails.getD i "") msg) ∈ (w.step env sh).1.emitted := by
  rcases h with h | h
  · subst h
    exact Or.inl (Or.inr rfl)
  · subst h
    refine Or.inr ?_
    simp [Worker.step]

/-- A call of the verifier that is new in the log and ended in an error
leaves the worker with that error to record. -/
theorem Worker.step_new_call (env : Env) (emails : List String) (sh : Shared) (w : Worker)
    (hw : w.holdsOf emails) (i : Nat) (hi : i ∈ (w.step env sh).1.verifyLog)
    (hni : i ∉ sh.verifyLog) (msg : String)
    (hm : env.Verify i (emails.getD i "") = Except.error msg) :
    (w.step env sh).2.recordsError emails i msg := by
  cases w
  case verify j e syn =>
    simp only [Worker.holdsOf] at hw
    have hij : i = j := by
      simp only [Worker.step] at hi
      split at hi
      · simp only [List.mem_append, List.mem_singleton] at hi
        rcases hi with h | h
        · exact absurd h hni
        · exact h
      · split at hi <;>
          · simp only [List.mem_append, List.mem_singleton] at hi
            rcases hi with h | h
            · exact absurd h hni
            · exact h
    subst hij
    subst hw
    simp only [Worker.step, hm]
    exact Or.inl rfl
  all_goals
    exfalso
    revert hi
    simp only [Worker.step]
    (repeat' split) <;> simp_all

theorem mem_set_of_ne {α : Type} : ∀ (l : List α) (k : Nat) (w a b : α),
    l.get? k = some w → a ∈ l → a ≠ w → a ∈ l.set k b := by
  intro l
  induction l with
  | nil => intro k w a b _ ha; simp at ha
  | cons x xs ih =>
      intro k w a b hk ha hne
      cases k with
      | zero =>
          simp only [List.get?_cons_zero, Option.some.injEq] at hk
          subst hk
          rcases List.mem_cons.mp ha with h | h
          · exact absurd h hne
          · simp [h]
      | succ j =>
          simp only [List.get?_cons_succ] at hk
          rcases List.mem_cons.mp ha with h | h
          · simp [h]
          · simp only [List.set_cons_succ, List.mem_cons]
            exact Or.inr (ih j w a b hk h hne)

theorem mem_set_self_of_get? {α : Type} (l : List α) (k : Nat) (w b : α)
    (h : l.get? k = some w) : b ∈ l.set k b := by
  have hlt : k < l.length := get?_some_lt l k w h
  apply List.get?_mem (n := k)
  simp [List.get?_eq_getElem?, List.getElem?_set, hlt]

theorem ErrInv.err_step (env : Env) (emails : List String) (s : Sys) (k : Nat)
    (inv : ErrInv env emails s) : ErrInv env emails (s.step env k) := by
  rcases Sys.step_eq env s k with h | ⟨w, hw, h⟩
  · rw [h]
    exact inv
  · rw [h]
    have hmem : w ∈ s.workers := List.get?_mem hw
    have hold := Worker.step_holdsOf env emails s.sh w inv.queue (inv.held w hmem)
    constructor
    · exact hold.2
    · intro w1 hw1
      rcases List.mem_or_eq_of_mem_set hw1 with h1 | h1
      · exact inv.held w1 h1
      · rw [h1]
        exact hold.1
    · have hsub : (↑((w.step env s.sh).1.verifyLog ++ (w.step env s.sh).2.unverified
            ++ (w.step env s.sh).1.jobsCh.map Prod.fst) : Multiset Nat)
          ≤ ↑(s.sh.verifyLog ++ w.unverified ++ s.sh.jobsCh.map Prod.fst) :=
        Multiset.coe_le.mpr (Worker.step_fresh env s.sh w).subperm
      simp only [← Multiset.coe_add] at hsub
      have e2 := sum_map_set (fun w => (↑w.unverified : Multiset Nat)) s.workers k w
        (w.step env s.sh).2 hw
      have e3 := inv.fresh
      simp only
      apply le_of_add_le_add_right (a := (↑w.unverified : Multiset Nat))
      calc (↑(w.step env s.sh).1.verifyLog : Multiset Nat)
              + ((s.workers.set k (w.step env s.sh).2).map
                  (fun w => (↑w.unverified : Multiset Nat))).sum
              + ↑((w.step env s.sh).1.jobsCh.map Prod.fst) + ↑w.unverified
            = (↑(w.step env s.sh).1.verifyLog : Multiset Nat)
              + ↑((w.step env s.sh).1.jobsCh.map Prod.fst)
              + (((s.workers.set k (w.step env s.sh).2).map
                  (fun w => (↑w.unverified : Multiset Nat))).sum + ↑w.unverified) := by abel
        _ = (↑(w.step env s.sh).1.verifyLog : Multiset Nat)
              + ↑((w.step env s.sh).1.jobsCh.map Prod.fst)
              + ((s.workers.map (fun w => (↑w.unverified : Multiset Nat))).sum
                  + ↑(w.step env s.sh).2.unverified) := by rw [e2]
        _ = (s.workers.map (fun w => (↑w.unverified : Multiset Nat))).sum
              + ((↑(w.step env s.sh).1.verifyLog : Multiset Nat)
                  + ↑(w.step env s.sh).2.unverified
                  + ↑((w.step env s.sh).1.jobsCh.map Prod.fst)) := by abel
        _ ≤ (s.workers.map (fun w => (↑w.unverified : Multiset Nat))).sum
              + ((↑s.sh.verifyLog : Multiset Nat) + ↑w.unverified
                  + ↑(s.sh.jobsCh.map Prod.fst)) := add_le_add_left hsub _
        _ = (↑s.sh.verifyLog : Multiset Nat)
              + (s.workers.map (fun w => (↑w.unverified : Multiset Nat))).sum
              + ↑(s.sh.jobsCh.map Prod.fst) + ↑w.unverified := by abel
        _ ≤ ↑(List.range emails.length) + ↑w.unverified := add_le_add_right e3 _
    · have e1 := congrArg (fun l : List Nat => (↑l : Multiset Nat))
        (Worker.step_unemitted env s.sh w)
      simp only [← Multiset.coe_add] at e1
      have e2 := sum_map_set (fun w => (↑w.unemitted : Multiset Nat)) s.workers k w
        (w.step env s.sh).2 hw
      have e3 := inv.once
      simp only
      apply add_right_cancel (b := (↑w.unemitted : Multiset Nat))
      calc (↑((w.step env s.sh).1.emitted.map Prod.fst) : Multiset Nat)
              + ((s.workers.set k (w.step env s.sh).2).map
                  (fun w => (↑w.unemitted : Multiset Nat))).sum
              + ↑((w.step env s.sh).1.jobsCh.map Prod.fst) + ↑w.unemitted
            = (↑((w.step env s.sh).1.emitted.map Prod.fst) : Multiset Nat)
              + ↑((w.step env s.sh).1.jobsCh.map Prod.fst)
              + (((s.workers.set k (w.step env s.sh).2).map
                  (fun w => (↑w.unemitted : Multiset Nat))).sum + ↑w.unemitted) := by abel
        _ = (↑((w.step env s.sh).1.emitted.map Prod.fst) : Multiset Nat)
              + ↑((w.step env s.sh).1.jobsCh.map Prod.fst)
              + ((s.workers.map (fun w => (↑w.unemitted : Multiset Nat))).sum
                  + ↑(w.step env s.sh).2.unemitted) := by rw [e2]
        _ = (s.workers.map (fun w => (↑w.unemitted : Multiset Nat))).sum
              + ((↑((w.step env s.sh).1.emitted.map Prod.fst) : Multiset Nat)
                  + ↑(w.step env s.sh).2.unemitted
                  + ↑((w.step env s.sh).1.jobsCh.map Prod.fst)) := by abel
        _ = (s.workers.map (fun w => (↑w.unemitted : Multiset Nat))).sum
              + ((↑(s.sh.emitted.map Prod.fst) : Multiset Nat) + ↑w.unemitted
                  + ↑(s.sh.jobsCh.map Prod.fst)) := by rw [e1]
        _ = (↑(s.sh.emitted.map Prod.fst) : Multiset Nat)
              + (s.workers.map (fun w => (↑w.unemitted : Multiset Nat))).sum
              + ↑(s.sh.jobsCh.map Prod.fst) + ↑w.unemitted := by abel
        _ = ↑(List.range emails.length) + ↑w.unemitted := by rw [e3]
    · have h1 := sum_map_set Worker.owesFailed s.workers k w (w.step env s.sh).2 hw
      have h2 := Worker.step_owesFailed env emails s.sh w (inv.held w hmem)
      have h3 := inv.failed
      simp only
      omega
    · intro i hi msg hm
      simp only at hi ⊢
      by_cases hold2 : i ∈ s.sh.verifyLog
      · rcases inv.errors i hold2 msg hm with hem | ⟨w0, hw0, hrec⟩
        · exact Or.inl (Worker.step_emitted_mono env s.sh w _ hem)
        · by_cases hww : w0 = w
          · rw [hww] at hrec
            rcases Worker.step_recordsError env emails s.sh w i msg hrec with h1 | h1
            · exact Or.inr ⟨_, mem_set_self_of_get? _ _ _ _ hw, h1⟩
            · exact Or.inl h1
          · exact Or.inr ⟨w0, mem_set_of_ne _ _ _ _ _ hw hw0 hww, hrec⟩
      · exact Or.inr ⟨_, mem_set_self_of_get? _ _ _ _ hw,
          Worker.step_new_call env emails s.sh w (inv.held w hmem) i hi hold2 msg hm⟩
    · exact Worker.step_stored env s.sh w inv.stored

theorem sum_map_replicate_recv {M : Type} [AddCommMonoid M] (f : Worker → M)
    (hf : f Worker.recv = 0) (n : Nat) : ((List.replicate n Worker.recv).map f).sum = 0 := by
  induction n with
  | zero => rfl
  | succ n ih => simp [List.replicate_succ, hf, ih]

/-- The pool `runPool` sets up for a fresh job satisfies the bookkeeping of
verifier errors. -/
theorem ErrInv.err_init (env : Env) (cfg : Config) (startedAt : Int)
    (mxCache : List (String × Mx)) (id : String) (createdAt : Int) (level : Int)
    (storeResults : Bool) (emails : List String) (concurrency : Int) (callback : Option CallbackSender) :
    ErrInv env emails
      (initSys cfg startedAt mxCache (newJob id createdAt level emails.length storeResults)
        emails concurrency callback) := by
  constructor
  · intro ie hie
    obtain ⟨i, x⟩ := ie
    simp only [initSys] at hie
    rw [List.mk_mem_enum_iff_getElem?] at hie
    simp [hie]
  · intro w hw
    simp only [initSys] at hw
    rw [List.eq_of_mem_replicate hw]
    trivial
  · simp only [initSys, List.enum_map_fst]
    rw [sum_map_replicate_recv (fun w => (↑w.unverified : Multiset Nat)) rfl]
    simp
  · simp only [initSys, List.enum_map_fst]
    rw [sum_map_replicate_recv (fun w => (↑w.unemitted : Multiset Nat)) rfl]
    simp
  · simp only [initSys]
    rw [sum_map_replicate_recv Worker.owesFailed rfl]
    rfl
  · intro i hi
    simp [initSys] at hi
  · simp [initSys, Job.markRunning, newJob]


/-! ## Verifier errors at completion -/

/-- The bookkeeping of verifier errors holds in the pool `runPool` leaves
behind. -/
theorem runPool_errInv (env : Env) (cfg : Config) (startedAt finishedAt : Int)
    (mxCache : List (String × Mx)) (id : String) (createdAt : Int) (level : Int)
    (storeResults : Bool) (emails : List String) (concurrency : Int) (callback : Option CallbackSender) (sched : List Nat) :
    ErrInv env emails
      (runPool env cfg startedAt finishedAt mxCache
        (newJob id createdAt level emails.length storeResults) emails concurrency
        callback sched).pool :=
  Sys.exec_invariant env (ErrInv env emails)
    (fun s k hs => ErrInv.err_step env emails s k hs) _ _
    (ErrInv.err_init env cfg startedAt mxCache id createdAt level storeResults emails
      concurrency callback)

set_option maxRecDepth 8000 in
/-- A level-2 job over two addresses on which every call of the verifier
fails. -/
theorem runJob_strictEnv :
    (runJob strictEnv sampleConfig 1 9 [] (newJob "id1" 0 2 2 true)
        ["a@x.org", "b@y.org"] 2 "" 0 []).map
      (fun R => (R.job.Failed, R.job.Total, R.job.Status, R.job.results))
      = some (2, 2, JobStatus.JobCompleted,
          [errorResult "a@x.org" "unreachable host",
           errorResult "b@y.org" "unreachable host"]) := by
  decide

/-- C11: `runJob` returns unless the callback set-up panics, and when it has
returned, for every answer of the verifier and every interleaving of the
workers: every position has exactly one emitted result; the verifier was
called at most once per position; for each call that ended in an error the
one result of that position is the error result, which carries the address,
the message of the error and no verdict; the stored results are the emitted
ones; `Failed` is the number of calls that ended in an error; and the status
is completed.  A level-2 job on which every call fails ends completed with
`Failed` equal to `Total`. -/
theorem verifier_errors_recorded (env : Env) (cfg : Config) (jm : JobManager) (id : String)
    (createdAt startedAt finishedAt : Int) (mxCache : List (String × Mx)) (level : Int)
    (storeResults : Bool) (emails : List String) (concurrency : Int) (callbackURL : String)
    (callbackBatch : Int) (sched : List Nat) :
    (runJob env cfg startedAt finishedAt mxCache
        (jm.CreateJob id createdAt level emails.length storeResults).2 emails concurrency
        callbackURL callbackBatch sched = none
        ↔ callbackURL ≠ ""
          ∧ NewCallbackSender callbackURL (if callbackBatch ≤ 0 then 200 else callbackBatch)
              = none)
      ∧ (∀ R : RunResult, runJob env cfg startedAt finishedAt mxCache
        (jm.CreateJob id createdAt level emails.length storeResults).2 emails concurrency
        callbackURL callbackBatch sched = some R →
        (R.pool.sh.emitted.map Prod.fst).Perm (List.range emails.length)
          ∧ R.pool.sh.verifyLog.Nodup
          ∧ (∀ i ∈ R.pool.sh.verifyLog, i < emails.length)
          ∧ (∀ i ∈ R.pool.sh.verifyLog, ∀ msg,
              env.Verify i (emails.getD i "") = Except.error msg →
              ∀ r, (i, r) ∈ R.pool.sh.emitted ↔ r = errorResult (emails.getD i "") msg)
          ∧ (∀ e msg, (errorResult e msg).Email = e ∧ (errorResult e msg).Error = msg
              ∧ (errorResult e msg).Result = none)
          ∧ R.job.results
              = (if storeResults then R.pool.sh.emitted.map Prod.snd else [])
          ∧ R.job.Failed
              = (R.pool.sh.verifyLog.filter
                  (fun i => verifyFails env i (emails.getD i ""))).length
          ∧ (∀ i e, verifyFails env i e = true ↔ ∃ msg, env.Verify i e = Except.error msg)
          ∧ R.job.Status = JobStatus.JobCompleted)
      ∧ (runJob strictEnv sampleConfig 1 9 [] (newJob "id1" 0 2 2 true)
            ["a@x.org", "b@y.org"] 2 "" 0 []).map
          (fun R => (R.job.Failed, R.job.Total, R.job.Status, R.job.results))
          = some (2, 2, JobStatus.JobCompleted,
              [errorResult "a@x.org" "unreachable host",
               errorResult "b@y.org" "unreachable host"]) := by
  refine ⟨runJob_eq_none env cfg startedAt finishedAt mxCache _ emails concurrency callbackURL
    callbackBatch sched, ?_, runJob_strictEnv⟩
  intro R hR
  obtain ⟨callback, _, rfl⟩ := runJob_eq_some env cfg startedAt finishedAt mxCache _ emails
    concurrency callbackURL callbackBatch sched R hR
  have inv : ErrInv env emails (runPool env cfg startedAt finishedAt mxCache
        (jm.CreateJob id createdAt level emails.length storeResults).2 emails concurrency
        callback sched).pool :=
    runPool_errInv env cfg startedAt finishedAt mxCache id createdAt level storeResults emails
      concurrency callback sched
  obtain ⟨_, hex, _, hq⟩ := runPool_inv env (fun r => r.Email) (fun _ _ => rfl)
    (fun _ _ _ => rfl) (fun _ _ _ _ => rfl) cfg startedAt finishedAt mxCache
    (jm.CreateJob id createdAt level emails.length storeResults).2 emails concurrency
    callback sched rfl rfl rfl
  have hfr := runPool_frame env cfg startedAt finishedAt mxCache
    (jm.CreateJob id createdAt level emails.length storeResults).2 emails concurrency
    callback sched
  have honce := inv.once
  rw [sum_map_exited (fun w => (↑w.unemitted : Multiset Nat)) rfl _ hex, hq] at honce
  simp only [add_zero, List.map_nil, Multiset.coe_nil] at honce
  have hperm := Multiset.coe_eq_coe.mp honce
  have hfresh := inv.fresh
  rw [sum_map_exited (fun w => (↑w.unverified : Multiset Nat)) rfl _ hex, hq] at hfresh
  simp only [add_zero, List.map_nil, Multiset.coe_nil] at hfresh
  have hfailed := inv.failed
  rw [sum_map_exited Worker.owesFailed rfl _ hex] at hfailed
  have hnd : ((runPool env cfg startedAt finishedAt mxCache
        (jm.CreateJob id createdAt level emails.length storeResults).2 emails concurrency
        callback sched).pool.sh.emitted.map Prod.fst).Nodup :=
    hperm.nodup_iff.mpr (List.nodup_range _)
  refine ⟨hperm, ?_, ?_, ?_, fun _ _ => ⟨rfl, rfl, rfl⟩, ?_, ?_, ?_, rfl⟩
  · exact Multiset.coe_nodup.mp
      (Multiset.nodup_of_le hfresh (Multiset.coe_nodup.mpr (List.nodup_range _)))
  · intro i hi
    have := Multiset.mem_of_le hfresh (Multiset.mem_coe.mpr hi)
    exact List.mem_range.mp (Multiset.mem_coe.mp this)
  · intro i hi msg hmsg r
    have hmem : (i, errorResult (emails.getD i "") msg) ∈ (runPool env cfg startedAt finishedAt mxCache
        (jm.CreateJob id createdAt level emails.length storeResults).2 emails concurrency
        callback sched).pool.sh.emitted := by
      rcases inv.errors i hi msg hmsg with h | ⟨w, hw, hrec⟩
      · exact h
      · rw [hex w hw] at hrec
        rcases hrec with h | h <;> cases h
    constructor
    · intro hr
      have := List.inj_on_of_nodup_map hnd hr hmem rfl
      exact congrArg Prod.snd this
    · intro hr
      rw [hr]
      exact hmem
  · have hst := inv.stored
    rw [hfr.2.1] at hst
    exact hst
  · exact hfailed
  · intro i e
    unfold verifyFails
    cases h : env.Verify i e <;> simp


/-! ## Properties: the branches of the loop body -/

/-- C12: an address whose syntax parse is invalid, at either level.  From the
parse on, in whatever state the other workers leave the job, the worker goes
straight to recording the result `{Email, Result: {Email, Syntax: parsed,
Reachable: "no"}}`; in one turn of the loop it passes no control point that
looks up MX records, touches the catch-all cache or calls the verifier, emits
that result (to the job when results are stored, to the callback sender when
there is one), adds one to `Done` and leaves `Failed`, the MX cache, the
catch-all cache and the log of verifier calls as they were. -/
theorem invalid_syntax_turn (env : Env) (i : Nat) (e : String)
    (hinv : (env.ParseAddress e).Valid = false) :
    (∀ sh : Shared,
        ((Worker.token i e).step env sh).2 = Worker.addResult i e (invalidResult env e) false
          ∧ ((Worker.token i e).step env sh).1.job = sh.job
          ∧ ((Worker.token i e).step env sh).1.mxCache = sh.mxCache
          ∧ ((Worker.token i e).step env sh).1.verifyLog = sh.verifyLog
          ∧ ((Worker.token i e).step env sh).1.emitted = sh.emitted)
      ∧ (∀ sh : Shared,
          (Worker.addResult i e (invalidResult env e) false).step env sh
              = ({ sh with job := sh.job.addResult (invalidResult env e),
                           emitted := sh.emitted ++ [(i, invalidResult env e)] },
                  Worker.enqueue i e (invalidResult env e) false)
            ∧ (Worker.enqueue i e (invalidResult env e) false).step env sh
              = ({ sh with callback := sh.callback.map (fun c => c.Enqueue (invalidResult env e)) },
                  Worker.incDone i e false)
            ∧ (Worker.incDone i e false).step env sh
              = ({ sh with job := sh.job.incDone }, Worker.recv))
      ∧ (∀ (sh : Shared) (rest : List (Nat × String)), sh.jobsCh = (i, e) :: rest →
          Worker.turnPath env sh
              = [Worker.recv, Worker.token i e,
                 Worker.addResult i e (invalidResult env e) false,
                 Worker.enqueue i e (invalidResult env e) false,
                 Worker.incDone i e false, Worker.recv]
            ∧ (∀ w ∈ Worker.turnPath env sh,
                w.isMxLookup = false ∧ w.isCatchAllAccess = false ∧ w.isVerifierCall = false)
            ∧ (Worker.turn env sh).2 = Worker.recv
            ∧ (Worker.turn env sh).1.emitted = sh.emitted ++ [(i, invalidResult env e)]
            ∧ (Worker.turn env sh).1.job.results
                = (if sh.job.StoreResults then sh.job.results ++ [invalidResult env e]
                   else sh.job.results)
            ∧ (Worker.turn env sh).1.callback
                = sh.callback.map (fun c => c.Enqueue (invalidResult env e))
            ∧ (Worker.turn env sh).1.job.Done = sh.job.Done + 1
            ∧ (Worker.turn env sh).1.job.Failed = sh.job.Failed
            ∧ (Worker.turn env sh).1.mxCache = sh.mxCache
            ∧ (Worker.turn env sh).1.job.domains = sh.job.domains
            ∧ (Worker.turn env sh).1.verifyLog = sh.verifyLog)
      ∧ ((invalidResult env e).Email = e ∧ (invalidResult env e).Error = ""
          ∧ ∃ v, (invalidResult env e).Result = some v ∧ v.Email = e
              ∧ v.Syntax = env.ParseAddress e ∧ v.Syntax.Valid = false
              ∧ v.Reachable = "no" ∧ v.SMTP = none ∧ v.HasMxRecords = false) := by
  refine ⟨?_, ?_, ?_, ?_⟩
  · intro sh
    by_cases hl : sh.job.Level = 2 <;> simp [Worker.step, hinv, hl, invalidResult]
  · intro sh
    exact ⟨rfl, rfl, rfl⟩
  · intro sh rest hq
    have hpath : Worker.turnPath env sh
        = [Worker.recv, Worker.token i e,
           Worker.addResult i e (invalidResult env e) false,
           Worker.enqueue i e (invalidResult env e) false,
           Worker.incDone i e false, Worker.recv] := by
      by_cases hl : sh.job.Level = 2 <;>
        simp [Worker.turnPath, Worker.pathFrom, Worker.step, hq, hinv, hl, invalidResult]
    refine ⟨hpath, ?_, ?_⟩
    · intro w hw
      rw [hpath] at hw
      simp only [List.mem_cons, List.mem_singleton, List.not_mem_nil, or_false] at hw
      rcases hw with h | h | h | h | h | h <;> rw [h] <;> exact ⟨rfl, rfl, rfl⟩
    · by_cases hl : sh.job.Level = 2 <;>
        simp [Worker.turn, Worker.finish, Worker.step, hq, hinv, hl, invalidResult,
          Job.incDone, Job.addResult_results]
  · exact ⟨rfl, rfl, _, rfl, rfl, rfl, hinv, rfl, rfl, rfl⟩

theorem invalid_syntax_turn_witness :
    (strictEnv.ParseAddress "@@bad").Valid = false
      ∧ (Worker.turn strictEnv sampleLevel1Shared).1.job.Done = sampleLevel1Shared.job.Done + 1
      ∧ (Worker.turn strictEnv sampleLevel1Shared).1.job.Failed = sampleLevel1Shared.job.Failed
      ∧ (Worker.turn strictEnv sampleLevel1Shared).1.emitted
          = sampleLevel1Shared.emitted ++ [(0, invalidResult strictEnv "@@bad")] :=
  ⟨rfl,
   ((invalid_syntax_turn strictEnv 0 "@@bad" rfl).2.2.1 sampleLevel1Shared
      [(1, "ok@example.com")] rfl).2.2.2.2.2.2.1,
   ((invalid_syntax_turn strictEnv 0 "@@bad" rfl).2.2.1 sampleLevel1Shared
      [(1, "ok@example.com")] rfl).2.2.2.2.2.2.2.1,
   ((invalid_syntax_turn strictEnv 0 "@@bad" rfl).2.2.1 sampleLevel1Shared
      [(1, "ok@example.com")] rfl).2.2.2.1⟩

/-- The fields of the verdict of the level-1 branch. -/
theorem level1Result_fields (env : Env) (e : String) (mx : Option Mx) :
    (level1Result env e mx).Email = e ∧ (level1Result env e mx).Error = ""
      ∧ ∃ v, (level1Result env e mx).Result = some v ∧ v.Email = e
          ∧ v.Syntax = env.ParseAddress e ∧ v.SMTP = none
          ∧ (v.HasMxRecords = true ↔ ∃ m, mx = some m ∧ m.HasMXRecord = true)
          ∧ (v.Reachable = "no" ↔ v.HasMxRecords = false)
          ∧ (v.Reachable = "unknown" ↔ v.HasMxRecords = true)
          ∧ v.Disposable = env.IsDisposable (env.ParseAddress e).Domain
          ∧ v.Free = env.IsFreeDomain (env.ParseAddress e).Domain := by
  have hne : ¬ ("unknown" = "no") := by decide
  have hne2 : ¬ ("no" = "unknown") := by decide
  refine ⟨rfl, rfl, level1Verdict env e (env.ParseAddress e) mx, rfl, ?_⟩
  cases mx with
  | none => simp [level1Verdict, mxPresent, hne2]
  | some m =>
      cases hm : m.HasMXRecord <;> simp [level1Verdict, mxPresent, hm, hne, hne2]

/-- C13: an address with valid syntax in a level-1 job.  In whatever state
the other workers leave the job, the worker goes from the parse to the MX
lookup (cache, then `CheckMX` on a miss) and from there to recording a
verdict built from the syntax, the classification and the MX lookup result:
no SMTP section, `HasMxRecords` true exactly when the lookup result is
present and reports an MX record, `Reachable` "no" exactly when
`HasMxRecords` is false and "unknown" otherwise.  In one turn of the loop the
worker passes no call of the verifier, emits that verdict with no error,
adds one to `Done` and leaves `Failed` as it was. -/
theorem level1_valid_turn (env : Env) (i : Nat) (e : String)
    (hv : (env.ParseAddress e).Valid = true) :
    (∀ sh : Shared, sh.job.Level = 1 →
        (Worker.token i e).step env sh = (sh, Worker.mxLoad i e (env.ParseAddress e)))
      ∧ (∀ sh : Shared,
          ((Worker.mxLoad i e (env.ParseAddress e)).step env sh).1 = sh
            ∧ (∀ m, mapGet sh.mxCache (env.ParseAddress e).Domain = some m →
                ((Worker.mxLoad i e (env.ParseAddress e)).step env sh).2
                  = Worker.getCatchAll i e (env.ParseAddress e) (some m))
            ∧ (mapGet sh.mxCache (env.ParseAddress e).Domain = none →
                ((Worker.mxLoad i e (env.ParseAddress e)).step env sh).2
                  = Worker.checkMX i e (env.ParseAddress e))
            ∧ ((Worker.checkMX i e (env.ParseAddress e)).step env sh).2
                = Worker.getCatchAll i e (env.ParseAddress e)
                    (env.CheckMX i (env.ParseAddress e).Domain))
      ∧ (∀ (sh : Shared) (mx : Option Mx), sh.job.Level = 1 →
          (Worker.getCatchAll i e (env.ParseAddress e) mx).step env sh
              = (sh, Worker.addResult i e (level1Result env e mx) false)
            ∧ (Worker.addResult i e (level1Result env e mx) false).step env sh
              = ({ sh with job := sh.job.addResult (level1Result env e mx),
                           emitted := sh.emitted ++ [(i, level1Result env e mx)] },
                  Worker.enqueue i e (level1Result env e mx) false)
            ∧ (Worker.enqueue i e (level1Result env e mx) false).step env sh
              = ({ sh with
                    callback := sh.callback.map (fun c => c.Enqueue (level1Result env e mx)) },
                  Worker.incDone i e false)
            ∧ (Worker.incDone i e false).step env sh
              = ({ sh with job := sh.job.incDone }, Worker.recv))
      ∧ (∀ (sh : Shared) (rest : List (Nat × String)), sh.job.Level = 1 →
          sh.jobsCh = (i, e) :: rest →
          (∀ w ∈ Worker.turnPath env sh, w.isVerifierCall = false)
            ∧ (Worker.turn env sh).2 = Worker.recv
            ∧ (Worker.turn env sh).1.emitted
                = sh.emitted ++ [(i, level1Result env e
                    (mxLookup env sh.mxCache i (env.ParseAddress e).Domain))]
            ∧ (Worker.turn env sh).1.job.results
                = (if sh.job.StoreResults then
                    sh.job.results ++ [level1Result env e
                      (mxLookup env sh.mxCache i (env.ParseAddress e).Domain)]
                   else sh.job.results)
            ∧ (Worker.turn env sh).1.callback
                = sh.callback.map (fun c => c.Enqueue (level1Result env e
                    (mxLookup env sh.mxCache i (env.ParseAddress e).Domain)))
            ∧ (Worker.turn env sh).1.job.Done = sh.job.Done + 1
            ∧ (Worker.turn env sh).1.job.Failed = sh.job.Failed
            ∧ (Worker.turn env sh).1.verifyLog = sh.verifyLog
            ∧ (Worker.turn env sh).1.tokens = sh.tokens
            ∧ (Worker.turn env sh).1.job.domains = sh.job.domains)
      ∧ (∀ mx : Option Mx,
          (level1Result env e mx).Email = e ∧ (level1Result env e mx).Error = ""
            ∧ ∃ v, (level1Result env e mx).Result = some v ∧ v.Email = e
                ∧ v.Syntax = env.ParseAddress e ∧ v.SMTP = none
                ∧ (v.HasMxRecords = true ↔ ∃ m, mx = some m ∧ m.HasMXRecord = true)
                ∧ (v.Reachable = "no" ↔ v.HasMxRecords = false)
                ∧ (v.Reachable = "unknown" ↔ v.HasMxRecords = true)
                ∧ v.Disposable = env.IsDisposable (env.ParseAddress e).Domain
                ∧ v.Free = env.IsFreeDomain (env.ParseAddress e).Domain) := by
  have h12 : ¬ ((1 : Int) = 2) := by decide
  refine ⟨?_, ?_, ?_, ?_, fun mx => level1Result_fields env e mx⟩
  · intro sh hl
    simp [Worker.step, hv, hl, h12]
  · intro sh
    refine ⟨?_, ?_, ?_, ?_⟩
    · cases hmx : mapGet sh.mxCache (env.ParseAddress e).Domain <;> simp [Worker.step, hmx]
    · intro m hm
      simp [Worker.step, hm]
    · intro hm
      simp [Worker.step, hm]
    · cases hck : env.CheckMX i (env.ParseAddress e).Domain <;> simp [Worker.step, hck]
  · intro sh mx hl
    refine ⟨?_, rfl, rfl, rfl⟩
    simp [Worker.step, hl, level1Result]
  · intro sh rest hl hq
    refine ⟨?_, ?_⟩
    · cases hmx : mapGet sh.mxCache (env.ParseAddress e).Domain <;>
        cases hck : env.CheckMX i (env.ParseAddress e).Domain <;>
        simp [Worker.turnPath, Worker.pathFrom, Worker.step, hq, hv, hl, h12, hmx, hck,
          Worker.isVerifierCall]
    · cases hmx : mapGet sh.mxCache (env.ParseAddress e).Domain <;>
        cases hck : env.CheckMX i (env.ParseAddress e).Domain <;>
        simp [Worker.turn, Worker.finish, Worker.step, hq, hv, hl, h12, hmx, hck,
          level1Result, mxLookup, Job.incDone, Job.addResult_results]

theorem level1_valid_turn_witness :
    (echoEnv.ParseAddress "a@example.com").Valid = true
      ∧ (Worker.turn echoEnv
            (initSys sampleConfig 1 [] (newJob "id1" 0 1 1 true) ["a@example.com"] 1 none).sh).1.emitted
          = (initSys sampleConfig 1 [] (newJob "id1" 0 1 1 true) ["a@example.com"] 1 none).sh.emitted
              ++ [(0, level1Result echoEnv "a@example.com"
                    (mxLookup echoEnv
                      (initSys sampleConfig 1 [] (newJob "id1" 0 1 1 true) ["a@example.com"] 1 none).sh.mxCache 0 (echoEnv.ParseAddress "a@example.com").Domain))] :=
  ⟨rfl,
   ((level1_valid_turn echoEnv 0 "a@example.com" rfl).2.2.2.1
      (initSys sampleConfig 1 [] (newJob "id1" 0 1 1 true) ["a@example.com"] 1 none).sh
      [] rfl rfl).2.2.1⟩


/-! ## Properties: the results endpoint -/

theorem wrapInt_of_range (x : Int) (h1 : -(2 ^ 63) ≤ x) (h2 : x < 2 ^ 63) : wrapInt x = x := by
  unfold wrapInt
  omega

/-- With a limit that is not negative `getResults` does not panic and returns
the stored results from position `offset` on, at most `limit` of them, with
the number of stored results. -/
theorem getResults_of_nonneg_limit (job : Job) (offset limit : Int) (ho : 0 ≤ offset)
    (hl : 0 ≤ limit) (hl5 : limit ≤ 5000) (hlen : (job.results.length : Int) + 5000 < 2 ^ 63) :
    job.getResults offset limit
      = some ((job.results.drop offset.toNat).take limit.toNat, (job.results.length : Int)) := by
  unfold Job.getResults
  dsimp only
  by_cases hgt : offset > (job.results.length : Int)
  · rw [if_pos hgt]
    have hd : job.results.drop offset.toNat = [] := by
      apply List.drop_eq_nil_of_le
      omega
    rw [hd, List.take_nil]
  · rw [if_neg hgt, wrapInt_of_range (offset + limit) (by omega) (by omega)]
    by_cases hend : offset + limit > (job.results.length : Int)
    · rw [if_pos hend]
      unfold goSlice
      have hc : 0 ≤ offset ∧ offset ≤ (job.results.length : Int)
          ∧ (job.results.length : Int) ≤ (job.results.length : Int) := ⟨ho, by omega, le_refl _⟩
      rw [if_pos hc]
      have h1 : ((job.results.length : Int)).toNat - offset.toNat
          = (job.results.drop offset.toNat).length := by
        rw [List.length_drop]
        simp
      rw [h1, List.take_length]
      have h2 : (job.results.drop offset.toNat).take limit.toNat
          = job.results.drop offset.toNat := by
        apply List.take_of_length_le
        rw [List.length_drop]
        omega
      rw [h2]
    · rw [if_neg hend]
      unfold goSlice
      have hc : 0 ≤ offset ∧ offset ≤ offset + limit
          ∧ offset + limit ≤ (job.results.length : Int) := ⟨ho, by omega, by omega⟩
      rw [if_pos hc]
      have h1 : (offset + limit).toNat - offset.toNat = limit.toNat := by omega
      rw [h1]

/-- With a negative limit and an offset within the stored results
`getResults` slices with an upper bound below the lower one. -/
theorem getResults_of_negative_limit (job : Job) (offset limit : Int) (ho : 0 ≤ offset)
    (hot : offset ≤ (job.results.length : Int)) (hl : limit < 0) (hmin : -(2 ^ 63) ≤ limit)
    (hlen : (job.results.length : Int) < 2 ^ 63) :
    job.getResults offset limit = none := by
  unfold Job.getResults
  dsimp only
  have hgt : ¬ offset > (job.results.length : Int) := by omega
  rw [if_neg hgt, wrapInt_of_range (offset + limit) (by omega) (by omega)]
  have hend : ¬ offset + limit > (job.results.length : Int) := by omega
  rw [if_neg hend]
  unfold goSlice
  have hc : ¬ (0 ≤ offset ∧ offset ≤ offset + limit
      ∧ offset + limit ≤ (job.results.length : Int)) := by omega
  rw [if_neg hc]

/-- C14, failing input: a request `/v1/bulk/{id}/results?limit=-1`.
`parseOffsetLimit` returns offset 0 and limit -1 (it bounds the limit from
above only), and `getResults` then slices `results[0:-1]`, which panics,
whatever the job stores. -/
theorem results_negative_limit_panics :
    parseOffsetLimit "" "-1" = (0, -1)
      ∧ (∀ job : Job, (job.results.length : Int) < 2 ^ 63 → job.getResults 0 (-1) = none)
      ∧ handleBulkByIDResults sampleStoredManager "id1" "GET" "" "-1" = ResultsOutcome.panic
      ∧ handleBulkByIDResults sampleStoredManager "id1" "GET" "2" "-1" = ResultsOutcome.panic := by
  refine ⟨by decide, ?_, by decide, by decide⟩
  intro job hlen
  exact getResults_of_negative_limit job 0 (-1) (le_refl _) (by omega) (by omega) (by omega) hlen

end Bulk
